import Mathlib

/-!
Verification development for the Tak rules engine of this repository
(file tak/TakGame.py, class TakGame).  The Python code is shallowly
embedded: the (n+4, n, n) float32 numpy board becomes a total function
from coordinates to exact rationals (every code path only ever indexes
inside the array, so out-of-range cells are irrelevant junk fixed to
whatever the function returns there), string piece tags become a closed
inductive type, and the loops become structural recursions over
List.range or over the drop-pattern list.  Supply planes hold the same
normalized values the code stores (remaining/allotment); rational
arithmetic reproduces the intended values exactly.
-/

namespace Tak

/-- Piece kinds.  The source uses the string tags flat, standing,
capstone drawn from a closed three-element list; we embed them as an
inductive type. -/
inductive PieceType where
  | flat : PieceType
  | standing : PieceType
  | capstone : PieceType
deriving DecidableEq, Repr

/-- The board: layer, row, column to stored cell value.  Layers 0..n-1
are the stack levels, layers n..n+3 the supply planes, exactly as in
getInitBoard. -/
def Board : Type := Nat → Nat → Nat → ℚ

instance : Inhabited Board := ⟨fun _ _ _ => 0⟩

/-- Write one cell, as in new_board[h0, r0, c0] = v. -/
def bset (b : Board) (h0 r0 c0 : Nat) (v : ℚ) : Board :=
  fun h r c => if h = h0 ∧ r = r0 ∧ c = c0 then v else b h r c

/-- Overwrite a whole plane, as in new_board[l, :, :] = v. -/
def setLayer (b : Board) (l : Nat) (v : ℚ) : Board :=
  fun h r c => if h = l then v else b h r c

/-- Add a constant to a whole plane, as in new_board[l, :, :] -= 1
(with delta = -1). -/
def addLayer (b : Board) (l : Nat) (delta : ℚ) : Board :=
  fun h r c => if h = l then b h r c + delta else b h r c

/-- Standard flat allotment per board size, from _init_piece_counts:
sizes 3..8 use the table, any other size falls back to n*n. -/
def standardFlats (n : Nat) : Nat :=
  if n = 3 then 10 else if n = 4 then 15 else if n = 5 then 21
  else if n = 6 then 30 else if n = 7 then 40 else if n = 8 then 50
  else n * n

/-- Standard capstone allotment per board size, from _init_piece_counts:
sizes 3 and 4 have 0, sizes 5..8 have 1, fallback is 1 iff n >= 5. -/
def standardCaps (n : Nat) : Nat :=
  if n = 3 then 0 else if n = 4 then 0 else if n = 5 then 1
  else if n = 6 then 1 else if n = 7 then 1 else if n = 8 then 1
  else if 5 ≤ n then 1 else 0

/-- The initial board from getInitBoard: game layers all zero, supply
planes filled with max_flats/max_flats (i.e. the normalized remaining
flats) and the capstone count for each player. -/
def initBoard (n : Nat) : Board :=
  fun h _ _ =>
    if h < n then 0
    else if h = n then (standardFlats n : ℚ) / (standardFlats n : ℚ)
    else if h = n + 1 then (standardCaps n : ℚ)
    else if h = n + 2 then (standardFlats n : ℚ) / (standardFlats n : ℚ)
    else if h = n + 3 then (standardCaps n : ℚ)
    else 0

/-- Helper for _get_stack_height: scan layers h, h+1, ... while fuel
remains, returning the first layer holding 0, like the for-loop over
range(n) with its early return. -/
def firstZeroFrom (b : Board) (r c : Nat) : Nat → Nat → Nat
  | h, 0 => h
  | h, fuel + 1 => if b h r c = 0 then h else firstZeroFrom b r c (h + 1) fuel

/-- Embeds _get_stack_height: the first layer below n holding 0, or n
when every game layer is occupied. -/
def stackHeight (n : Nat) (b : Board) (r c : Nat) : Nat :=
  firstZeroFrom b r c 0 n

/-- Embeds _piece_to_value: white (player 1) pieces are 1, 3, 5 and any
other player value gets base 1, giving 2, 4, 6. -/
def pieceToValue (t : PieceType) (player : ℤ) : ℚ :=
  let base : ℚ := if player = 1 then 0 else 1
  match t with
  | PieceType.flat => 1 + base
  | PieceType.standing => 3 + base
  | PieceType.capstone => 5 + base

/-- Embeds _value_to_piece: cell values 1..6 decode to an owner and a
kind, anything else (including the empty value 0) decodes to none. -/
def valueToPiece (v : ℚ) : Option (ℤ × PieceType) :=
  if v = 1 then some (1, PieceType.flat)
  else if v = 2 then some (-1, PieceType.flat)
  else if v = 3 then some (1, PieceType.standing)
  else if v = 4 then some (-1, PieceType.standing)
  else if v = 5 then some (1, PieceType.capstone)
  else if v = 6 then some (-1, PieceType.capstone)
  else none

/-- Embeds the inner recursion of _generate_drop_patterns: all ordered
lists of positive drops summing to the remaining count, using at most
maxDrops squares, listed with the first drop amount ascending exactly as
the Python depth-first generation emits them. -/
def genPatterns : Nat → Nat → List (List Nat)
  | remaining, 0 => if remaining = 0 then [[]] else []
  | remaining, maxDrops + 1 =>
    if remaining = 0 then [[]]
    else
      (List.range remaining).flatMap fun d =>
        (genPatterns (remaining - (d + 1)) maxDrops).map fun p => (d + 1) :: p

/-- Embeds the movement-pattern catalogue built in _init_action_encoding:
for each pickup size 1..n, every drop pattern for that pickup, paired
with the pickup count.  (For total = 1 the Python special case returns
[[1]], which coincides with the general enumeration.) -/
def movementPatterns (n : Nat) : List (Nat × List Nat) :=
  (List.range n).flatMap fun k =>
    (genPatterns (k + 1) (k + 1)).map fun p => (k + 1, p)

/-- num_placement_actions = 3 n^2. -/
def numPlacement (n : Nat) : Nat := 3 * (n * n)

/-- num_movement_actions = n^2 * 4 * P with P the catalogue size. -/
def numMovement (n : Nat) : Nat := n * n * 4 * (movementPatterns n).length

/-- action_size = placements + movements. -/
def actionSize (n : Nat) : Nat := numPlacement n + numMovement n

/-- A semantic action: a placement (kind index, row-major square index)
or a movement (pattern index into the catalogue, direction index, row-
major start square index), the two shapes the integer codec serves. -/
inductive Action where
  | place : Nat → Nat → Action
  | move : Nat → Nat → Nat → Action
deriving DecidableEq, Repr

/-- Structural validity of an action for size n, per the documented
layout: placement kinds 0..2 on a board square; movement pattern index
inside the catalogue, direction 0..3, start square on the board. -/
def StructValid (n : Nat) : Action → Prop
  | Action.place kind pos => kind < 3 ∧ pos < n * n
  | Action.move patIdx dir pos =>
      patIdx < (movementPatterns n).length ∧ dir < 4 ∧ pos < n * n

instance (n : Nat) (a : Action) : Decidable (StructValid n a) := by
  cases a with
  | place kind pos => exact instDecidableAnd
  | move patIdx dir pos => exact instDecidableAnd

/-- Decoding an action index, exactly the arithmetic getNextState and
getValidMoves perform: placements split as piece_type * n^2 + square,
movements split the offset past 3 n^2 as pattern * 4 n^2 + direction
* n^2 + square. -/
def decodeAction (n : Nat) (i : Nat) : Action :=
  if i < numPlacement n then
    Action.place (i / (n * n)) (i % (n * n))
  else
    Action.move ((i - numPlacement n) / (4 * (n * n)))
      ((i - numPlacement n) % (4 * (n * n)) / (n * n))
      ((i - numPlacement n) % (n * n))

/-- Encoding an action index per the documented layout of
_init_action_encoding (the inverse arithmetic of decodeAction). -/
def encodeAction (n : Nat) : Action → Nat
  | Action.place kind pos => kind * (n * n) + pos
  | Action.move patIdx dir pos =>
      numPlacement n + patIdx * (4 * (n * n)) + dir * (n * n) + pos

/-- Direction vectors, index order up, down, left, right as in the
direction_vectors list of getNextState. -/
def dirVec (d : Nat) : ℤ × ℤ :=
  if d = 0 then (-1, 0) else if d = 1 then (1, 0)
  else if d = 2 then (0, -1) else (0, 1)

/-- Number of occupied squares, the total_pieces loop of getNextState
(it counts squares with a nonzero stack, not individual pieces). -/
def countOccupied (n : Nat) (b : Board) : Nat :=
  ((List.range n).flatMap fun r => (List.range n).map fun c => (r, c)).countP
    fun p => decide (0 < stackHeight n b p.1 p.2)

/-- Carried pieces picked off the start stack, top pickup entries in
bottom-to-top order, with the same 0 <= idx < n guard the Python loop
applies to each source layer. -/
def pickupList (n : Nat) (b : Board) (sr sc h0 pickup : Nat) : List ℚ :=
  (List.range pickup).filterMap fun (i : Nat) =>
    let idx : ℤ := (h0 : ℤ) - (pickup : ℤ) + (i : ℤ)
    if 0 ≤ idx ∧ idx < (n : ℤ) then some (b idx.toNat sr sc) else none

/-- Zeroing the picked-up layers of the start stack, mirroring the same
guarded loop (each iteration reads a distinct layer, so reading before
or after the earlier zero-writes is equivalent). -/
def pickupClear (n : Nat) (b : Board) (sr sc h0 pickup : Nat) : Board :=
  (List.range pickup).foldl
    (fun (acc : Board) (i : Nat) =>
      let idx : ℤ := (h0 : ℤ) - (pickup : ℤ) + (i : ℤ)
      if 0 ≤ idx ∧ idx < (n : ℤ) then bset acc idx.toNat sr sc 0 else acc)
    b

/-- Whether the current player owns the top of the start stack: the
Python comparison top_player == player, where an undecodable top yields
None and therefore never equals the player. -/
def topOwned (b : Board) (h0 sr sc : Nat) (player : ℤ) : Bool :=
  match valueToPiece (b (h0 - 1) sr sc) with
  | some (tp, _) => decide (tp = player)
  | none => false

/-- The inner drop loop of getNextState for one destination square:
repeat drop count times, and whenever pieces remain and the square is
below full height write the next carried piece at the current height;
a piece is consumed only when actually written. -/
def dropPieces (n : Nat) (carried : List ℚ) :
    Nat → Board → Nat → Nat → Nat → Board × Nat
  | 0, b, _, _, ci => (b, ci)
  | k + 1, b, r, c, ci =>
    if ci < carried.length then
      let dh := stackHeight n b r c
      if dh < n then
        dropPieces n carried k (bset b dh r c (carried.getD ci 0)) r c (ci + 1)
      else dropPieces n carried k b r c ci
    else dropPieces n carried k b r c ci

/-- The movement walk of getNextState: advance one square per drop
count; going out of bounds or hitting a blocking top returns a fresh
copy of the original input board (orig), a capstone as the genuinely
last dropped piece flattens a standing stone, and otherwise pieces are
dropped and the walk continues. -/
def moveLoop (n : Nat) (orig : Board) (carried : List ℚ) (lastCnt : Nat)
    (dr dc : ℤ) : List Nat → Board → ℤ → ℤ → Nat → Board
  | [], b, _, _, _ => b
  | cnt :: rest, b, r, c, ci =>
    let r' := r + dr
    let c' := c + dc
    if r' < 0 ∨ (n : ℤ) ≤ r' ∨ c' < 0 ∨ (n : ℤ) ≤ c' then orig
    else
      let rn := r'.toNat
      let cn := c'.toNat
      let th := stackHeight n b rn cn
      let topInfo := if 0 < th then valueToPiece (b (th - 1) rn cn) else none
      match topInfo with
      | some (_, PieceType.capstone) => orig
      | some (tp, PieceType.standing) =>
        if cnt = lastCnt ∧ ci + cnt = carried.length then
          match valueToPiece (carried.getD (ci + cnt - 1) 0) with
          | some (_, PieceType.capstone) =>
            let b1 := bset b (th - 1) rn cn (pieceToValue PieceType.flat tp)
            let s := dropPieces n carried cnt b1 rn cn ci
            moveLoop n orig carried lastCnt dr dc rest s.1 r' c' s.2
          | _ => orig
        else orig
      | _ =>
        let s := dropPieces n carried cnt b rn cn ci
        moveLoop n orig carried lastCnt dr dc rest s.1 r' c' s.2

/-- The placement suite of getNextState, taking the decoded piece-type
index and square index.  The target square is the row-major decode of
pos; opening moves (fewer than two occupied squares) force a flat owned
by the opponent; the supply plane of the ARGUMENT player is then
decremented (normalized for flats, direct for capstones). -/
def applyPlacement (n : Nat) (b : Board) (player : ℤ) (ptIdx pos : Nat) :
    Board × ℤ :=
  let row := pos / n
  let col := pos % n
  let height := stackHeight n b row col
  if height < n then
    let pieceType :=
      if ptIdx = 0 then PieceType.flat
      else if ptIdx = 1 then PieceType.standing else PieceType.capstone
    let isOpening := countOccupied n b < 2
    let pt := if isOpening then PieceType.flat else pieceType
    let value := pieceToValue pt (if isOpening then -player else player)
    let b1 := bset b height row col value
    let maxF : ℚ := (standardFlats n : ℚ)
    if player = 1 then
      if pt = PieceType.capstone then (addLayer b1 (n + 1) (-1), -player)
      else (setLayer b1 n ((b1 n 0 0 * maxF - 1) / maxF), -player)
    else
      if pt = PieceType.capstone then (addLayer b1 (n + 3) (-1), -player)
      else (setLayer b1 (n + 2) ((b1 (n + 2) 0 0 * maxF - 1) / maxF), -player)
  else (b, -player)

/-- The movement suite of getNextState, taking the decoded pattern,
direction and square indices: bound-check the pattern index, then check
pickup feasibility and ownership, then pick up and run the drop walk
(whose failure paths return the original board). -/
def applyMovement (n : Nat) (b : Board) (player : ℤ) (patIdx dir pos : Nat) :
    Board × ℤ :=
  let sr := pos / n
  let sc := pos % n
  if (movementPatterns n).length ≤ patIdx then (b, -player)
  else
    let pk := (movementPatterns n).getD patIdx (0, [])
    let pickup := pk.1
    let pattern := pk.2
    let d := dirVec dir
    let h0 := stackHeight n b sr sc
    if h0 < pickup then (b, -player)
    else if 0 < h0 ∧ topOwned b h0 sr sc player = false then (b, -player)
    else
      let carried := pickupList n b sr sc h0 pickup
      let b1 := pickupClear n b sr sc h0 pickup
      (moveLoop n b carried (pattern.getLastD 0) d.1 d.2 pattern b1
        (sr : ℤ) (sc : ℤ) 0, -player)

/-- Embeds getNextState.  The copy np.copy(board) is the identity in
this value semantics; every early return of the Python function
therefore returns the input board itself with the turn flipped.  The
action index is decoded exactly as in the source and the corresponding
suite applied. -/
def getNextState (n : Nat) (b : Board) (player : ℤ) (action : Nat) :
    Board × ℤ :=
  if action < numPlacement n then
    applyPlacement n b player (action / (n * n)) (action % (n * n))
  else
    applyMovement n b player ((action - numPlacement n) / (4 * (n * n)))
      ((action - numPlacement n) % (4 * (n * n)) / (n * n))
      ((action - numPlacement n) % (n * n))

/-- The simulation walk of _is_valid_movement: per drop square, check
bounds, check the blocking rules on the pristine board (the flattening
exception applies only when this is the last entry of the drop pattern
and the top carried piece is a capstone), check there are enough carried
pieces, and finally require that every carried piece was dropped. -/
def validWalk (n : Nat) (b : Board) (carried : List ℚ) (dr dc : ℤ) :
    List Nat → ℤ → ℤ → Nat → Bool
  | [], _, _, ci => decide (ci = carried.length)
  | cnt :: rest, r, c, ci =>
    let r' := r + dr
    let c' := c + dc
    if r' < 0 ∨ (n : ℤ) ≤ r' ∨ c' < 0 ∨ (n : ℤ) ≤ c' then false
    else
      let rn := r'.toNat
      let cn := c'.toNat
      let th := stackHeight n b rn cn
      let topInfo := if 0 < th then valueToPiece (b (th - 1) rn cn) else none
      let blocked : Bool :=
        match topInfo with
        | some (_, PieceType.capstone) => true
        | some (_, PieceType.standing) =>
          if rest.isEmpty ∧ ci + cnt ≤ carried.length then
            match valueToPiece (carried.getD (ci + cnt - 1) 0) with
            | some (_, PieceType.capstone) => false
            | _ => true
          else true
        | _ => false
      if blocked then false
      else if carried.length < ci + cnt then false
      else validWalk n b carried dr dc rest r' c' (ci + cnt)

/-- Embeds _is_valid_movement: gather the carried pieces from the start
stack and simulate the walk on the unmodified board. -/
def isValidMovement (n : Nat) (b : Board) (sr sc dir pickup : Nat)
    (pattern : List Nat) : Bool :=
  let d := dirVec dir
  let h0 := stackHeight n b sr sc
  let carried := pickupList n b sr sc h0 pickup
  validWalk n b carried d.1 d.2 pattern (sr : ℤ) (sc : ℤ) 0

/-- Remaining flats of a player in counter units, the board[n or n+2,
0, 0] * max_flats read of getValidMoves. -/
def remainingFlats (n : Nat) (b : Board) (player : ℤ) : ℚ :=
  (if player = 1 then b n 0 0 else b (n + 2) 0 0) * (standardFlats n : ℚ)

/-- Remaining capstones of a player, the board[n+1 or n+3, 0, 0] read
of getValidMoves. -/
def remainingCaps (n : Nat) (b : Board) (player : ℤ) : ℚ :=
  if player = 1 then b (n + 1) 0 0 else b (n + 3) 0 0

/-- Embeds getValidMoves pointwise: the loops of the source write each
action index independently (the placement loops touch exactly the
indices below 3 n^2, the movement loop the rest, each index exactly
once), so the array entry for an index is the value computed here. -/
def validPlacement (n : Nat) (b : Board) (player : ℤ) (ptIdx pos : Nat) :
    Bool :=
  let row := pos / n
  let col := pos % n
  let hasPiece : Bool :=
    if ptIdx = 2 then decide ((1 : ℚ) / 2 ≤ remainingCaps n b player)
    else decide ((1 : ℚ) ≤ remainingFlats n b player)
  hasPiece && decide (stackHeight n b row col = 0)

/-- The movement entry of getValidMoves for one decoded (pattern,
direction, square) triple: the skip conditions of the source loop in
order (pattern index bound, empty start, pickup above height, pickup
above n, foreign top), then the path simulation. -/
def validMovementEntry (n : Nat) (b : Board) (player : ℤ)
    (patIdx dir pos : Nat) : Bool :=
  let sr := pos / n
  let sc := pos % n
  if (movementPatterns n).length ≤ patIdx then false
  else
    let pk := (movementPatterns n).getD patIdx (0, [])
    let pickup := pk.1
    let pattern := pk.2
    let h0 := stackHeight n b sr sc
    if h0 = 0 then false
    else if h0 < pickup then false
    else if n < pickup then false
    else if topOwned b h0 sr sc player = false then false
    else isValidMovement n b sr sc dir pickup pattern

def validMove (n : Nat) (b : Board) (player : ℤ) (action : Nat) : Bool :=
  if action < numPlacement n then
    validPlacement n b player (action / (n * n)) (action % (n * n))
  else
    validMovementEntry n b player ((action - numPlacement n) / (4 * (n * n)))
      ((action - numPlacement n) % (4 * (n * n)) / (n * n))
      ((action - numPlacement n) % (n * n))

/-- The four neighbour offsets scanned by the BFS of _has_road_from, in
source order. -/
def nbrOffsets : List (ℤ × ℤ) := [(0, 1), (0, -1), (1, 0), (-1, 0)]

/-- Whether a position is one of the n x n grid squares. -/
def inGrid (n : Nat) (p : ℤ × ℤ) : Prop :=
  0 ≤ p.1 ∧ p.1 < (n : ℤ) ∧ 0 ≤ p.2 ∧ p.2 < (n : ℤ)

instance (n : Nat) (p : ℤ × ℤ) : Decidable (inGrid n p) := by
  unfold inGrid
  exact instDecidableAnd

/-- Whether a grid square counts for the road of the side whose flat
and capstone cell values are tf and tc: nonzero stack whose top cell is
tf or tc, the membership test of the BFS. -/
def roadSquare (n : Nat) (b : Board) (tf tc : ℚ) (p : ℤ × ℤ) : Bool :=
  let r := p.1.toNat
  let c := p.2.toNat
  let h := stackHeight n b r c
  decide (0 < h) && (decide (b (h - 1) r c = tf) || decide (b (h - 1) r c = tc))

/-- The neighbour scan of one BFS iteration: for each offset, skip
already-visited or out-of-bounds squares, and append a road square to
both the visited list and the queue (Python adds to the visited set and
appends to the queue in the same branch). -/
def enqNbrs (n : Nat) (b : Board) (tf tc : ℚ) (r c : ℤ) :
    List (ℤ × ℤ) → List (ℤ × ℤ) → List (ℤ × ℤ) →
    List (ℤ × ℤ) × List (ℤ × ℤ)
  | [], v, q => (v, q)
  | o :: os, v, q =>
    let np := (r + o.1, c + o.2)
    if np ∈ v then enqNbrs n b tf tc r c os v q
    else if ¬ inGrid n np then enqNbrs n b tf tc r c os v q
    else if roadSquare n b tf tc np then
      enqNbrs n b tf tc r c os (v ++ [np]) (q ++ [np])
    else enqNbrs n b tf tc r c os v q

/-- The BFS loop of _has_road_from: pop the queue head, succeed when it
lies on the far edge of the tested axis, otherwise enqueue its fresh
road neighbours and continue.  The fuel argument only bounds the
recursion; n*n + 1 suffices because every enqueued square is also added
to the visited list, which never shrinks, holds no duplicates and only
grid squares. -/
def bfsLoop (n : Nat) (b : Board) (tf tc : ℚ) (isHoriz : Bool) :
    Nat → List (ℤ × ℤ) → List (ℤ × ℤ) → Bool
  | fuel, v, q =>
    match q with
    | [] => false
    | p :: rest =>
      match fuel with
      | 0 => false
      | fuel + 1 =>
        if (isHoriz ∧ p.2 = (n : ℤ) - 1) ∨ (¬ isHoriz ∧ p.1 = (n : ℤ) - 1)
        then true
        else
          let s := enqNbrs n b tf tc p.1 p.2 nbrOffsets v rest
          bfsLoop n b tf tc isHoriz fuel s.1 s.2

/-- Embeds _has_road_from: reject an empty or foreign start square, then
run the BFS from it; isHoriz true tests the horizontal axis (far edge is
the last column), false the vertical axis (last row). -/
def hasRoadFrom (n : Nat) (b : Board) (sr sc : Nat) (tf tc : ℚ)
    (isHoriz : Bool) : Bool :=
  let h := stackHeight n b sr sc
  if h = 0 then false
  else
    let top := b (h - 1) sr sc
    if top ≠ tf ∧ top ≠ tc then false
    else
      bfsLoop n b tf tc isHoriz (n * n + 1) [((sr : ℤ), (sc : ℤ))]
        [((sr : ℤ), (sc : ℤ))]

/-- Embeds _check_road: try every first-column square as a horizontal
start and every first-row square as a vertical start. -/
def checkRoad (n : Nat) (b : Board) (player : ℤ) : Bool :=
  let tf : ℚ := if player = 1 then 1 else 2
  let tc : ℚ := if player = 1 then 5 else 6
  ((List.range n).any fun row => hasRoadFrom n b row 0 tf tc true) ||
  ((List.range n).any fun col => hasRoadFrom n b 0 col tf tc false)

/-- Embeds _is_board_full: no square has an empty stack. -/
def isBoardFull (n : Nat) (b : Board) : Bool :=
  (List.range n).all fun r =>
    (List.range n).all fun c => decide (0 < stackHeight n b r c)

/-- Embeds _count_flats: the number of squares whose top piece is the
player's flat or capstone. -/
def countFlats (n : Nat) (b : Board) (player : ℤ) : Nat :=
  let tf : ℚ := if player = 1 then 1 else 2
  let tc : ℚ := if player = 1 then 5 else 6
  ((List.range n).flatMap fun r => (List.range n).map fun c => (r, c)).countP
    fun p =>
      let h := stackHeight n b p.1 p.2
      decide (0 < h) &&
        (decide (b (h - 1) p.1 p.2 = tf) || decide (b (h - 1) p.1 p.2 = tc))

/-- Embeds getGameEnded: road for the perspective player, road for the
opponent, else flat-count comparison when the board is full (draw is the
small value 1/10000 the source spells 0.0001), else 0 for ongoing. -/
def getGameEnded (n : Nat) (b : Board) (player : ℤ) : ℚ :=
  if checkRoad n b player then 1
  else if checkRoad n b (-player) then -1
  else if isBoardFull n b then
    let score : ℤ := (countFlats n b player : ℤ) - (countFlats n b (-player) : ℤ)
    if 0 < score then 1 else if score < 0 then -1 else 1 / 10000
  else 0

/-- Embeds stringRepresentation: board.tobytes() serializes the float32
cells in C order, cell (h, r, c) at flat offset h*n*n + r*n + c; two
boards yield the same byte string exactly when all stored cell values
agree, so the fingerprint is modeled by the flat sequence of cell
values. -/
def stringRepresentation (n : Nat) (b : Board) : List ℚ :=
  List.ofFn fun i : Fin ((n + 4) * (n * n)) =>
    b ((i : Nat) / (n * n)) ((i : Nat) % (n * n) / n) ((i : Nat) % (n * n) % n)

/-- The fingerprint of a full search state.  The AlphaZero caller holds
(board, player to move); the engine key stringRepresentation is computed
from the board alone, so the player component is ignored. -/
def stateKey (n : Nat) (s : Board × ℤ) : List ℚ :=
  stringRepresentation n s.1

/-- A full 3 x 3 board with no road: tops alternate between the two
sides in a checkerboard, so every same-side component is a single
square.  White tops 5 squares, black 4.  Used as a concrete terminal
position. -/
def cbBoard : Board :=
  fun h r c =>
    if h = 0 then (if (r + c) % 2 = 0 then 1 else 2)
    else if h < 3 then 0 else 1

/-- A 3x3 position with white flats across row 0: a horizontal white
road from column 0 to column 2. -/
def roadBoard : Board :=
  fun h r _ => if h = 0 ∧ r = 0 then 1 else 0

/-- A 3x3 position with a lone black flat on (2,1) and a white capstone
on (2,2): the one-step move of the flat to the right is blocked. -/
def blockedBoard : Board :=
  fun h r c =>
    if h = 0 ∧ r = 2 ∧ c = 1 then 2
    else if h = 0 ∧ r = 2 ∧ c = 2 then 5
    else 0

/-- Stack contiguity of the game layers: on every board square, no
empty cell ever sits below an occupied cell, so the occupied layers form
a prefix of 0..n-1.  This is the implicit invariant claim C10 states. -/
def Contig (n : Nat) (b : Board) : Prop :=
  ∀ r c h1 h2, r < n → c < n → h1 ≤ h2 → h2 < n → b h1 r c = 0 → b h2 r c = 0

/-- Boards reachable from the initial board by any sequence of
getNextState applications, with arbitrary player argument and arbitrary
action index each step. -/
inductive Reachable (n : Nat) : Board → Prop where
  | init : Reachable n (initBoard n)
  | step (b : Board) (player : ℤ) (action : Nat) :
      Reachable n b → Reachable n (getNextState n b player action).1

/-- The j-th destination square (0-indexed) of a movement starting at
the signed position (r, c) with direction vector d: the walk advances
one square per drop pattern entry. -/
def squareZ (r c : ℤ) (d : ℤ × ℤ) (j : Nat) : ℤ × ℤ :=
  (r + ((j : ℤ) + 1) * d.1, c + ((j : ℤ) + 1) * d.2)

/-- The kind of the top piece of a square (none when the square is
empty or holds an undecodable value), exactly the read the source
performs: top cell at height - 1. -/
def topKindAt (n : Nat) (b : Board) (p : ℤ × ℤ) : Option PieceType :=
  (if 0 < stackHeight n b p.1.toNat p.2.toNat then
    valueToPiece (b (stackHeight n b p.1.toNat p.2.toNat - 1) p.1.toNat
      p.2.toNat)
  else none).map Prod.snd

/-- Core of the blocking condition, relative to a signed current
position, with the final-drop capstone exception abstracted into the
proposition capTop: some drop square j of the walk is reached (each
earlier square is on the board and topped by neither a standing stone
nor a capstone), lies on the board, and is topped by a capstone, or by
a standing stone without the exception (j is the last drop square and
capTop holds). -/
def BlockedZ (n : Nat) (b : Board) (r c : ℤ) (d : ℤ × ℤ)
    (pattern : List Nat) (capTop : Prop) : Prop :=
  ∃ j, j < pattern.length ∧
    (∀ i, i < j → inGrid n (squareZ r c d i) ∧
      topKindAt n b (squareZ r c d i) ≠ some PieceType.capstone ∧
      topKindAt n b (squareZ r c d i) ≠ some PieceType.standing) ∧
    inGrid n (squareZ r c d j) ∧
    (topKindAt n b (squareZ r c d j) = some PieceType.capstone ∨
      (topKindAt n b (squareZ r c d j) = some PieceType.standing ∧
        ¬ (j + 1 = pattern.length ∧ capTop)))

/-- The claim-side blocking condition of C7 for a movement picked up at
square (sr, sc): the capstone exception condition is that the top piece
of the start stack (the last piece dropped) is a capstone. -/
def BlockedWalk (n : Nat) (b : Board) (sr sc : Nat) (d : ℤ × ℤ)
    (pattern : List Nat) : Prop :=
  BlockedZ n b (sr : ℤ) (sc : ℤ) d pattern
    ((valueToPiece (b (stackHeight n b sr sc - 1) sr sc)).map Prod.snd =
      some PieceType.capstone)

/-- Whether a cell value is a stone of side s drawn from the flat
reserve (a flat or a standing stone), per _value_to_piece. -/
def isStoneOf (s : ℤ) (v : ℚ) : Bool :=
  match valueToPiece v with
  | some (t, PieceType.flat) => decide (t = s)
  | some (t, PieceType.standing) => decide (t = s)
  | _ => false

/-- Whether a cell value is a capstone of side s. -/
def isCapOf (s : ℤ) (v : ℚ) : Bool :=
  match valueToPiece v with
  | some (t, PieceType.capstone) => decide (t = s)
  | _ => false

/-- Number of cells of the game-layer column at (r, c) whose value
satisfies p. -/
def colCount (p : ℚ → Bool) (n : Nat) (b : Board) (r c : Nat) : Nat :=
  (List.range n).countP fun h => p (b h r c)

/-- Number of cells of the n game layers whose value satisfies p. -/
def countCells (n : Nat) (b : Board) (p : ℚ → Bool) : Nat :=
  ((List.range n).map fun r =>
    ((List.range n).map fun c => colCount p n b r c).sum).sum

/-- The pooled stone ledger: stones (flats and standing stones of both
sides) on the board plus both sides' remaining flat counters, in counter
units. -/
def stonesLedger (n : Nat) (b : Board) : ℚ :=
  ((countCells n b (isStoneOf 1) : ℚ) + (countCells n b (isStoneOf (-1)) : ℚ))
    + remainingFlats n b 1 + remainingFlats n b (-1)

/-- The pooled capstone ledger: capstones of both sides on the board
plus both sides' remaining capstone counters. -/
def capsLedger (n : Nat) (b : Board) : ℚ :=
  ((countCells n b (isCapOf 1) : ℚ) + (countCells n b (isCapOf (-1)) : ℚ))
    + remainingCaps n b 1 + remainingCaps n b (-1)

/-- No drop of the movement decoded as (patIdx, dir, pos) lands on a
full stack: every on-board walk square still has room (below layer n)
for its drop count.  Under this side condition the engine's drop loop
writes every carried piece back onto the board. -/
def NoDropLossM (n : Nat) (b : Board) (patIdx dir pos : Nat) : Prop :=
  ∀ j, j < (((movementPatterns n).getD patIdx (0, [])).2).length →
    inGrid n (squareZ ((pos / n : Nat) : ℤ) ((pos % n : Nat) : ℤ)
      (dirVec dir) j) →
    stackHeight n b
        (squareZ ((pos / n : Nat) : ℤ) ((pos % n : Nat) : ℤ)
          (dirVec dir) j).1.toNat
        (squareZ ((pos / n : Nat) : ℤ) ((pos % n : Nat) : ℤ)
          (dirVec dir) j).2.toNat +
      (((movementPatterns n).getD patIdx (0, [])).2).getD j 0 ≤ n

/-- The loss-free side condition for a raw action index: placements
impose nothing, movements must satisfy NoDropLossM for their decoded
components. -/
def NoDropLoss (n : Nat) (b : Board) (action : Nat) : Prop :=
  numPlacement n ≤ action →
  NoDropLossM n b ((action - numPlacement n) / (4 * (n * n)))
    ((action - numPlacement n) % (4 * (n * n)) / (n * n))
    ((action - numPlacement n) % (n * n))

/-- Boards reached from the initial state by alternating legal actions
(as marked by getValidMoves) none of whose movements drops onto a full
stack. -/
inductive ReachableL (n : Nat) : Board → ℤ → Prop where
  | init : ReachableL n (initBoard n) 1
  | step (b : Board) (player : ℤ) (action : Nat) :
      ReachableL n b player → validMove n b player action = true →
      NoDropLoss n b action →
      ReachableL n (getNextState n b player action).1 (-player)

/-- 4-adjacency of grid squares, the claim-side notion of "4-connected". -/
def Adjacent (p q : ℤ × ℤ) : Prop :=
  (q.1 = p.1 ∧ (q.2 = p.2 + 1 ∨ q.2 = p.2 - 1)) ∨
  (q.2 = p.2 ∧ (q.1 = p.1 + 1 ∨ q.1 = p.1 - 1))

/-- The claim-side road-square condition: the square's stack is nonempty
and its top decodes to a flat or capstone owned by the player. -/
def RoadTop (n : Nat) (b : Board) (player : ℤ) (p : ℤ × ℤ) : Prop :=
  0 < stackHeight n b p.1.toNat p.2.toNat ∧
  (valueToPiece (b (stackHeight n b p.1.toNat p.2.toNat - 1) p.1.toNat
      p.2.toNat) = some (player, PieceType.flat) ∨
   valueToPiece (b (stackHeight n b p.1.toNat p.2.toNat - 1) p.1.toNat
      p.2.toNat) = some (player, PieceType.capstone))

/-- The claim-side road condition of C5, following the spec's words: a
4-connected path of on-board squares each topped by the player's flat or
capstone, containing a square of column 0 and one of column n-1, or a
square of row 0 and one of row n-1. -/
def RoadExists (n : Nat) (b : Board) (player : ℤ) : Prop :=
  ∃ (a : ℤ × ℤ) (l : List (ℤ × ℤ)),
    List.Chain Adjacent a l ∧
    (∀ p ∈ a :: l, inGrid n p ∧ RoadTop n b player p) ∧
    (((∃ p ∈ a :: l, p.2 = 0) ∧ (∃ p ∈ a :: l, p.2 = (n : ℤ) - 1)) ∨
     ((∃ p ∈ a :: l, p.1 = 0) ∧ (∃ p ∈ a :: l, p.1 = (n : ℤ) - 1)))

/-- A square that the BFS may occupy: on the board and passing the
membership test of the source. -/
def GoodSq (n : Nat) (b : Board) (tf tc : ℚ) (p : ℤ × ℤ) : Prop :=
  inGrid n p ∧ roadSquare n b tf tc p = true

/-- One admissible step of a road walk: adjacency with both endpoints
good. -/
def GStep (n : Nat) (b : Board) (tf tc : ℚ) (p q : ℤ × ℤ) : Prop :=
  Adjacent p q ∧ GoodSq n b tf tc p ∧ GoodSq n b tf tc q

/-- The far-edge success test of the BFS pop, per axis. -/
def FarEdge (n : Nat) (isHoriz : Bool) (p : ℤ × ℤ) : Prop :=
  (isHoriz = true ∧ p.2 = (n : ℤ) - 1) ∨
  (isHoriz = false ∧ p.1 = (n : ℤ) - 1)

/-! Pointwise reading lemmas for the board update helpers. -/

lemma bset_apply (b : Board) (h0 r0 c0 : Nat) (v : ℚ) (h r c : Nat) :
    bset b h0 r0 c0 v h r c =
      if h = h0 ∧ r = r0 ∧ c = c0 then v else b h r c := rfl

lemma setLayer_apply (b : Board) (l : Nat) (v : ℚ) (h r c : Nat) :
    setLayer b l v h r c = if h = l then v else b h r c := rfl

lemma addLayer_apply (b : Board) (l : Nat) (d : ℚ) (h r c : Nat) :
    addLayer b l d h r c = if h = l then b h r c + d else b h r c := rfl

/-! Arithmetic facts about the action-index layout. -/

lemma placeIdx_div (n kind pos : Nat) (hpos : pos < n * n) :
    (kind * (n * n) + pos) / (n * n) = kind := by
  have hA0 : 0 < n * n := by omega
  have r1 : kind * (n * n) + pos = pos + (n * n) * kind := by ring
  rw [r1, Nat.add_mul_div_left _ _ hA0, Nat.div_eq_of_lt hpos, Nat.zero_add]

lemma placeIdx_mod (n kind pos : Nat) (hpos : pos < n * n) :
    (kind * (n * n) + pos) % (n * n) = pos := by
  have h4 : kind * (n * n) + pos = pos + kind * (n * n) := by ring
  rw [h4, Nat.add_mul_mod_self_right, Nat.mod_eq_of_lt hpos]

lemma decode_arith (A P i : Nat) (h3 : 3 * A ≤ i) (hi : i < 3 * A + A * 4 * P) :
    (i - 3 * A) / (4 * A) < P ∧ (i - 3 * A) % (4 * A) / A < 4 ∧
      (i - 3 * A) % A < A ∧
      3 * A + ((i - 3 * A) / (4 * A)) * (4 * A) +
        ((i - 3 * A) % (4 * A) / A) * A + (i - 3 * A) % A = i := by
  set off := i - 3 * A with hoff
  have hofflt : off < 4 * A * P := by
    have : A * 4 * P = 4 * A * P := by ring
    omega
  have hA : 0 < 4 * A := by
    rcases Nat.eq_zero_or_pos (4 * A) with h | h
    · rw [h] at hofflt
      simp at hofflt
    · exact h
  have hA0 : 0 < A := by omega
  have hq1 : off / (4 * A) < P := by
    rw [Nat.div_lt_iff_lt_mul hA]
    calc off < 4 * A * P := hofflt
    _ = P * (4 * A) := by ring
  have hr1 : off % (4 * A) < 4 * A := Nat.mod_lt _ hA
  have hq2 : off % (4 * A) / A < 4 := by
    rw [Nat.div_lt_iff_lt_mul hA0]
    omega
  have hmm : off % (4 * A) % A = off % A :=
    Nat.mod_mod_of_dvd off ⟨4, by ring⟩
  have e1 := Nat.div_add_mod off (4 * A)
  have e2 := Nat.div_add_mod (off % (4 * A)) A
  refine ⟨hq1, hq2, Nat.mod_lt _ hA0, ?_⟩
  have c1 : off / (4 * A) * (4 * A) = 4 * A * (off / (4 * A)) := by ring
  have c2 : off % (4 * A) / A * A = A * (off % (4 * A) / A) := by ring
  omega

lemma encode_move_arith (A P q1 q2 pos : Nat) (h1 : q1 < P) (h2 : q2 < 4)
    (h3 : pos < A) :
    3 * A + (3 * A + q1 * (4 * A) + q2 * A + pos - 3 * A) / (4 * A) * (4 * A) +
        (3 * A + q1 * (4 * A) + q2 * A + pos - 3 * A) % (4 * A) / A * A +
        (3 * A + q1 * (4 * A) + q2 * A + pos - 3 * A) % A =
      3 * A + q1 * (4 * A) + q2 * A + pos ∧
    (3 * A + q1 * (4 * A) + q2 * A + pos - 3 * A) / (4 * A) = q1 ∧
    (3 * A + q1 * (4 * A) + q2 * A + pos - 3 * A) % (4 * A) / A = q2 ∧
    (3 * A + q1 * (4 * A) + q2 * A + pos - 3 * A) % A = pos ∧
    3 * A + q1 * (4 * A) + q2 * A + pos < 3 * A + A * 4 * P := by
  have hA0 : 0 < A := by omega
  have hoffeq : 3 * A + q1 * (4 * A) + q2 * A + pos - 3 * A =
      q2 * A + pos + q1 * (4 * A) := by omega
  have hs : q2 * A + pos < 4 * A := by
    have r1 : q2 * A + A = (q2 + 1) * A := by ring
    have r2 : (q2 + 1) * A ≤ 4 * A := Nat.mul_le_mul_right A (by omega)
    omega
  have hdiv : (q2 * A + pos + q1 * (4 * A)) / (4 * A) = q1 := by
    have r1 : q2 * A + pos + q1 * (4 * A) = q2 * A + pos + 4 * A * q1 := by
      ring
    rw [r1, Nat.add_mul_div_left _ _ (by omega : 0 < 4 * A),
      Nat.div_eq_of_lt hs, Nat.zero_add]
  have hmod : (q2 * A + pos + q1 * (4 * A)) % (4 * A) = q2 * A + pos := by
    rw [Nat.add_mul_mod_self_right]
    exact Nat.mod_eq_of_lt hs
  have hdiv2 : (q2 * A + pos) / A = q2 := by
    have r1 : q2 * A + pos = pos + A * q2 := by ring
    rw [r1, Nat.add_mul_div_left _ _ hA0, Nat.div_eq_of_lt h3, Nat.zero_add]
  have hmodA : (q2 * A + pos + q1 * (4 * A)) % A = pos := by
    have h4 : q2 * A + pos + q1 * (4 * A) = pos + (q2 + q1 * 4) * A := by ring
    rw [h4, Nat.add_mul_mod_self_right]
    exact Nat.mod_eq_of_lt h3
  have hlt : 3 * A + q1 * (4 * A) + q2 * A + pos < 3 * A + A * 4 * P := by
    have hq1' : q1 * (4 * A) + 4 * A ≤ A * 4 * P := by
      have r2 := Nat.mul_le_mul_right (4 * A) (by omega : q1 + 1 ≤ P)
      calc q1 * (4 * A) + 4 * A = (q1 + 1) * (4 * A) := by ring
        _ ≤ P * (4 * A) := r2
        _ = A * 4 * P := by ring
    omega
  refine ⟨?_, ?_, ?_, ?_, hlt⟩
  · rw [hoffeq, hdiv, hmod, hdiv2, hmodA]
  · rw [hoffeq, hdiv]
  · rw [hoffeq, hmod, hdiv2]
  · rw [hoffeq, hmodA]

/-- Claim C1: the action index layout is a total bijection over
[0, action_count): every index below actionSize decodes to a
structurally valid action and re-encodes to itself; every structurally
valid action encodes below actionSize and decodes back to itself; and
the placement indices are exactly those below 3 n^2 (kind-major then
row-major per the encode formula kind*n^2 + square), movement indices
those from 3 n^2 up (pattern-major, then direction with 0,1,2,3 mapped
to up, down, left, right by dirVec, then row-major square, per the
formula 3 n^2 + pattern*4 n^2 + direction*n^2 + square). -/
theorem claim1_action_codec_bijection (n : Nat) :
    (∀ i, i < actionSize n →
      StructValid n (decodeAction n i) ∧ encodeAction n (decodeAction n i) = i) ∧
    (∀ a, StructValid n a →
      encodeAction n a < actionSize n ∧ decodeAction n (encodeAction n a) = a) ∧
    (∀ kind pos, encodeAction n (Action.place kind pos) =
      kind * (n * n) + pos) ∧
    (∀ patIdx dir pos, encodeAction n (Action.move patIdx dir pos) =
      numPlacement n + patIdx * (4 * (n * n)) + dir * (n * n) + pos) ∧
    dirVec 0 = (-1, 0) ∧ dirVec 1 = (1, 0) ∧ dirVec 2 = (0, -1) ∧
    dirVec 3 = (0, 1) := by
  refine ⟨?_, ?_, fun _ _ => rfl, fun _ _ _ => rfl, rfl, rfl, rfl, rfl⟩
  · intro i hi
    by_cases hp : i < numPlacement n
    · have hp' : i < 3 * (n * n) := hp
      have hA0 : 0 < n * n := by omega
      have hdec : decodeAction n i = Action.place (i / (n * n)) (i % (n * n)) := by
        unfold decodeAction
        rw [if_pos hp]
      rw [hdec]
      refine ⟨⟨?_, Nat.mod_lt _ hA0⟩, ?_⟩
      · rw [Nat.div_lt_iff_lt_mul hA0]
        omega
      · show i / (n * n) * (n * n) + i % (n * n) = i
        have e1 := Nat.div_add_mod i (n * n)
        have c1 : i / (n * n) * (n * n) = n * n * (i / (n * n)) := by ring
        omega
    · have h3 : 3 * (n * n) ≤ i := by
        have : numPlacement n = 3 * (n * n) := rfl
        omega
      have hi' : i < 3 * (n * n) + (n * n) * 4 * (movementPatterns n).length := by
        have : actionSize n =
            3 * (n * n) + n * n * 4 * (movementPatterns n).length := rfl
        omega
      obtain ⟨hq1, hq2, hq3, hrec⟩ :=
        decode_arith (n * n) (movementPatterns n).length i h3 hi'
      have hdec : decodeAction n i =
          Action.move ((i - 3 * (n * n)) / (4 * (n * n)))
            ((i - 3 * (n * n)) % (4 * (n * n)) / (n * n))
            ((i - 3 * (n * n)) % (n * n)) := by
        unfold decodeAction
        rw [if_neg hp]
        rfl
      rw [hdec]
      refine ⟨⟨by exact hq1, by exact hq2, by exact hq3⟩, ?_⟩
      show 3 * (n * n) + (i - 3 * (n * n)) / (4 * (n * n)) * (4 * (n * n)) +
          (i - 3 * (n * n)) % (4 * (n * n)) / (n * n) * (n * n) +
          (i - 3 * (n * n)) % (n * n) = i
      exact hrec
  · intro a ha
    cases a with
    | place kind pos =>
      obtain ⟨hk, hpos⟩ := ha
      have henc : encodeAction n (Action.place kind pos) =
          kind * (n * n) + pos := rfl
      have hmul : kind * (n * n) ≤ 2 * (n * n) :=
        Nat.mul_le_mul_right _ (by omega)
      have hlt : kind * (n * n) + pos < 3 * (n * n) := by omega
      have hlt' : kind * (n * n) + pos < numPlacement n := hlt
      constructor
      · rw [henc]
        have : numPlacement n ≤ actionSize n := Nat.le_add_right _ _
        omega
      · rw [henc]
        have hA0 : 0 < n * n := by omega
        have hd : (kind * (n * n) + pos) / (n * n) = kind := by
          have r1 : kind * (n * n) + pos = pos + (n * n) * kind := by ring
          rw [r1, Nat.add_mul_div_left _ _ hA0, Nat.div_eq_of_lt hpos,
            Nat.zero_add]
        have hm : (kind * (n * n) + pos) % (n * n) = pos := by
          have h4 : kind * (n * n) + pos = pos + kind * (n * n) := by ring
          rw [h4, Nat.add_mul_mod_self_right, Nat.mod_eq_of_lt hpos]
        unfold decodeAction
        rw [if_pos hlt', hd, hm]
    | move patIdx dir pos =>
      obtain ⟨hq1, hq2, hpos⟩ := ha
      obtain ⟨e1, e2, e3, e4, e5⟩ :=
        encode_move_arith (n * n) (movementPatterns n).length patIdx dir pos
          hq1 hq2 hpos
      have henc : encodeAction n (Action.move patIdx dir pos) =
          3 * (n * n) + patIdx * (4 * (n * n)) + dir * (n * n) + pos := rfl
      have hge : ¬ (3 * (n * n) + patIdx * (4 * (n * n)) + dir * (n * n) + pos <
          numPlacement n) := by
        have : numPlacement n = 3 * (n * n) := rfl
        omega
      constructor
      · rw [henc]
        have : actionSize n =
            3 * (n * n) + n * n * 4 * (movementPatterns n).length := rfl
        omega
      · rw [henc]
        unfold decodeAction
        rw [if_neg hge]
        have hnp : numPlacement n = 3 * (n * n) := rfl
        rw [hnp, e2, e3, e4]

/-- Witness for claim C1 at concrete inputs: index 100 on the 3 x 3
board decodes to a valid action and round-trips, and the structurally
valid movement action (pattern 5, direction 2, square 7) round-trips
through the codec. -/
theorem claim1_witness :
    StructValid 3 (decodeAction 3 100) ∧
      encodeAction 3 (decodeAction 3 100) = 100 ∧
      decodeAction 3 (encodeAction 3 (Action.move 5 2 7)) =
        Action.move 5 2 7 := by
  refine ⟨((claim1_action_codec_bijection 3).1 100 (by decide)).1,
    ((claim1_action_codec_bijection 3).1 100 (by decide)).2,
    ((claim1_action_codec_bijection 3).2.1 (Action.move 5 2 7) (by decide)).2⟩

/-- Counterexample to claim C8: the out-of-range action index 279 on
the 3 x 3 board (action_count is 279) does not make getNextState report
an error; the call returns normally with the board unchanged and the
turn flipped. -/
theorem claim8_counterexample :
    actionSize 3 ≤ 279 ∧ getNextState 3 (initBoard 3) 1 279 = (initBoard 3, -1) :=
  ⟨by decide, rfl⟩

/-- Claim C8 (amended): getNextState does not report an error on
malformed action indices.  For every index at or past action_count, and
more generally for every movement index whose decoded pattern index
falls outside the catalogue, it silently returns the board unchanged
with the turn flipped (the early return guarded by the pattern-index
bound check). -/
theorem claim8_amended_silent_turn_flip (n : Nat) (b : Board) (player : ℤ)
    (action : Nat) :
    (actionSize n ≤ action → getNextState n b player action = (b, -player)) ∧
    (numPlacement n ≤ action →
      (movementPatterns n).length ≤ (action - numPlacement n) / (4 * (n * n)) →
      getNextState n b player action = (b, -player)) := by
  have main : numPlacement n ≤ action →
      (movementPatterns n).length ≤ (action - numPlacement n) / (4 * (n * n)) →
      getNextState n b player action = (b, -player) := by
    intro hge hpat
    unfold getNextState
    rw [if_neg (by omega)]
    unfold applyMovement
    dsimp only
    rw [if_pos hpat]
  refine ⟨?_, main⟩
  intro hout
  have hsz : actionSize n =
      3 * (n * n) + n * n * 4 * (movementPatterns n).length := rfl
  have hnp : numPlacement n = 3 * (n * n) := rfl
  have hge : numPlacement n ≤ action := by omega
  refine main hge ?_
  rcases Nat.eq_zero_or_pos (n * n) with hA | hA
  · have hn : n = 0 := by
      rcases Nat.mul_eq_zero.mp hA with h | h <;> exact h
    subst hn
    have hm : (movementPatterns 0).length = 0 := rfl
    rw [hm]
    exact Nat.zero_le _
  · rw [Nat.le_div_iff_mul_le (by omega : 0 < 4 * (n * n))]
    have : (movementPatterns n).length * (4 * (n * n)) =
        n * n * 4 * (movementPatterns n).length := by ring
    omega

/-- Witness for claim C8 at a concrete input: index 300 exceeds
action_count 279 of the 3 x 3 board and gets the silent unchanged
return. -/
theorem claim8_witness :
    actionSize 3 ≤ 300 ∧ getNextState 3 (initBoard 3) 1 300 = (initBoard 3, -1) :=
  ⟨by decide,
    (claim8_amended_silent_turn_flip 3 (initBoard 3) 1 300).1 (by decide)⟩

/-- Counterexample to claim C3: on the 5 x 5 board the first placement
(action 0, player 1, a legal move) puts the opponent black flat (value
2) on the board, but black remaining-flats plane (layer 7) still reads
1.0 afterwards while white plane (layer 5) dropped to 20/21: the mover
supply, not the opponent supply, was decremented. -/
theorem claim3_counterexample :
    validMove 5 (initBoard 5) 1 0 = true ∧
    (getNextState 5 (initBoard 5) 1 0).1 0 0 0 = 2 ∧
    (getNextState 5 (initBoard 5) 1 0).1 7 0 0 = 1 ∧
    (getNextState 5 (initBoard 5) 1 0).1 5 0 0 = 20 / 21 := by
  refine ⟨by with_unfolding_all rfl, by with_unfolding_all rfl,
    by with_unfolding_all rfl, by with_unfolding_all rfl⟩

/-- Claim C3 (amended): while fewer than two squares are occupied, a
placement puts a flat owned by the opponent of the player to move on
the first empty layer of the target square, but it is the mover flat
supply plane (layer n for player 1, layer n+2 for player -1) that is
decremented by one counter unit; the opponent flat plane and both
capstone planes are unchanged. -/
theorem claim3_amended_opening_mover_decrement (n : Nat) (b : Board)
    (player : ℤ) (action : Nat) (ha : action < numPlacement n)
    (hh : stackHeight n b (action % (n * n) / n) (action % (n * n) % n) < n)
    (hop : countOccupied n b < 2) (hpl : player = 1 ∨ player = -1) :
    (getNextState n b player action).1
        (stackHeight n b (action % (n * n) / n) (action % (n * n) % n))
        (action % (n * n) / n) (action % (n * n) % n) =
      pieceToValue PieceType.flat (-player) ∧
    (getNextState n b player action).1 (if player = 1 then n else n + 2) 0 0 =
      (b (if player = 1 then n else n + 2) 0 0 * (standardFlats n : ℚ) - 1) /
        (standardFlats n : ℚ) ∧
    (getNextState n b player action).1 (if player = 1 then n + 2 else n) 0 0 =
      b (if player = 1 then n + 2 else n) 0 0 ∧
    (getNextState n b player action).1 (n + 1) 0 0 = b (n + 1) 0 0 ∧
    (getNextState n b player action).1 (n + 3) 0 0 = b (n + 3) 0 0 := by
  have hrg : action % (n * n) / n < n := by
    have hA0 : 0 < n * n := by
      have : numPlacement n = 3 * (n * n) := rfl
      omega
    have hn0 : 0 < n := by
      rcases Nat.eq_zero_or_pos n with h | h
      · omega
      · exact h
    have hm := Nat.mod_lt action hA0
    rw [Nat.div_lt_iff_lt_mul hn0]
    omega
  rcases hpl with hp1 | hp1 <;> subst hp1
  · have hstep : getNextState n b 1 action =
        (setLayer
          (bset b (stackHeight n b (action % (n * n) / n) (action % (n * n) % n))
            (action % (n * n) / n) (action % (n * n) % n)
            (pieceToValue PieceType.flat (-1))) n
          (((bset b (stackHeight n b (action % (n * n) / n) (action % (n * n) % n))
            (action % (n * n) / n) (action % (n * n) % n)
            (pieceToValue PieceType.flat (-1))) n 0 0 * (standardFlats n : ℚ) - 1)
            / (standardFlats n : ℚ)), -1) := by
      unfold getNextState
      rw [if_pos ha]
      unfold applyPlacement
      dsimp only
      rw [if_pos hh, if_pos hop, if_pos hop, if_pos (rfl : (1 : ℤ) = 1),
        if_neg (by decide : ¬ (PieceType.flat = PieceType.capstone))]
    rw [hstep]
    dsimp only
    rw [if_pos (rfl : (1 : ℤ) = 1), if_pos (rfl : (1 : ℤ) = 1)]
    refine ⟨?_, ?_, ?_, ?_, ?_⟩
    · rw [setLayer_apply, if_neg (by omega), bset_apply, if_pos ⟨rfl, rfl, rfl⟩]
    · rw [setLayer_apply, if_pos rfl, bset_apply, if_neg (by omega)]
    · rw [setLayer_apply, if_neg (by omega), bset_apply, if_neg (by omega)]
    · rw [setLayer_apply, if_neg (by omega), bset_apply, if_neg (by omega)]
    · rw [setLayer_apply, if_neg (by omega), bset_apply, if_neg (by omega)]
  · have hstep : getNextState n b (-1) action =
        (setLayer
          (bset b (stackHeight n b (action % (n * n) / n) (action % (n * n) % n))
            (action % (n * n) / n) (action % (n * n) % n)
            (pieceToValue PieceType.flat (-(-1)))) (n + 2)
          (((bset b (stackHeight n b (action % (n * n) / n) (action % (n * n) % n))
            (action % (n * n) / n) (action % (n * n) % n)
            (pieceToValue PieceType.flat (-(-1)))) (n + 2) 0 0 *
              (standardFlats n : ℚ) - 1)
            / (standardFlats n : ℚ)), -(-1)) := by
      unfold getNextState
      rw [if_pos ha]
      unfold applyPlacement
      dsimp only
      rw [if_pos hh, if_pos hop, if_pos hop, if_neg (by decide : ¬ ((-1 : ℤ) = 1)),
        if_neg (by decide : ¬ (PieceType.flat = PieceType.capstone))]
    rw [hstep]
    dsimp only
    rw [if_neg (by decide : ¬ ((-1 : ℤ) = 1)),
      if_neg (by decide : ¬ ((-1 : ℤ) = 1))]
    refine ⟨?_, ?_, ?_, ?_, ?_⟩
    · rw [setLayer_apply, if_neg (by omega), bset_apply, if_pos ⟨rfl, rfl, rfl⟩]
    · rw [setLayer_apply, if_pos rfl, bset_apply, if_neg (by omega)]
    · rw [setLayer_apply, if_neg (by omega), bset_apply, if_neg (by omega)]
    · rw [setLayer_apply, if_neg (by omega), bset_apply, if_neg (by omega)]
    · rw [setLayer_apply, if_neg (by omega), bset_apply, if_neg (by omega)]

/-- Witness for claim C3 at a concrete input: the legal first placement
of the game on the 5 x 5 board. -/
theorem claim3_witness :
    (getNextState 5 (initBoard 5) 1 0).1
        (stackHeight 5 (initBoard 5) 0 0) 0 0 =
      pieceToValue PieceType.flat (-1) ∧
    (getNextState 5 (initBoard 5) 1 0).1 5 0 0 =
      (initBoard 5 5 0 0 * (21 : ℚ) - 1) / (21 : ℚ) ∧
    (getNextState 5 (initBoard 5) 1 0).1 7 0 0 = initBoard 5 7 0 0 ∧
    (getNextState 5 (initBoard 5) 1 0).1 6 0 0 = initBoard 5 6 0 0 ∧
    (getNextState 5 (initBoard 5) 1 0).1 8 0 0 = initBoard 5 8 0 0 :=
  claim3_amended_opening_mover_decrement 5 (initBoard 5) 1 0 (by decide)
    (by decide) (by decide) (Or.inl rfl)

/-- Counterexample to claim C4: at ply 0 (zero pieces on the board, an
opening state) getValidMoves marks the standing-stone placement at
square (0,0) of the 3 x 3 board (action index 9 = n^2) as legal, so the
opening legal-action set is not restricted to flat placements. -/
theorem claim4_counterexample :
    countOccupied 3 (initBoard 3) = 0 ∧ validMove 3 (initBoard 3) 1 9 = true := by
  refine ⟨by decide, by with_unfolding_all rfl⟩

/-- Claim C4 (amended): getValidMoves applies no opening restriction.
For every state and every placement index (kind, row-major square), the
entry is valid exactly when the supply test for the kind passes (flats
at least 1 for flat and standing, capstones at least 1/2 for capstone)
and the target square is empty; the number of pieces already placed is
never consulted, so standing and capstone placements are offered during
the opening as well (only getNextState later forces the placed piece to
a flat). -/
theorem claim4_amended_no_opening_restriction (n : Nat) (b : Board)
    (player : ℤ) (kind pos : Nat) (hk : kind < 3) (hpos : pos < n * n) :
    validMove n b player (kind * (n * n) + pos) =
      ((if kind = 2 then decide ((1 : ℚ) / 2 ≤ remainingCaps n b player)
        else decide ((1 : ℚ) ≤ remainingFlats n b player)) &&
        decide (stackHeight n b (pos / n) (pos % n) = 0)) := by
  have hlt : kind * (n * n) + pos < numPlacement n := by
    have hnp : numPlacement n = 3 * (n * n) := rfl
    have hmul : kind * (n * n) ≤ 2 * (n * n) :=
      Nat.mul_le_mul_right _ (by omega)
    omega
  unfold validMove
  rw [if_pos hlt, placeIdx_div n kind pos hpos, placeIdx_mod n kind pos hpos]
  unfold validPlacement
  dsimp only

/-- Witness for claim C4 at a concrete input: the standing placement at
square (0,0) of the empty 3 x 3 board. -/
theorem claim4_witness :
    validMove 3 (initBoard 3) 1 (1 * (3 * 3) + 0) =
      ((if 1 = 2 then decide ((1 : ℚ) / 2 ≤ remainingCaps 3 (initBoard 3) 1)
        else decide ((1 : ℚ) ≤ remainingFlats 3 (initBoard 3) 1)) &&
        decide (stackHeight 3 (initBoard 3) (0 / 3) (0 % 3) = 0)) :=
  claim4_amended_no_opening_restriction 3 (initBoard 3) 1 1 0 (by decide)
    (by decide)

/-! Row-major index arithmetic shared by the fingerprint and codec
results. -/

lemma rowcol_div (n r c : Nat) (hc : c < n) : (r * n + c) / n = r := by
  have hn0 : 0 < n := by omega
  have r1 : r * n + c = c + n * r := by ring
  rw [r1, Nat.add_mul_div_left _ _ hn0, Nat.div_eq_of_lt hc, Nat.zero_add]

lemma rowcol_mod (n r c : Nat) (hc : c < n) : (r * n + c) % n = c := by
  have r1 : r * n + c = c + r * n := by ring
  rw [r1, Nat.add_mul_mod_self_right, Nat.mod_eq_of_lt hc]

/-- Counterexample to claim C9: two states with identical stacks and
supplies but different sides to move receive the same fingerprint,
because stringRepresentation reads only the board. -/
theorem claim9_counterexample :
    stateKey 5 (initBoard 5, 1) = stateKey 5 (initBoard 5, -1) ∧
      (1 : ℤ) ≠ -1 :=
  ⟨rfl, by decide⟩

/-- Claim C9 (amended): the fingerprint is injective in the board
content alone: two states produce equal keys exactly when every stored
cell (all stack layers and all four supply planes) agrees; the side to
move is not part of the key. -/
theorem claim9_amended_key_iff_board_agrees (n : Nat) (b b' : Board) :
    stringRepresentation n b = stringRepresentation n b' ↔
      ∀ h r c, h < n + 4 → r < n → c < n → b h r c = b' h r c := by
  unfold stringRepresentation
  rw [List.ofFn_inj]
  constructor
  · intro hf h r c hh hr hc
    have hrc : r * n + c < n * n := by
      have h2 : (r + 1) * n ≤ n * n := Nat.mul_le_mul_right n (by omega)
      have h3 : r * n + n = (r + 1) * n := by ring
      omega
    have hidx : h * (n * n) + (r * n + c) < (n + 4) * (n * n) := by
      have h2 : (h + 1) * (n * n) ≤ (n + 4) * (n * n) :=
        Nat.mul_le_mul_right (n * n) (by omega)
      have h3 : h * (n * n) + (n * n) = (h + 1) * (n * n) := by ring
      omega
    have heq := congrFun hf ⟨h * (n * n) + (r * n + c), hidx⟩
    simp only at heq
    rw [placeIdx_div n h (r * n + c) hrc, placeIdx_mod n h (r * n + c) hrc,
      rowcol_div n r c hc, rowcol_mod n r c hc] at heq
    exact heq
  · intro hp
    funext i
    have hi := i.isLt
    have hA0 : 0 < n * n := by
      by_contra hcon
      have h0 : n * n = 0 := by omega
      have hz : (n + 4) * (n * n) = 0 := by rw [h0, Nat.mul_zero]
      omega
    have hn0 : 0 < n := by
      by_contra hcon
      have h : n = 0 := by omega
      rw [h] at hA0
      simp at hA0
    apply hp
    · rw [Nat.div_lt_iff_lt_mul hA0]
      exact hi
    · rw [Nat.div_lt_iff_lt_mul hn0]
      exact Nat.mod_lt _ hA0
    · exact Nat.mod_lt _ hn0

/-- Witness for claim C9: rewriting the already-zero cell (0,0,0) of
the initial 3 x 3 board leaves every stored cell equal, so the two
fingerprints agree. -/
theorem claim9_witness :
    stringRepresentation 3 (initBoard 3) =
      stringRepresentation 3 (bset (initBoard 3) 0 0 0 0) := by
  refine (claim9_amended_key_iff_board_agrees 3 (initBoard 3)
    (bset (initBoard 3) 0 0 0 0)).mpr ?_
  intro h r c hh hr hc
  rw [bset_apply]
  by_cases hcase : h = 0 ∧ r = 0 ∧ c = 0
  · obtain ⟨h1, h2, h3⟩ := hcase
    subst h1
    subst h2
    subst h3
    rw [if_pos ⟨rfl, rfl, rfl⟩]
    rfl
  · rw [if_neg hcase]

/-- The board is full exactly when every square has a nonzero stack. -/
lemma isBoardFull_eq_true_iff (n : Nat) (b : Board) :
    isBoardFull n b = true ↔
      ∀ r, r < n → ∀ c, c < n → 0 < stackHeight n b r c := by
  unfold isBoardFull
  simp only [List.all_eq_true, List.mem_range, decide_eq_true_eq]

/-- Claim C6: with no road for either side, getGameEnded compares
flat-top counts on a full board (win for strictly more, loss for
strictly fewer, draw value 1/10000 for equal) and reports 0 (ongoing)
when some square is still empty. -/
theorem claim6_flat_tiebreak_and_ongoing (n : Nat) (b : Board) (player : ℤ)
    (hr1 : checkRoad n b player = false)
    (hr2 : checkRoad n b (-player) = false) :
    ((∀ r, r < n → ∀ c, c < n → 0 < stackHeight n b r c) →
      getGameEnded n b player =
        (if countFlats n b (-player) < countFlats n b player then 1
          else if countFlats n b player < countFlats n b (-player) then -1
          else 1 / 10000)) ∧
    ((∃ r, r < n ∧ ∃ c, c < n ∧ stackHeight n b r c = 0) →
      getGameEnded n b player = 0) := by
  constructor
  · intro hfull
    have hf : isBoardFull n b = true := (isBoardFull_eq_true_iff n b).mpr hfull
    unfold getGameEnded
    simp only [hr1, hr2, hf, Bool.false_eq_true, if_false, if_true]
    split_ifs with h1 h2 h3 h4 h5 <;> first | rfl | (exfalso; omega)
  · rintro ⟨r, hr, c, hc, hz⟩
    have hf : isBoardFull n b = false := by
      rcases hfb : isBoardFull n b with _ | _
      · rfl
      · exact absurd ((isBoardFull_eq_true_iff n b).mp hfb r hr c hc) (by omega)
    unfold getGameEnded
    simp only [hr1, hr2, hf, Bool.false_eq_true, if_false]

/-- Witness for claim C6: the full 3 x 3 checkerboard has no road for
either side, and the tiebreak equality holds there. -/
theorem claim6_witness :
    checkRoad 3 cbBoard 1 = false ∧ checkRoad 3 cbBoard (-1) = false ∧
    getGameEnded 3 cbBoard 1 =
      (if countFlats 3 cbBoard (-1) < countFlats 3 cbBoard 1 then 1
        else if countFlats 3 cbBoard 1 < countFlats 3 cbBoard (-1) then -1
        else 1 / 10000) :=
  ⟨by decide, by decide,
    (claim6_flat_tiebreak_and_ongoing 3 cbBoard 1 (by decide) (by decide)).1
      (by decide)⟩

/-! Stack-height machinery: the scan of _get_stack_height returns the
first empty layer, everything below it is occupied. -/

lemma firstZeroFrom_spec (b : Board) (r c : Nat) :
    ∀ (fuel h0 : Nat),
      h0 ≤ firstZeroFrom b r c h0 fuel ∧
      firstZeroFrom b r c h0 fuel ≤ h0 + fuel ∧
      (∀ k, h0 ≤ k → k < firstZeroFrom b r c h0 fuel → b k r c ≠ 0) ∧
      (firstZeroFrom b r c h0 fuel < h0 + fuel →
        b (firstZeroFrom b r c h0 fuel) r c = 0) := by
  intro fuel
  induction fuel with
  | zero =>
    intro h0
    simp only [firstZeroFrom]
    refine ⟨Nat.le_refl _, by omega, ?_, by omega⟩
    intro k hk1 hk2
    omega
  | succ f ih =>
    intro h0
    simp only [firstZeroFrom]
    by_cases hz : b h0 r c = 0
    · rw [if_pos hz]
      refine ⟨Nat.le_refl _, by omega, ?_, fun _ => hz⟩
      intro k hk1 hk2
      omega
    · rw [if_neg hz]
      obtain ⟨i1, i2, i3, i4⟩ := ih (h0 + 1)
      refine ⟨by omega, by omega, ?_, by
        intro hlt
        exact i4 (by omega)⟩
      intro k hk1 hk2
      by_cases hk0 : k = h0
      · rw [hk0]
        exact hz
      · exact i3 k (by omega) hk2

lemma stackHeight_le (n : Nat) (b : Board) (r c : Nat) :
    stackHeight n b r c ≤ n := by
  have h := (firstZeroFrom_spec b r c n 0).2.1
  unfold stackHeight
  omega

lemma stackHeight_lower (n : Nat) (b : Board) (r c : Nat) :
    ∀ k, k < stackHeight n b r c → b k r c ≠ 0 := by
  intro k hk
  exact (firstZeroFrom_spec b r c n 0).2.2.1 k (Nat.zero_le _) hk

lemma stackHeight_zero_at (n : Nat) (b : Board) (r c : Nat)
    (h : stackHeight n b r c < n) : b (stackHeight n b r c) r c = 0 := by
  have hd : stackHeight n b r c = firstZeroFrom b r c 0 n := rfl
  exact (firstZeroFrom_spec b r c n 0).2.2.2 (by omega)

lemma firstZeroFrom_congr (b b' : Board) (r c : Nat) :
    ∀ (fuel h0 : Nat), (∀ k, h0 ≤ k → k < h0 + fuel → b' k r c = b k r c) →
      firstZeroFrom b' r c h0 fuel = firstZeroFrom b r c h0 fuel := by
  intro fuel
  induction fuel with
  | zero => intro h0 _; rfl
  | succ f ih =>
    intro h0 hagree
    show (if b' h0 r c = 0 then h0 else firstZeroFrom b' r c (h0 + 1) f) =
      (if b h0 r c = 0 then h0 else firstZeroFrom b r c (h0 + 1) f)
    rw [hagree h0 (Nat.le_refl _) (by omega)]
    by_cases hz : b h0 r c = 0
    · rw [if_pos hz, if_pos hz]
    · rw [if_neg hz, if_neg hz]
      exact ih (h0 + 1) fun k hk1 hk2 => hagree k (by omega) (by omega)

lemma stackHeight_congr (n : Nat) (b b' : Board) (r c : Nat)
    (h : ∀ k, k < n → b' k r c = b k r c) :
    stackHeight n b' r c = stackHeight n b r c := by
  unfold stackHeight
  exact firstZeroFrom_congr b b' r c n 0 fun k _ hk2 => h k (by omega)

/-- A characterization used to pin the height after a write at the
first empty layer: scanning a board whose cells below m are occupied
and whose cell at m is empty yields exactly m. -/
lemma stackHeight_eq_of (n : Nat) (b : Board) (r c m : Nat) (hm : m ≤ n)
    (hlow : ∀ k, k < m → b k r c ≠ 0) (hat : m < n → b m r c = 0) :
    stackHeight n b r c = m := by
  have hsle := stackHeight_le n b r c
  have hle : stackHeight n b r c ≤ m := by
    by_contra hcon
    have hmn : m < n := by omega
    exact stackHeight_lower n b r c m (by omega) (hat hmn)
  have hge : m ≤ stackHeight n b r c := by
    by_contra hcon
    have hz : b (stackHeight n b r c) r c = 0 :=
      stackHeight_zero_at n b r c (by omega)
    exact hlow (stackHeight n b r c) (by omega) hz
  omega

lemma pieceToValue_ne_zero (t : PieceType) (player : ℤ) :
    pieceToValue t player ≠ 0 := by
  cases t <;> unfold pieceToValue <;> dsimp only <;> split <;> norm_num

/-- Contiguity transfers across any rewrite that preserves the zero
pattern of the game layers. -/
lemma contig_of_zero_iff (n : Nat) (b b' : Board) (hc : Contig n b)
    (h : ∀ h' r c, h' < n → r < n → c < n → (b' h' r c = 0 ↔ b h' r c = 0)) :
    Contig n b' := by
  intro r c h1 h2 hr hcc h12 h2n hz
  exact (h h2 r c h2n hr hcc).mpr
    (hc r c h1 h2 hr hcc h12 h2n ((h h1 r c (by omega) hr hcc).mp hz))

/-- Writing a nonzero value at the current first empty layer of a
square preserves contiguity. -/
lemma contig_bset_at_height (n : Nat) (b : Board) (r0 c0 : Nat) (v : ℚ)
    (hc : Contig n b) (hv : v ≠ 0)
    (hh : stackHeight n b r0 c0 < n) :
    Contig n (bset b (stackHeight n b r0 c0) r0 c0 v) := by
  set H := stackHeight n b r0 c0 with hH
  intro r c h1 h2 hr hcc h12 h2n hz
  rw [bset_apply] at hz ⊢
  by_cases hrc : r = r0 ∧ c = c0
  · obtain ⟨hr0, hc0⟩ := hrc
    subst hr0
    subst hc0
    by_cases h1H : h1 = H
    · rw [if_pos ⟨h1H, rfl, rfl⟩] at hz
      exact absurd hz hv
    · rw [if_neg (by tauto)] at hz
      have hgt : H < h1 := by
        rcases Nat.lt_or_ge h1 H with hlt | hge
        · exact absurd hz (stackHeight_lower n b r c h1 hlt)
        · omega
      have hz2 : b h2 r c = 0 := by
        refine hc r c H h2 hr hcc (by omega) h2n ?_
        exact stackHeight_zero_at n b r c hh
      rw [if_neg (by intro hcon; omega)]
      exact hz2
  · rw [if_neg (by tauto)] at hz
    rw [if_neg (by tauto)]
    exact hc r c h1 h2 hr hcc h12 h2n hz

/-- Overwriting an occupied cell with another nonzero value preserves
contiguity (the zero pattern is unchanged). -/
lemma contig_bset_nonzero (n : Nat) (b : Board) (h0 r0 c0 : Nat) (v : ℚ)
    (hc : Contig n b) (hv : v ≠ 0) (hold : b h0 r0 c0 ≠ 0) :
    Contig n (bset b h0 r0 c0 v) := by
  refine contig_of_zero_iff n b _ hc ?_
  intro h' r c _ _ _
  rw [bset_apply]
  by_cases hcase : h' = h0 ∧ r = r0 ∧ c = c0
  · obtain ⟨e1, e2, e3⟩ := hcase
    subst e1
    subst e2
    subst e3
    rw [if_pos ⟨rfl, rfl, rfl⟩]
    constructor
    · intro h
      exact absurd h hv
    · intro h
      exact absurd h hold
  · rw [if_neg hcase]

/-! Reading the pickup-clearing fold, and contiguity preservation for
each mutation getNextState performs. -/

lemma clearFold_read (n : Nat) (sr sc : Nat) (base : ℤ) :
    ∀ (L : List Nat) (b : Board) (h r c : Nat),
      (L.foldl (fun (acc : Board) (i : Nat) =>
        if 0 ≤ base + (i : ℤ) ∧ base + (i : ℤ) < (n : ℤ) then
          bset acc (base + (i : ℤ)).toNat sr sc 0 else acc) b) h r c =
      if r = sr ∧ c = sc ∧ ∃ i ∈ L, 0 ≤ base + (i : ℤ) ∧
          base + (i : ℤ) < (n : ℤ) ∧ (base + (i : ℤ)).toNat = h
      then 0 else b h r c := by
  intro L
  induction L with
  | nil =>
    intro b h r c
    rw [List.foldl_nil, if_neg]
    rintro ⟨_, _, i, hmem, _⟩
    exact absurd hmem (List.not_mem_nil i)
  | cons a L ih =>
    intro b h r c
    rw [List.foldl_cons, ih]
    by_cases hL : r = sr ∧ c = sc ∧ ∃ i ∈ L, 0 ≤ base + (i : ℤ) ∧
        base + (i : ℤ) < (n : ℤ) ∧ (base + (i : ℤ)).toNat = h
    · rw [if_pos hL, if_pos]
      obtain ⟨h1, h2, i, hmem, hg⟩ := hL
      exact ⟨h1, h2, i, List.mem_cons_of_mem a hmem, hg⟩
    · rw [if_neg hL]
      by_cases hga : 0 ≤ base + (a : ℤ) ∧ base + (a : ℤ) < (n : ℤ)
      · rw [if_pos hga, bset_apply]
        by_cases hha : h = (base + (a : ℤ)).toNat ∧ r = sr ∧ c = sc
        · rw [if_pos hha, if_pos]
          exact ⟨hha.2.1, hha.2.2,
            a, List.mem_cons_self a L, hga.1, hga.2, hha.1.symm⟩
        · rw [if_neg hha, if_neg]
          rintro ⟨h1, h2, i, hmem, hg1, hg2, hg3⟩
          rcases List.mem_cons.mp hmem with hi | hi
          · exact hha ⟨by rw [hi] at hg3; omega, h1, h2⟩
          · exact hL ⟨h1, h2, i, hi, hg1, hg2, hg3⟩
      · rw [if_neg hga, if_neg]
        rintro ⟨h1, h2, i, hmem, hg1, hg2, hg3⟩
        rcases List.mem_cons.mp hmem with hi | hi
        · rw [hi] at hg1 hg2
          exact hga ⟨hg1, hg2⟩
        · exact hL ⟨h1, h2, i, hi, hg1, hg2, hg3⟩

lemma pickupClear_apply (n : Nat) (b : Board) (sr sc h0 pickup : Nat)
    (hpk : pickup ≤ h0) (hh0 : h0 ≤ n) (h r c : Nat) :
    pickupClear n b sr sc h0 pickup h r c =
      if r = sr ∧ c = sc ∧ h0 - pickup ≤ h ∧ h < h0 then 0 else b h r c := by
  unfold pickupClear
  dsimp only
  rw [clearFold_read n sr sc ((h0 : ℤ) - (pickup : ℤ)) (List.range pickup) b
    h r c]
  by_cases hcond : r = sr ∧ c = sc ∧ h0 - pickup ≤ h ∧ h < h0
  · have hex : r = sr ∧ c = sc ∧ ∃ i ∈ List.range pickup,
        0 ≤ (h0 : ℤ) - (pickup : ℤ) + (i : ℤ) ∧
        (h0 : ℤ) - (pickup : ℤ) + (i : ℤ) < (n : ℤ) ∧
        ((h0 : ℤ) - (pickup : ℤ) + (i : ℤ)).toNat = h :=
      ⟨hcond.1, hcond.2.1, h - (h0 - pickup),
        List.mem_range.mpr (by omega), by omega, by omega, by omega⟩
    rw [if_pos hex, if_pos hcond]
  · have hnex : ¬ (r = sr ∧ c = sc ∧ ∃ i ∈ List.range pickup,
        0 ≤ (h0 : ℤ) - (pickup : ℤ) + (i : ℤ) ∧
        (h0 : ℤ) - (pickup : ℤ) + (i : ℤ) < (n : ℤ) ∧
        ((h0 : ℤ) - (pickup : ℤ) + (i : ℤ)).toNat = h) := by
      rintro ⟨h1, h2, i, hmem, hg1, hg2, hg3⟩
      have hi := List.mem_range.mp hmem
      exact hcond ⟨h1, h2, by omega, by omega⟩
    rw [if_neg hnex, if_neg hcond]

lemma contig_pickupClear (n : Nat) (b : Board) (sr sc pickup : Nat)
    (hc : Contig n b) (hpk : pickup ≤ stackHeight n b sr sc) :
    Contig n (pickupClear n b sr sc (stackHeight n b sr sc) pickup) := by
  set H := stackHeight n b sr sc with hH
  have hle : H ≤ n := stackHeight_le n b sr sc
  intro r c h1 h2 hr hcc h12 h2n hz
  rw [pickupClear_apply n b sr sc H pickup hpk hle] at hz ⊢
  by_cases hc2 : r = sr ∧ c = sc ∧ H - pickup ≤ h2 ∧ h2 < H
  · rw [if_pos hc2]
  · rw [if_neg hc2]
    by_cases hc1 : r = sr ∧ c = sc ∧ H - pickup ≤ h1 ∧ h1 < H
    · obtain ⟨e1, e2, e3, e4⟩ := hc1
      subst e1
      subst e2
      have hH2 : H ≤ h2 := by
        rcases Nat.lt_or_ge h2 H with hlt | hge
        · exact absurd ⟨rfl, rfl, by omega, hlt⟩ hc2
        · exact hge
      have hHn : H < n := by omega
      exact hc r c H h2 hr hcc hH2 h2n (stackHeight_zero_at n b r c hHn)
    · rw [if_neg hc1] at hz
      exact hc r c h1 h2 hr hcc h12 h2n hz

lemma dropPieces_contig (n : Nat) (carried : List ℚ)
    (hvals : ∀ i, i < carried.length → carried.getD i 0 ≠ 0) :
    ∀ (k : Nat) (b : Board) (r c ci : Nat), Contig n b →
      Contig n (dropPieces n carried k b r c ci).1 := by
  intro k
  induction k with
  | zero => intro b r c ci hc; exact hc
  | succ k ih =>
    intro b r c ci hc
    simp only [dropPieces]
    by_cases h1 : ci < carried.length
    · rw [if_pos h1]
      by_cases h2 : stackHeight n b r c < n
      · rw [if_pos h2]
        exact ih _ _ _ _
          (contig_bset_at_height n b r c _ hc (hvals ci h1) h2)
      · rw [if_neg h2]
        exact ih _ _ _ _ hc
    · rw [if_neg h1]
      exact ih _ _ _ _ hc

lemma moveLoop_contig (n : Nat) (orig : Board) (carried : List ℚ)
    (lastCnt : Nat) (dr dc : ℤ) (horig : Contig n orig)
    (hvals : ∀ i, i < carried.length → carried.getD i 0 ≠ 0) :
    ∀ (pattern : List Nat) (b : Board) (r c : ℤ) (ci : Nat), Contig n b →
      Contig n (moveLoop n orig carried lastCnt dr dc pattern b r c ci) := by
  intro pattern
  induction pattern with
  | nil => intro b r c ci hc; exact hc
  | cons cnt rest ih =>
    intro b r c ci hc
    simp only [moveLoop]
    by_cases hoob : r + dr < 0 ∨ (n : ℤ) ≤ r + dr ∨ c + dc < 0 ∨
        (n : ℤ) ≤ c + dc
    · rw [if_pos hoob]
      exact horig
    · rw [if_neg hoob]
      set rn := (r + dr).toNat with hrn
      set cn := (c + dc).toNat with hcn
      set th := stackHeight n b rn cn with hth
      rcases hti : (if 0 < th then valueToPiece (b (th - 1) rn cn) else none)
        with _ | ⟨tp, pt⟩
      · exact ih _ _ _ _ (dropPieces_contig n carried hvals cnt b rn cn ci hc)
      · have hpos : 0 < th := by
          by_contra hcon
          rw [if_neg hcon] at hti
          exact Option.noConfusion hti
        cases pt with
        | flat =>
          exact ih _ _ _ _
            (dropPieces_contig n carried hvals cnt b rn cn ci hc)
        | capstone => exact horig
        | standing =>
          dsimp only
          by_cases hlast : cnt = lastCnt ∧ ci + cnt = carried.length
          · rw [if_pos hlast]
            rcases htc : valueToPiece (carried.getD (ci + cnt - 1) 0)
              with _ | ⟨cp, cpt⟩
            · exact horig
            · cases cpt with
              | flat => exact horig
              | standing => exact horig
              | capstone =>
                have hold : b (th - 1) rn cn ≠ 0 :=
                  stackHeight_lower n b rn cn (th - 1) (by omega)
                have hc1 : Contig n
                    (bset b (th - 1) rn cn (pieceToValue PieceType.flat tp)) :=
                  contig_bset_nonzero n b (th - 1) rn cn _ hc
                    (pieceToValue_ne_zero _ _) hold
                exact ih _ _ _ _
                  (dropPieces_contig n carried hvals cnt _ rn cn ci hc1)
          · rw [if_neg hlast]
            exact horig

lemma filterMap_eq_map_of {α β : Type _} (f : α → Option β) (g : α → β) :
    ∀ L : List α, (∀ i ∈ L, f i = some (g i)) → L.filterMap f = L.map g := by
  intro L
  induction L with
  | nil => intro _; rfl
  | cons a L ih =>
    intro h
    rw [List.filterMap_cons_some (h a (List.mem_cons_self a L)),
      List.map_cons, ih fun i hi => h i (List.mem_cons_of_mem a hi)]

/-- Under the guards getNextState has already checked (pickup at most
the height, height within the board) every pickup index is in range, so
the carried list is exactly the top pickup cells bottom to top. -/
lemma pickupList_eq_map (n : Nat) (b : Board) (sr sc h0 pickup : Nat)
    (hpk : pickup ≤ h0) (hh0 : h0 ≤ n) :
    pickupList n b sr sc h0 pickup =
      (List.range pickup).map fun i => b (h0 - pickup + i) sr sc := by
  unfold pickupList
  apply filterMap_eq_map_of
  intro i hi
  have hi' := List.mem_range.mp hi
  dsimp only
  rw [if_pos ⟨by omega, by omega⟩]
  have ht : ((h0 : ℤ) - (pickup : ℤ) + (i : ℤ)).toNat = h0 - pickup + i := by
    omega
  rw [ht]

lemma pickupList_length (n : Nat) (b : Board) (sr sc h0 pickup : Nat)
    (hpk : pickup ≤ h0) (hh0 : h0 ≤ n) :
    (pickupList n b sr sc h0 pickup).length = pickup := by
  rw [pickupList_eq_map n b sr sc h0 pickup hpk hh0, List.length_map,
    List.length_range]

lemma pickupList_getD (n : Nat) (b : Board) (sr sc h0 pickup : Nat)
    (hpk : pickup ≤ h0) (hh0 : h0 ≤ n) (i : Nat) (hi : i < pickup) :
    (pickupList n b sr sc h0 pickup).getD i 0 = b (h0 - pickup + i) sr sc := by
  rw [pickupList_eq_map n b sr sc h0 pickup hpk hh0]
  have hlen : i < ((List.range pickup).map
      fun i => b (h0 - pickup + i) sr sc).length := by
    rw [List.length_map, List.length_range]
    exact hi
  rw [List.getD_eq_getElem _ _ hlen, List.getElem_map, List.getElem_range]

/-- The carried pieces of a feasible pickup are all nonzero: they were
read below the first empty layer of the start stack. -/
lemma pickupList_vals_ne_zero (n : Nat) (b : Board) (sr sc pickup : Nat)
    (hpk : pickup ≤ stackHeight n b sr sc) :
    ∀ i, i < (pickupList n b sr sc (stackHeight n b sr sc) pickup).length →
      (pickupList n b sr sc (stackHeight n b sr sc) pickup).getD i 0 ≠ 0 := by
  intro i hi
  have hle := stackHeight_le n b sr sc
  rw [pickupList_length n b sr sc _ pickup hpk hle] at hi
  rw [pickupList_getD n b sr sc _ pickup hpk hle i hi]
  exact stackHeight_lower n b sr sc _ (by omega)

lemma contig_setLayer_ge (n : Nat) (b : Board) (l : Nat) (v : ℚ)
    (hc : Contig n b) (hl : n ≤ l) : Contig n (setLayer b l v) := by
  intro r c h1 h2 hr hcc h12 h2n hz
  rw [setLayer_apply] at hz ⊢
  rw [if_neg (by omega)] at hz
  rw [if_neg (by omega)]
  exact hc r c h1 h2 hr hcc h12 h2n hz

lemma contig_addLayer_ge (n : Nat) (b : Board) (l : Nat) (v : ℚ)
    (hc : Contig n b) (hl : n ≤ l) : Contig n (addLayer b l v) := by
  intro r c h1 h2 hr hcc h12 h2n hz
  rw [addLayer_apply] at hz ⊢
  rw [if_neg (by omega)] at hz
  rw [if_neg (by omega)]
  exact hc r c h1 h2 hr hcc h12 h2n hz

lemma contig_applyPlacement (n : Nat) (b : Board) (player : ℤ)
    (ptIdx pos : Nat) (hc : Contig n b) :
    Contig n (applyPlacement n b player ptIdx pos).1 := by
  unfold applyPlacement
  dsimp only
  by_cases hh : stackHeight n b (pos / n) (pos % n) < n
  · rw [if_pos hh]
    have hbc : ∀ v : ℚ, v ≠ 0 →
        Contig n (bset b (stackHeight n b (pos / n) (pos % n)) (pos / n)
          (pos % n) v) :=
      fun v hv => contig_bset_at_height n b (pos / n) (pos % n) v hc hv hh
    split_ifs <;> dsimp only <;>
      first
        | exact contig_addLayer_ge n _ _ _ (hbc _ (pieceToValue_ne_zero _ _))
            (by omega)
        | exact contig_setLayer_ge n _ _ _ (hbc _ (pieceToValue_ne_zero _ _))
            (by omega)
  · rw [if_neg hh]
    exact hc

lemma contig_applyMovement (n : Nat) (b : Board) (player : ℤ)
    (patIdx dir pos : Nat) (hc : Contig n b) :
    Contig n (applyMovement n b player patIdx dir pos).1 := by
  unfold applyMovement
  dsimp only
  by_cases hpat : (movementPatterns n).length ≤ patIdx
  · rw [if_pos hpat]
    exact hc
  · rw [if_neg hpat]
    by_cases hpk : stackHeight n b (pos / n) (pos % n) <
        ((movementPatterns n).getD patIdx (0, [])).1
    · rw [if_pos hpk]
      exact hc
    · rw [if_neg hpk]
      by_cases hown : 0 < stackHeight n b (pos / n) (pos % n) ∧
          topOwned b (stackHeight n b (pos / n) (pos % n)) (pos / n)
            (pos % n) player = false
      · rw [if_pos hown]
        exact hc
      · rw [if_neg hown]
        exact moveLoop_contig n b _ _ _ _ hc
          (pickupList_vals_ne_zero n b (pos / n) (pos % n) _ (by omega))
          _ _ _ _ _
          (contig_pickupClear n b (pos / n) (pos % n) _ hc (by omega))

lemma contig_getNextState (n : Nat) (b : Board) (player : ℤ) (action : Nat)
    (hc : Contig n b) : Contig n (getNextState n b player action).1 := by
  unfold getNextState
  by_cases hp : action < numPlacement n
  · rw [if_pos hp]
    exact contig_applyPlacement n b player _ _ hc
  · rw [if_neg hp]
    exact contig_applyMovement n b player _ _ _ hc

lemma contig_initBoard (n : Nat) : Contig n (initBoard n) := by
  intro r c h1 h2 hr hcc h12 h2n hz
  unfold initBoard
  rw [if_pos h2n]

lemma countP_range_eq_min (n : Nat) (b : Board) (r c : Nat)
    (hc : Contig n b) (hr : r < n) (hcc : c < n) :
    ∀ m, m ≤ n → (List.range m).countP (fun h => decide (b h r c ≠ 0)) =
      min m (stackHeight n b r c) := by
  intro m
  induction m with
  | zero => intro _; simp
  | succ m ih =>
    intro hm
    have hle := stackHeight_le n b r c
    rw [List.range_succ, List.countP_append, ih (by omega),
      List.countP_cons, List.countP_nil]
    by_cases hcase : m < stackHeight n b r c
    · have hd : decide (b m r c ≠ 0) = true :=
        decide_eq_true (stackHeight_lower n b r c m hcase)
      rw [hd, if_pos rfl]
      omega
    · have hHn : stackHeight n b r c < n := by omega
      have hz0 : b (stackHeight n b r c) r c = 0 :=
        stackHeight_zero_at n b r c hHn
      have hzm : b m r c = 0 :=
        hc r c (stackHeight n b r c) m hr hcc (by omega) (by omega) hz0
      have hd : decide (b m r c ≠ 0) = false := by
        rw [hzm]
        simp
      rw [hd, if_neg Bool.false_ne_true]
      omega

/-- Claim C10: the stack-contiguity invariant.  Every board reachable
from getInitBoard by getNextState applications (any player, any action
index) keeps the occupied cells of every square a contiguous prefix of
the layers, and consequently _get_stack_height (first zero layer)
equals the exact number of pieces on the square. -/
theorem claim10_stack_contiguity (n : Nat) (b : Board)
    (hreach : Reachable n b) :
    Contig n b ∧
      ∀ r c, r < n → c < n →
        stackHeight n b r c =
          (List.range n).countP fun h0 => decide (b h0 r c ≠ 0) := by
  have hcontig : Contig n b := by
    induction hreach with
    | init => exact contig_initBoard n
    | step b player action hb ih => exact contig_getNextState n b player _ ih
  refine ⟨hcontig, ?_⟩
  intro r c hr hcc
  rw [countP_range_eq_min n b r c hcontig hr hcc n (Nat.le_refl n)]
  have := stackHeight_le n b r c
  omega

/-- Witness for claim C10: the board after the first placement of a
game on the 3 x 3 board is contiguous with exact heights. -/
theorem claim10_witness :
    Contig 3 (getNextState 3 (initBoard 3) 1 0).1 ∧
      ∀ r c, r < 3 → c < 3 →
        stackHeight 3 (getNextState 3 (initBoard 3) 1 0).1 r c =
          (List.range 3).countP fun h0 =>
            decide ((getNextState 3 (initBoard 3) 1 0).1 h0 r c ≠ 0) :=
  claim10_stack_contiguity 3 _
    (Reachable.step (initBoard 3) 1 0 Reachable.init)

/-! Facts about the movement-pattern catalogue: every pattern consists
of positive drops summing to its pickup count. -/

lemma genPatterns_mem (t m : Nat) :
    ∀ p ∈ genPatterns t m, p.sum = t ∧ (∀ x ∈ p, 1 ≤ x) ∧ p.length ≤ m := by
  induction m generalizing t with
  | zero =>
    intro p hp
    simp only [genPatterns] at hp
    by_cases ht : t = 0
    · rw [if_pos ht] at hp
      rcases List.mem_singleton.mp hp with rfl
      simp [ht]
    · rw [if_neg ht] at hp
      exact absurd hp (List.not_mem_nil p)
  | succ m ih =>
    intro p hp
    simp only [genPatterns] at hp
    by_cases ht : t = 0
    · rw [if_pos ht] at hp
      rcases List.mem_singleton.mp hp with rfl
      simp [ht]
    · rw [if_neg ht] at hp
      rcases List.mem_flatMap.mp hp with ⟨d, hd, hpd⟩
      rcases List.mem_map.mp hpd with ⟨q, hq, rfl⟩
      have hd' := List.mem_range.mp hd
      obtain ⟨hsum, hpos, hlen⟩ := ih (t - (d + 1)) q hq
      refine ⟨?_, ?_, by simp [List.length_cons]; omega⟩
      · simp only [List.sum_cons, hsum]
        omega
      · intro x hx
        rcases List.mem_cons.mp hx with rfl | hx
        · omega
        · exact hpos x hx

lemma movementPatterns_mem (n : Nat) :
    ∀ pk ∈ movementPatterns n, 1 ≤ pk.1 ∧ pk.1 ≤ n ∧ pk.2.sum = pk.1 ∧
      (∀ x ∈ pk.2, 1 ≤ x) ∧ pk.2.length ≤ pk.1 := by
  intro pk hpk
  unfold movementPatterns at hpk
  rcases List.mem_flatMap.mp hpk with ⟨k, hk, hpk2⟩
  rcases List.mem_map.mp hpk2 with ⟨q, hq, rfl⟩
  have hk' := List.mem_range.mp hk
  obtain ⟨hsum, hpos, hlen⟩ := genPatterns_mem (k + 1) (k + 1) q hq
  exact ⟨by omega, by omega, hsum, hpos, hlen⟩

lemma movementPatterns_getD_mem (n patIdx : Nat)
    (h : patIdx < (movementPatterns n).length) :
    (movementPatterns n).getD patIdx (0, []) ∈ movementPatterns n := by
  rw [List.getD_eq_getElem _ _ h]
  exact List.getElem_mem h

/-! Shifting the blocking condition one square along the walk. -/

lemma squareZ_shift (r c : ℤ) (d : ℤ × ℤ) (i : Nat) :
    squareZ r c d (i + 1) = squareZ (r + d.1) (c + d.2) d i := by
  unfold squareZ
  simp only [Prod.mk.injEq]
  constructor <;> push_cast <;> ring

lemma squareZ_shift' (r c d1 d2 : ℤ) (i : Nat) :
    squareZ r c (d1, d2) (i + 1) = squareZ (r + d1) (c + d2) (d1, d2) i :=
  squareZ_shift r c (d1, d2) i

lemma blockedZ_tail (n : Nat) (b : Board) (r c : ℤ) (d : ℤ × ℤ)
    (cnt j : Nat) (rest : List Nat) (capTop : Prop)
    (hj : j + 1 < (cnt :: rest).length)
    (hsafe : ∀ i, i < j + 1 → inGrid n (squareZ r c d i) ∧
      topKindAt n b (squareZ r c d i) ≠ some PieceType.capstone ∧
      topKindAt n b (squareZ r c d i) ≠ some PieceType.standing)
    (hgrid : inGrid n (squareZ r c d (j + 1)))
    (hblk : topKindAt n b (squareZ r c d (j + 1)) = some PieceType.capstone ∨
      (topKindAt n b (squareZ r c d (j + 1)) = some PieceType.standing ∧
        ¬ (j + 1 + 1 = (cnt :: rest).length ∧ capTop))) :
    BlockedZ n b (r + d.1) (c + d.2) d rest capTop := by
  refine ⟨j, by simp only [List.length_cons] at hj; omega, ?_, ?_, ?_⟩
  · intro i hi
    rw [← squareZ_shift]
    exact hsafe (i + 1) (by omega)
  · rw [← squareZ_shift]
    exact hgrid
  · rw [← squareZ_shift]
    rcases hblk with hcap | ⟨hst, hnot⟩
    · exact Or.inl hcap
    · refine Or.inr ⟨hst, ?_⟩
      intro ⟨hlen, hcapTop⟩
      exact hnot ⟨by simp only [List.length_cons]; omega, hcapTop⟩

/-- The path simulation of _is_valid_movement rejects a blocked walk:
whenever the blocking condition holds for the remaining pattern from
the current position, the simulation returns false. -/
lemma validWalk_blocked (n : Nat) (b : Board) (carried : List ℚ)
    (d1 d2 : ℤ) :
    ∀ (pattern : List Nat) (r c : ℤ) (ci : Nat),
      BlockedZ n b r c (d1, d2) pattern
        ((valueToPiece (carried.getD (carried.length - 1) 0)).map Prod.snd =
          some PieceType.capstone) →
      ci + pattern.sum = carried.length →
      (∀ x ∈ pattern, 1 ≤ x) →
      validWalk n b carried d1 d2 pattern r c ci = false := by
  intro pattern
  induction pattern with
  | nil =>
    rintro r c ci ⟨j, hj, _⟩ _ _
    exact absurd hj (by simp)
  | cons cnt rest ih =>
    rintro r c ci ⟨j, hj, hsafe, hgrid, hblk⟩ hsum hpos
    simp only [validWalk]
    rcases Nat.eq_zero_or_pos j with rfl | hjpos
    · have hoob : ¬ (r + d1 < 0 ∨ (n : ℤ) ≤ r + d1 ∨ c + d2 < 0 ∨
          (n : ℤ) ≤ c + d2) := by
        obtain ⟨g1, g2, g3, g4⟩ := hgrid
        unfold squareZ at g1 g2 g3 g4
        simp only at g1 g2 g3 g4
        push_neg
        refine ⟨by omega, by omega, by omega, by omega⟩
      rw [if_neg hoob]
      have hsq : squareZ r c (d1, d2) 0 = (r + d1, c + d2) := by
        unfold squareZ
        simp only [Prod.mk.injEq]
        constructor <;> push_cast <;> ring
      rw [hsq] at hblk
      rcases hti : (if 0 < stackHeight n b (r + d1).toNat (c + d2).toNat then
          valueToPiece (b (stackHeight n b (r + d1).toNat (c + d2).toNat - 1)
            (r + d1).toNat (c + d2).toNat)
        else none) with _ | ⟨tp, t⟩
      · rcases hblk with hcap | ⟨hst, _⟩
        · rw [topKindAt, hti] at hcap
          exact absurd hcap (by simp)
        · rw [topKindAt, hti] at hst
          exact absurd hst (by simp)
      · cases t with
        | flat =>
          rcases hblk with hcap | ⟨hst, _⟩
          · rw [topKindAt, hti] at hcap
            simp at hcap
          · rw [topKindAt, hti] at hst
            simp at hst
        | capstone => simp
        | standing =>
          rcases hblk with hcap | ⟨hst, hnot⟩
          · rw [topKindAt, hti] at hcap
            simp at hcap
          · dsimp only
            rcases rest with _ | ⟨r0, rs⟩
            · have hci : ci + cnt = carried.length := by
                simp only [List.sum_cons, List.sum_nil] at hsum
                omega
              have hcond : ([] : List Nat).isEmpty = true ∧
                  ci + cnt ≤ carried.length := ⟨rfl, by omega⟩
              rw [if_pos hcond]
              rcases htc : valueToPiece (carried.getD (ci + cnt - 1) 0)
                with _ | ⟨cp, ct⟩
              · rfl
              · cases ct with
                | capstone =>
                  exfalso
                  apply hnot
                  refine ⟨by simp, ?_⟩
                  rw [hci] at htc
                  rw [htc]
                  rfl
                | flat => rfl
                | standing => rfl
            · have hcond : ¬ ((r0 :: rs).isEmpty = true ∧
                  ci + cnt ≤ carried.length) := by simp
              rw [if_neg hcond]
              rfl
    · have hs0 := hsafe 0 hjpos
      have hoob : ¬ (r + d1 < 0 ∨ (n : ℤ) ≤ r + d1 ∨ c + d2 < 0 ∨
          (n : ℤ) ≤ c + d2) := by
        obtain ⟨⟨g1, g2, g3, g4⟩, _, _⟩ := hs0
        unfold squareZ at g1 g2 g3 g4
        simp only at g1 g2 g3 g4
        push_neg
        refine ⟨by omega, by omega, by omega, by omega⟩
      rw [if_neg hoob]
      have hsq : squareZ r c (d1, d2) 0 = (r + d1, c + d2) := by
        unfold squareZ
        simp only [Prod.mk.injEq]
        constructor <;> push_cast <;> ring
      rw [hsq] at hs0
      rcases hti : (if 0 < stackHeight n b (r + d1).toNat (c + d2).toNat then
          valueToPiece (b (stackHeight n b (r + d1).toNat (c + d2).toNat - 1)
            (r + d1).toNat (c + d2).toNat)
        else none) with _ | ⟨tp, t⟩
      · dsimp only
        by_cases hover : carried.length < ci + cnt
        · rw [if_pos hover]
          rfl
        · rw [if_neg hover]
          obtain ⟨j', rfl⟩ : ∃ j', j = j' + 1 := ⟨j - 1, by omega⟩
          have htail := blockedZ_tail n b r c (d1, d2) cnt j' rest _ hj hsafe
            hgrid hblk
          have hres := ih (r + d1) (c + d2) (ci + cnt) htail
            (by simp only [List.sum_cons] at hsum; omega)
            (fun x hx => hpos x (List.mem_cons_of_mem cnt hx))
          rw [hres]
          rfl
      · cases t with
        | capstone =>
          exfalso
          obtain ⟨_, hc2, _⟩ := hs0
          rw [topKindAt, hti] at hc2
          exact hc2 rfl
        | standing =>
          exfalso
          obtain ⟨_, _, hc3⟩ := hs0
          rw [topKindAt, hti] at hc3
          exact hc3 rfl
        | flat =>
          dsimp only
          by_cases hover : carried.length < ci + cnt
          · rw [if_pos hover]
            rfl
          · rw [if_neg hover]
            obtain ⟨j', rfl⟩ : ∃ j', j = j' + 1 := ⟨j - 1, by omega⟩
            have htail := blockedZ_tail n b r c (d1, d2) cnt j' rest _ hj hsafe
              hgrid hblk
            have hres := ih (r + d1) (c + d2) (ci + cnt) htail
              (by simp only [List.sum_cons] at hsum; omega)
              (fun x hx => hpos x (List.mem_cons_of_mem cnt hx))
            rw [hres]
            rfl

/-- The drop loop writes only to its own square. -/
lemma dropPieces_fst_other (n : Nat) (carried : List ℚ) :
    ∀ (k : Nat) (b : Board) (r c ci h r' c' : Nat), (r' ≠ r ∨ c' ≠ c) →
      (dropPieces n carried k b r c ci).1 h r' c' = b h r' c' := by
  intro k
  induction k with
  | zero => intro b r c ci h r' c' _; rfl
  | succ k ih =>
    intro b r c ci h r' c' hne
    simp only [dropPieces]
    by_cases h1 : ci < carried.length
    · rw [if_pos h1]
      by_cases h2 : stackHeight n b r c < n
      · rw [if_pos h2]
        rw [ih _ _ _ _ _ _ _ hne, bset_apply]
        rw [if_neg (by tauto)]
      · rw [if_neg h2]
        exact ih _ _ _ _ _ _ _ hne
    · rw [if_neg h1]
      exact ih _ _ _ _ _ _ _ hne

/-- Two distinct in-grid squares of the same movement ray differ in a
coordinate (after the toNat conversion the reads use). -/
lemma squareZ_toNat_ne (n : Nat) (r c d1 d2 : ℤ)
    (hdir : (d1 = 0 ∧ (d2 = 1 ∨ d2 = -1)) ∨ (d2 = 0 ∧ (d1 = 1 ∨ d1 = -1)))
    (i j : Nat) (hij : i ≠ j)
    (hgi : inGrid n (squareZ r c (d1, d2) i))
    (hgj : inGrid n (squareZ r c (d1, d2) j)) :
    (squareZ r c (d1, d2) i).1.toNat ≠ (squareZ r c (d1, d2) j).1.toNat ∨
    (squareZ r c (d1, d2) i).2.toNat ≠ (squareZ r c (d1, d2) j).2.toNat := by
  obtain ⟨gi1, gi2, gi3, gi4⟩ := hgi
  obtain ⟨gj1, gj2, gj3, gj4⟩ := hgj
  unfold squareZ at *
  simp only at *
  rcases hdir with ⟨h1, h2⟩ | ⟨h1, h2⟩
  · subst h1
    right
    rcases h2 with rfl | rfl <;> omega
  · subst h1
    left
    rcases h2 with rfl | rfl <;> omega

/-- The drop loop consumes at most its drop count of carried pieces. -/
lemma dropPieces_ci_le (n : Nat) (carried : List ℚ) :
    ∀ (k : Nat) (b : Board) (r c ci : Nat),
      (dropPieces n carried k b r c ci).2 ≤ ci + k := by
  intro k
  induction k with
  | zero => intro b r c ci; exact Nat.le_refl _
  | succ k ih =>
    intro b r c ci
    simp only [dropPieces]
    by_cases h1 : ci < carried.length
    · rw [if_pos h1]
      by_cases h2 : stackHeight n b r c < n
      · rw [if_pos h2]
        have := ih (bset b (stackHeight n b r c) r c (carried.getD ci 0)) r c
          (ci + 1)
        omega
      · rw [if_neg h2]
        have := ih b r c ci
        omega
    · rw [if_neg h1]
      have := ih b r c ci
      omega

/-- The drop walk of getNextState returns the untouched original board
whenever the blocking condition holds for the remaining pattern, as
long as the current working board still agrees with the original on
every in-grid square ahead of the walk. -/
lemma moveLoop_blocked (n : Nat) (orig : Board) (carried : List ℚ)
    (lastCnt : Nat) (d1 d2 : ℤ)
    (hdir : (d1 = 0 ∧ (d2 = 1 ∨ d2 = -1)) ∨ (d2 = 0 ∧ (d1 = 1 ∨ d1 = -1))) :
    ∀ (pattern : List Nat) (b : Board) (r c : ℤ) (ci : Nat),
      BlockedZ n orig r c (d1, d2) pattern
        ((valueToPiece (carried.getD (carried.length - 1) 0)).map Prod.snd =
          some PieceType.capstone) →
      (∀ j, j < pattern.length → inGrid n (squareZ r c (d1, d2) j) →
        ∀ h, b h (squareZ r c (d1, d2) j).1.toNat
            (squareZ r c (d1, d2) j).2.toNat =
          orig h (squareZ r c (d1, d2) j).1.toNat
            (squareZ r c (d1, d2) j).2.toNat) →
      ci + pattern.sum ≤ carried.length →
      (∀ x ∈ pattern, 1 ≤ x) →
      moveLoop n orig carried lastCnt d1 d2 pattern b r c ci = orig := by
  intro pattern
  induction pattern with
  | nil =>
    rintro b r c ci ⟨j, hj, _⟩ _ _ _
    exact absurd hj (by simp)
  | cons cnt rest ih =>
    rintro b r c ci ⟨j, hj, hsafe, hgrid, hblk⟩ hagree hsum hpos
    simp only [moveLoop]
    have hsq : squareZ r c (d1, d2) 0 = (r + d1, c + d2) := by
      unfold squareZ
      simp only [Prod.mk.injEq]
      constructor <;> push_cast <;> ring
    have hgrid0 : inGrid n (squareZ r c (d1, d2) 0) := by
      rcases Nat.eq_zero_or_pos j with rfl | hjpos
      · exact hgrid
      · exact (hsafe 0 hjpos).1
    have hoob : ¬ (r + d1 < 0 ∨ (n : ℤ) ≤ r + d1 ∨ c + d2 < 0 ∨
        (n : ℤ) ≤ c + d2) := by
      rw [hsq] at hgrid0
      obtain ⟨g1, g2, g3, g4⟩ := hgrid0
      simp only at g1 g2 g3 g4
      push_neg
      refine ⟨by omega, by omega, by omega, by omega⟩
    rw [if_neg hoob]
    have hagree0 : ∀ h, b h (r + d1).toNat (c + d2).toNat =
        orig h (r + d1).toNat (c + d2).toNat := by
      intro h
      have := hagree 0 (by simp) hgrid0 h
      rw [hsq] at this
      exact this
    have hth : stackHeight n b (r + d1).toNat (c + d2).toNat =
        stackHeight n orig (r + d1).toNat (c + d2).toNat :=
      stackHeight_congr n orig b _ _ fun k _ => hagree0 k
    have hscr : (if 0 < stackHeight n b (r + d1).toNat (c + d2).toNat then
        valueToPiece (b (stackHeight n b (r + d1).toNat (c + d2).toNat - 1)
          (r + d1).toNat (c + d2).toNat)
      else none) =
        (if 0 < stackHeight n orig (r + d1).toNat (c + d2).toNat then
          valueToPiece (orig
            (stackHeight n orig (r + d1).toNat (c + d2).toNat - 1)
            (r + d1).toNat (c + d2).toNat)
        else none) := by
      rw [hth]
      by_cases h0 : 0 < stackHeight n orig (r + d1).toNat (c + d2).toNat
      · rw [if_pos h0, if_pos h0, hagree0]
      · rw [if_neg h0, if_neg h0]
    rw [hscr]
    have htop0 : topKindAt n orig (squareZ r c (d1, d2) 0) =
        ((if 0 < stackHeight n orig (r + d1).toNat (c + d2).toNat then
          valueToPiece (orig
            (stackHeight n orig (r + d1).toNat (c + d2).toNat - 1)
            (r + d1).toNat (c + d2).toNat)
        else none)).map Prod.snd := by
      rw [hsq]
      rfl
    have hagreeNext : ∀ (b' : Board),
        (∀ h r' c', (r' ≠ (r + d1).toNat ∨ c' ≠ (c + d2).toNat) →
          b' h r' c' = b h r' c') →
        ∀ j', j' < rest.length →
          inGrid n (squareZ (r + d1) (c + d2) (d1, d2) j') →
          ∀ h, b' h (squareZ (r + d1) (c + d2) (d1, d2) j').1.toNat
              (squareZ (r + d1) (c + d2) (d1, d2) j').2.toNat =
            orig h (squareZ (r + d1) (c + d2) (d1, d2) j').1.toNat
              (squareZ (r + d1) (c + d2) (d1, d2) j').2.toNat := by
      intro b' hb' j' hj' hg' h
      rw [← squareZ_shift'] at hg' ⊢
      have hne := squareZ_toNat_ne n r c d1 d2 hdir (j' + 1) 0 (by omega)
        hg' hgrid0
      rw [hsq] at hne
      simp only at hne
      rw [hb' h _ _ hne]
      exact hagree (j' + 1) (by simp only [List.length_cons]; omega) hg' h
    rcases hti : (if 0 < stackHeight n orig (r + d1).toNat (c + d2).toNat then
        valueToPiece (orig
          (stackHeight n orig (r + d1).toNat (c + d2).toNat - 1)
          (r + d1).toNat (c + d2).toNat)
      else none) with _ | ⟨tp, t⟩
    · have hjpos : 0 < j := by
        rcases Nat.eq_zero_or_pos j with rfl | hjpos
        · exfalso
          rcases hblk with hcap | ⟨hst, _⟩
          · rw [htop0, hti] at hcap
            simp at hcap
          · rw [htop0, hti] at hst
            simp at hst
        · exact hjpos
      obtain ⟨j', rfl⟩ : ∃ j', j = j' + 1 := ⟨j - 1, by omega⟩
      have hci := dropPieces_ci_le n carried cnt b (r + d1).toNat
        (c + d2).toNat ci
      have hres := ih
        (dropPieces n carried cnt b (r + d1).toNat (c + d2).toNat ci).1
        (r + d1) (c + d2)
        (dropPieces n carried cnt b (r + d1).toNat (c + d2).toNat ci).2
        (blockedZ_tail n orig r c (d1, d2) cnt j' rest _ hj hsafe hgrid hblk)
        (hagreeNext
          (dropPieces n carried cnt b (r + d1).toNat (c + d2).toNat ci).1
          fun h r' c' hne =>
            dropPieces_fst_other n carried cnt b _ _ ci h r' c' hne)
        (by simp only [List.sum_cons] at hsum; omega)
        (fun x hx => hpos x (List.mem_cons_of_mem cnt hx))
      exact hres
    · cases t with
      | capstone => rfl
      | flat =>
        have hjpos : 0 < j := by
          rcases Nat.eq_zero_or_pos j with rfl | hjpos
          · exfalso
            rcases hblk with hcap | ⟨hst, _⟩
            · rw [htop0, hti] at hcap
              simp at hcap
            · rw [htop0, hti] at hst
              simp at hst
          · exact hjpos
        obtain ⟨j', rfl⟩ : ∃ j', j = j' + 1 := ⟨j - 1, by omega⟩
        have hci := dropPieces_ci_le n carried cnt b (r + d1).toNat
          (c + d2).toNat ci
        have hres := ih
          (dropPieces n carried cnt b (r + d1).toNat (c + d2).toNat ci).1
          (r + d1) (c + d2)
          (dropPieces n carried cnt b (r + d1).toNat (c + d2).toNat ci).2
          (blockedZ_tail n orig r c (d1, d2) cnt j' rest _ hj hsafe hgrid hblk)
          (hagreeNext
            (dropPieces n carried cnt b (r + d1).toNat (c + d2).toNat ci).1
            fun h r' c' hne =>
              dropPieces_fst_other n carried cnt b _ _ ci h r' c' hne)
          (by simp only [List.sum_cons] at hsum; omega)
          (fun x hx => hpos x (List.mem_cons_of_mem cnt hx))
        exact hres
      | standing =>
        have hj0 : j = 0 := by
          rcases Nat.eq_zero_or_pos j with rfl | hjpos
          · rfl
          · exfalso
            have hs0 := (hsafe 0 hjpos).2.2
            rw [htop0, hti] at hs0
            exact hs0 rfl
        subst hj0
        have hstand : topKindAt n orig (squareZ r c (d1, d2) 0) =
            some PieceType.standing := by
          rw [htop0, hti]
          rfl
        dsimp only
        rcases hblk with hcap | ⟨_, hnot⟩
        · rw [hstand] at hcap
          exact absurd hcap (by simp)
        · by_cases hcond : cnt = lastCnt ∧ ci + cnt = carried.length
          · rw [if_pos hcond]
            have hrest : rest = [] := by
              rcases rest with _ | ⟨r0, rs⟩
              · rfl
              · exfalso
                have hr0 := hpos r0 (List.mem_cons_of_mem cnt
                  (List.mem_cons_self r0 rs))
                simp only [List.sum_cons] at hsum
                have hsp : 0 ≤ rs.sum := Nat.zero_le _
                have hc2 := hcond.2
                omega
            subst hrest
            have hncap : ¬ ((valueToPiece
                (carried.getD (carried.length - 1) 0)).map Prod.snd =
                  some PieceType.capstone) := by
              intro hcon
              exact hnot ⟨by simp, hcon⟩
            rcases htc : valueToPiece (carried.getD (ci + cnt - 1) 0)
              with _ | ⟨cp, ct⟩
            · rfl
            · cases ct with
              | capstone =>
                exfalso
                apply hncap
                rw [← hcond.2, htc]
                rfl
              | flat => rfl
              | standing => rfl
          · rw [if_neg hcond]

/-- The four direction vectors each have exactly one unit component. -/
lemma dirVec_cases (dir : Nat) :
    ((dirVec dir).2 = 0 ∧ ((dirVec dir).1 = 1 ∨ (dirVec dir).1 = -1)) ∨
    ((dirVec dir).1 = 0 ∧ ((dirVec dir).2 = 1 ∨ (dirVec dir).2 = -1)) := by
  unfold dirVec
  split_ifs <;> simp

/-- A walk square never coincides with the start square (after the
toNat conversion), because its ray coordinate moved. -/
lemma squareZ_toNat_ne_start (n : Nat) (sr sc : Nat) (d1 d2 : ℤ)
    (hdir : (d2 = 0 ∧ (d1 = 1 ∨ d1 = -1)) ∨ (d1 = 0 ∧ (d2 = 1 ∨ d2 = -1)))
    (_hsr : sr < n) (_hsc : sc < n) (j : Nat)
    (hg : inGrid n (squareZ (sr : ℤ) (sc : ℤ) (d1, d2) j)) :
    (squareZ (sr : ℤ) (sc : ℤ) (d1, d2) j).1.toNat ≠ sr ∨
    (squareZ (sr : ℤ) (sc : ℤ) (d1, d2) j).2.toNat ≠ sc := by
  obtain ⟨g1, g2, g3, g4⟩ := hg
  unfold squareZ at *
  simp only at *
  rcases hdir with ⟨h1, h2⟩ | ⟨h1, h2⟩
  · subst h1
    left
    rcases h2 with rfl | rfl <;> omega
  · subst h1
    right
    rcases h2 with rfl | rfl <;> omega

/-- Claim C7: a movement whose walk is blocked (a drop square topped by
a capstone, or by a standing stone without the final-drop capstone
exception) is absent from getValidMoves, and applying it anyway through
getNextState returns the input board unchanged with only the turn
flipped: no partial mutation of the picked-up pieces leaks into the
result.  Stated both for the decoded components and for the encoded
action index. -/
theorem claim7_blocked_movement_rejected_and_atomic (n : Nat) (b : Board)
    (player : ℤ) (patIdx dir pos : Nat)
    (hpat : patIdx < (movementPatterns n).length) (hdir4 : dir < 4)
    (hposlt : pos < n * n)
    (hblocked : BlockedWalk n b (pos / n) (pos % n) (dirVec dir)
      ((movementPatterns n).getD patIdx (0, [])).2) :
    validMovementEntry n b player patIdx dir pos = false ∧
    applyMovement n b player patIdx dir pos = (b, -player) ∧
    validMove n b player (encodeAction n (Action.move patIdx dir pos)) =
      false ∧
    getNextState n b player (encodeAction n (Action.move patIdx dir pos)) =
      (b, -player) := by
  have hn0 : 0 < n := by
    by_contra hcon
    have h0 : n = 0 := by omega
    subst h0
    exact absurd hposlt (by simp)
  have hsr : pos / n < n := by
    rw [Nat.div_lt_iff_lt_mul hn0]
    exact hposlt
  have hsc : pos % n < n := Nat.mod_lt _ hn0
  obtain ⟨hpk1, hpkn, hpsum, hppos, hplen⟩ :=
    movementPatterns_mem n _ (movementPatterns_getD_mem n patIdx hpat)
  set pk := (movementPatterns n).getD patIdx (0, []) with hpk
  set sr := pos / n with hsr'
  set sc := pos % n with hsc'
  set h0 := stackHeight n b sr sc with hh0
  have hdirc := dirVec_cases dir
  have hdpair : dirVec dir = ((dirVec dir).1, (dirVec dir).2) := rfl
  have hmain : validMovementEntry n b player patIdx dir pos = false ∧
      applyMovement n b player patIdx dir pos = (b, -player) := by
    constructor
    · unfold validMovementEntry
      dsimp only
      rw [if_neg (by omega)]
      rw [← hpk, ← hsr', ← hsc', ← hh0]
      by_cases h1 : h0 = 0
      · rw [if_pos h1]
      · rw [if_neg h1]
        by_cases h2 : h0 < pk.1
        · rw [if_pos h2]
        · rw [if_neg h2]
          by_cases h3 : n < pk.1
          · rw [if_pos h3]
          · rw [if_neg h3]
            by_cases h4 : topOwned b h0 sr sc player = false
            · rw [if_pos h4]
            · rw [if_neg h4]
              unfold isValidMovement
              dsimp only
              rw [← hh0]
              have hlen : (pickupList n b sr sc h0 pk.1).length = pk.1 :=
                pickupList_length n b sr sc h0 pk.1 (by omega)
                  (stackHeight_le n b sr sc)
              have hgetd : (pickupList n b sr sc h0 pk.1).getD
                  ((pickupList n b sr sc h0 pk.1).length - 1) 0 =
                    b (h0 - 1) sr sc := by
                rw [hlen]
                rw [pickupList_getD n b sr sc h0 pk.1 (by omega)
                  (stackHeight_le n b sr sc) (pk.1 - 1) (by omega)]
                have he : h0 - pk.1 + (pk.1 - 1) = h0 - 1 := by omega
                rw [he]
              apply validWalk_blocked n b _ _ _ pk.2 _ _ 0
              · have hCeq : ((valueToPiece ((pickupList n b sr sc h0
                    pk.1).getD ((pickupList n b sr sc h0 pk.1).length - 1)
                      0)).map Prod.snd = some PieceType.capstone) =
                    ((valueToPiece (b (stackHeight n b sr sc - 1)
                      sr sc)).map Prod.snd = some PieceType.capstone) := by
                  rw [hgetd, hh0]
                unfold BlockedWalk at hblocked
                rw [← hdpair, hCeq]
                exact hblocked
              · rw [hlen]
                omega
              · exact hppos
    · unfold applyMovement
      dsimp only
      rw [if_neg (by omega)]
      rw [← hpk, ← hsr', ← hsc', ← hh0]
      by_cases h2 : h0 < pk.1
      · rw [if_pos h2]
      · rw [if_neg h2]
        by_cases h4 : 0 < h0 ∧ topOwned b h0 sr sc player = false
        · rw [if_pos h4]
        · rw [if_neg h4]
          have hlen : (pickupList n b sr sc h0 pk.1).length = pk.1 :=
            pickupList_length n b sr sc h0 pk.1 (by omega)
              (stackHeight_le n b sr sc)
          have hgetd : (pickupList n b sr sc h0 pk.1).getD
              ((pickupList n b sr sc h0 pk.1).length - 1) 0 =
                b (h0 - 1) sr sc := by
            rw [hlen]
            rw [pickupList_getD n b sr sc h0 pk.1 (by omega)
              (stackHeight_le n b sr sc) (pk.1 - 1) (by omega)]
            have he : h0 - pk.1 + (pk.1 - 1) = h0 - 1 := by omega
            rw [he]
          have hml : moveLoop n b (pickupList n b sr sc h0 pk.1)
              (pk.2.getLastD 0) (dirVec dir).1 (dirVec dir).2 pk.2
              (pickupClear n b sr sc h0 pk.1) (sr : ℤ) (sc : ℤ) 0 = b := by
            apply moveLoop_blocked n b _ _ _ _
              (by
                rcases hdirc with ⟨e1, e2⟩ | ⟨e1, e2⟩
                · right
                  exact ⟨e1, e2⟩
                · left
                  exact ⟨e1, e2⟩)
            · have hCeq : ((valueToPiece ((pickupList n b sr sc h0
                  pk.1).getD ((pickupList n b sr sc h0 pk.1).length - 1)
                    0)).map Prod.snd = some PieceType.capstone) =
                  ((valueToPiece (b (stackHeight n b sr sc - 1)
                    sr sc)).map Prod.snd = some PieceType.capstone) := by
                rw [hgetd, hh0]
              unfold BlockedWalk at hblocked
              rw [hCeq]
              rw [hdpair] at hblocked
              exact hblocked
            · intro j hj hg h
              rw [pickupClear_apply n b sr sc h0 pk.1 (by omega)
                (stackHeight_le n b sr sc)]
              have hne := squareZ_toNat_ne_start n sr sc (dirVec dir).1
                (dirVec dir).2 hdirc hsr hsc j (by rw [hdpair] at hg; exact hg)
              rw [if_neg (by tauto)]
            · rw [hlen]
              omega
            · exact hppos
          rw [hml]
  refine ⟨hmain.1, hmain.2, ?_, ?_⟩
  · obtain ⟨e1, e2, e3, e4, e5⟩ :=
      encode_move_arith (n * n) (movementPatterns n).length patIdx dir pos
        hpat hdir4 hposlt
    have henc : encodeAction n (Action.move patIdx dir pos) =
        3 * (n * n) + patIdx * (4 * (n * n)) + dir * (n * n) + pos := rfl
    unfold validMove
    rw [henc]
    rw [if_neg (by
      have : numPlacement n = 3 * (n * n) := rfl
      omega)]
    have hnp : numPlacement n = 3 * (n * n) := rfl
    rw [hnp, e2, e3, e4]
    exact hmain.1
  · obtain ⟨e1, e2, e3, e4, e5⟩ :=
      encode_move_arith (n * n) (movementPatterns n).length patIdx dir pos
        hpat hdir4 hposlt
    have henc : encodeAction n (Action.move patIdx dir pos) =
        3 * (n * n) + patIdx * (4 * (n * n)) + dir * (n * n) + pos := rfl
    unfold getNextState
    rw [henc]
    rw [if_neg (by
      have : numPlacement n = 3 * (n * n) := rfl
      omega)]
    have hnp : numPlacement n = 3 * (n * n) := rfl
    rw [hnp, e2, e3, e4]
    exact hmain.2

/-- Witness for C7: on the 3x3 blocked position, moving black's flat
from (2,1) one square right into the white capstone (pattern 0,
direction 3, square 7; action index 61) is invalid and getNextState
leaves the board untouched. -/
theorem claim7_witness :
    0 < (movementPatterns 3).length ∧ 3 < 4 ∧ 7 < 3 * 3 ∧
    BlockedWalk 3 blockedBoard (7 / 3) (7 % 3) (dirVec 3)
      ((movementPatterns 3).getD 0 (0, [])).2 ∧
    (validMovementEntry 3 blockedBoard (-1) 0 3 7 = false ∧
      applyMovement 3 blockedBoard (-1) 0 3 7 = (blockedBoard, -(-1)) ∧
      validMove 3 blockedBoard (-1)
        (encodeAction 3 (Action.move 0 3 7)) = false ∧
      getNextState 3 blockedBoard (-1)
        (encodeAction 3 (Action.move 0 3 7)) = (blockedBoard, -(-1))) :=
  ⟨by decide, by decide, by decide, by unfold BlockedWalk BlockedZ; decide,
    claim7_blocked_movement_rejected_and_atomic 3 blockedBoard (-1) 0 3 7
      (by decide) (by decide) (by decide)
      (by unfold BlockedWalk BlockedZ; decide)⟩

/-! Counting infrastructure for the supply-conservation analysis (C2). -/

lemma countP_range_eq_sum (n : Nat) (f : Nat → Bool) :
    (List.range n).countP f =
      ((List.range n).map fun j => if f j then 1 else 0).sum := by
  induction n with
  | zero => rfl
  | succ m ih =>
    rw [List.range_succ, List.countP_append, List.map_append,
      List.sum_append, ih]
    simp [List.countP_cons]

lemma sum_range_except (n i0 : Nat) (f g : Nat → Nat) (hi : i0 < n)
    (hfg : ∀ j, j < n → j ≠ i0 → f j = g j) :
    ((List.range n).map f).sum + g i0 = ((List.range n).map g).sum + f i0 := by
  induction n with
  | zero => omega
  | succ m ih =>
    rw [List.range_succ, List.map_append, List.map_append, List.sum_append,
      List.sum_append]
    simp only [List.map_cons, List.map_nil, List.sum_cons, List.sum_nil]
    by_cases him : i0 = m
    · subst him
      have hmap : (List.range i0).map f = (List.range i0).map g := by
        apply List.map_congr_left
        intro j hj
        have hj' := List.mem_range.mp hj
        exact hfg j (by omega) (by omega)
      rw [hmap]
      omega
    · have hfm : f m = g m := hfg m (by omega) (fun hcon => him hcon.symm)
      have hih := ih (by omega) (fun j hj hne => hfg j (by omega) hne)
      omega

lemma colCount_congr (p : ℚ → Bool) (n : Nat) (b b' : Board) (r c : Nat)
    (h : ∀ h', h' < n → b' h' r c = b h' r c) :
    colCount p n b' r c = colCount p n b r c := by
  unfold colCount
  apply List.countP_congr
  intro a ha
  rw [h a (List.mem_range.mp ha)]

lemma colCount_bset_self (p : ℚ → Bool) (n : Nat) (b : Board)
    (h0 r0 c0 : Nat) (v : ℚ) (hh : h0 < n) :
    colCount p n (bset b h0 r0 c0 v) r0 c0 +
        (if p (b h0 r0 c0) then 1 else 0) =
      colCount p n b r0 c0 + (if p v then 1 else 0) := by
  unfold colCount
  rw [countP_range_eq_sum, countP_range_eq_sum]
  have hself : bset b h0 r0 c0 v h0 r0 c0 = v := by
    rw [bset_apply, if_pos ⟨rfl, rfl, rfl⟩]
  have key := sum_range_except n h0
    (fun j => if p (bset b h0 r0 c0 v j r0 c0) then 1 else 0)
    (fun j => if p (b j r0 c0) then 1 else 0) hh
    (by
      intro j hj hne
      dsimp only
      have hcond : ¬ (j = h0 ∧ r0 = r0 ∧ c0 = c0) := fun hcon => hne hcon.1
      rw [bset_apply, if_neg hcond])
  simp only at key
  rw [hself] at key
  exact key

lemma countCells_congr (n : Nat) (b b' : Board) (p : ℚ → Bool)
    (h : ∀ h' r c, h' < n → r < n → c < n → b' h' r c = b h' r c) :
    countCells n b' p = countCells n b p := by
  unfold countCells
  apply congrArg
  apply List.map_congr_left
  intro r hr
  apply congrArg
  apply List.map_congr_left
  intro c hc
  exact colCount_congr p n b b' r c fun h' hh' =>
    h h' r c hh' (List.mem_range.mp hr) (List.mem_range.mp hc)

lemma countCells_col_diff (n : Nat) (b b' : Board) (r0 c0 : Nat)
    (p : ℚ → Bool) (hr : r0 < n) (hc : c0 < n)
    (hoth : ∀ h r c, r ≠ r0 ∨ c ≠ c0 → b' h r c = b h r c) :
    countCells n b' p + colCount p n b r0 c0 =
      countCells n b p + colCount p n b' r0 c0 := by
  unfold countCells
  have hrow := sum_range_except n c0 (fun c => colCount p n b' r0 c)
    (fun c => colCount p n b r0 c) hc
    (by
      intro c hcn hcne
      exact colCount_congr p n b b' r0 c fun h' _ => hoth h' r0 c (Or.inr hcne))
  have houter := sum_range_except n r0
    (fun r => ((List.range n).map fun c => colCount p n b' r c).sum)
    (fun r => ((List.range n).map fun c => colCount p n b r c).sum) hr
    (by
      intro r hrn hrne
      apply congrArg
      apply List.map_congr_left
      intro c _
      exact colCount_congr p n b b' r c fun h' _ => hoth h' r c (Or.inl hrne))
  simp only at hrow houter
  omega

lemma countCells_bset (n : Nat) (b : Board) (h0 r0 c0 : Nat) (v : ℚ)
    (p : ℚ → Bool) (hh : h0 < n) (hr : r0 < n) (hc : c0 < n) :
    countCells n (bset b h0 r0 c0 v) p + (if p (b h0 r0 c0) then 1 else 0) =
      countCells n b p + (if p v then 1 else 0) := by
  have hcd := countCells_col_diff n b (bset b h0 r0 c0 v) r0 c0 p hr hc
    (by
      intro h r c hne
      rw [bset_apply, if_neg (fun hcon => by tauto)])
  have hcs := colCount_bset_self p n b h0 r0 c0 v hh
  omega

lemma countCells_setLayer_ge (n : Nat) (b : Board) (l : Nat) (v : ℚ)
    (p : ℚ → Bool) (hl : n ≤ l) :
    countCells n (setLayer b l v) p = countCells n b p :=
  countCells_congr n b _ p fun h' _ _ hh' _ _ => by
    rw [setLayer_apply, if_neg (by omega)]

lemma countCells_addLayer_ge (n : Nat) (b : Board) (l : Nat) (v : ℚ)
    (p : ℚ → Bool) (hl : n ≤ l) :
    countCells n (addLayer b l v) p = countCells n b p :=
  countCells_congr n b _ p fun h' _ _ hh' _ _ => by
    rw [addLayer_apply, if_neg (by omega)]

/-! Classification of cell values for the conservation ledgers. -/

lemma valueToPiece_zero : valueToPiece 0 = none := by
  unfold valueToPiece
  norm_num

lemma isStoneOf_zero (s : ℤ) : isStoneOf s 0 = false := by
  unfold isStoneOf
  rw [valueToPiece_zero]

lemma isCapOf_zero (s : ℤ) : isCapOf s 0 = false := by
  unfold isCapOf
  rw [valueToPiece_zero]

lemma valueToPiece_one : valueToPiece 1 = some (1, PieceType.flat) := by
  unfold valueToPiece
  norm_num

lemma valueToPiece_two : valueToPiece 2 = some (-1, PieceType.flat) := by
  unfold valueToPiece
  norm_num

lemma valueToPiece_three : valueToPiece 3 = some (1, PieceType.standing) := by
  unfold valueToPiece
  norm_num

lemma valueToPiece_four : valueToPiece 4 = some (-1, PieceType.standing) := by
  unfold valueToPiece
  norm_num

lemma pieceToValue_flat_white : pieceToValue PieceType.flat 1 = 1 := by
  unfold pieceToValue
  norm_num

lemma pieceToValue_flat_black (q : ℤ) (hq : q ≠ 1) :
    pieceToValue PieceType.flat q = 2 := by
  unfold pieceToValue
  dsimp only
  rw [if_neg hq]
  norm_num

lemma valueToPiece_standing_inv (v : ℚ) (tp : ℤ)
    (h : valueToPiece v = some (tp, PieceType.standing)) :
    (v = 3 ∧ tp = 1) ∨ (v = 4 ∧ tp = -1) := by
  unfold valueToPiece at h
  split_ifs at h <;> simp_all

lemma isStoneOf_flatten (s : ℤ) (tp : ℤ) (v : ℚ)
    (h : valueToPiece v = some (tp, PieceType.standing)) :
    isStoneOf s (pieceToValue PieceType.flat tp) = isStoneOf s v := by
  rcases valueToPiece_standing_inv v tp h with ⟨rfl, rfl⟩ | ⟨rfl, rfl⟩
  · rw [pieceToValue_flat_white]
    unfold isStoneOf
    rw [valueToPiece_one, valueToPiece_three]
  · rw [pieceToValue_flat_black (-1) (by norm_num)]
    unfold isStoneOf
    rw [valueToPiece_two, valueToPiece_four]

lemma isCapOf_flatten (s : ℤ) (tp : ℤ) (v : ℚ)
    (h : valueToPiece v = some (tp, PieceType.standing)) :
    isCapOf s (pieceToValue PieceType.flat tp) = isCapOf s v := by
  rcases valueToPiece_standing_inv v tp h with ⟨rfl, rfl⟩ | ⟨rfl, rfl⟩
  · rw [pieceToValue_flat_white]
    unfold isCapOf
    rw [valueToPiece_one, valueToPiece_three]
  · rw [pieceToValue_flat_black (-1) (by norm_num)]
    unfold isCapOf
    rw [valueToPiece_two, valueToPiece_four]

lemma pieceToValue_stone_counts (t : PieceType) (q : ℤ)
    (ht : t ≠ PieceType.capstone) :
    ((if isStoneOf 1 (pieceToValue t q) then 1 else 0) +
        (if isStoneOf (-1) (pieceToValue t q) then 1 else 0) = 1) ∧
      isCapOf 1 (pieceToValue t q) = false ∧
      isCapOf (-1) (pieceToValue t q) = false := by
  cases t with
  | capstone => exact absurd rfl ht
  | flat =>
    by_cases hq : q = 1
    · subst hq
      rw [pieceToValue_flat_white]
      refine ⟨by decide, by decide, by decide⟩
    · rw [pieceToValue_flat_black q hq]
      refine ⟨by decide, by decide, by decide⟩
  | standing =>
    by_cases hq : q = 1
    · subst hq
      have hv : pieceToValue PieceType.standing 1 = 3 := by
        unfold pieceToValue
        norm_num
      rw [hv]
      refine ⟨by decide, by decide, by decide⟩
    · have hv : pieceToValue PieceType.standing q = 4 := by
        unfold pieceToValue
        dsimp only
        rw [if_neg hq]
        norm_num
      rw [hv]
      refine ⟨by decide, by decide, by decide⟩

lemma pieceToValue_cap_counts (q : ℤ) :
    ((if isCapOf 1 (pieceToValue PieceType.capstone q) then 1 else 0) +
        (if isCapOf (-1) (pieceToValue PieceType.capstone q) then 1 else 0) =
      1) ∧
      isStoneOf 1 (pieceToValue PieceType.capstone q) = false ∧
      isStoneOf (-1) (pieceToValue PieceType.capstone q) = false := by
  by_cases hq : q = 1
  · subst hq
    have hv : pieceToValue PieceType.capstone 1 = 5 := by
      unfold pieceToValue
      norm_num
    rw [hv]
    refine ⟨by decide, by decide, by decide⟩
  · have hv : pieceToValue PieceType.capstone q = 6 := by
      unfold pieceToValue
      dsimp only
      rw [if_neg hq]
      norm_num
    rw [hv]
    refine ⟨by decide, by decide, by decide⟩

lemma standardFlats_pos (n : Nat) (hn : 0 < n) : 0 < standardFlats n := by
  unfold standardFlats
  split_ifs <;> first | omega | exact Nat.mul_pos hn hn

/-! Per-branch conservation of placements. -/

lemma countCells_bset_zero (n : Nat) (b : Board) (h0 r0 c0 : Nat) (v : ℚ)
    (p : ℚ → Bool) (hp0 : p 0 = false) (hzero : b h0 r0 c0 = 0)
    (hh : h0 < n) (hr : r0 < n) (hc : c0 < n) :
    countCells n (bset b h0 r0 c0 v) p =
      countCells n b p + (if p v then 1 else 0) := by
  have hcb := countCells_bset n b h0 r0 c0 v p hh hr hc
  rw [hzero, hp0] at hcb
  simpa using hcb

lemma standardFlats_cast_ne (n : Nat) (hn : 0 < n) :
    (standardFlats n : ℚ) ≠ 0 := by
  have h := standardFlats_pos n hn
  have h2 : standardFlats n ≠ 0 := by omega
  exact_mod_cast h2

lemma place_white_stone (n : Nat) (hn : 0 < n) (b res : Board)
    (row col : Nat) (hrow : row < n) (hcol : col < n)
    (hh : stackHeight n b row col < n)
    (t : PieceType) (ht : t ≠ PieceType.capstone) (q : ℤ)
    (hres : res = setLayer
      (bset b (stackHeight n b row col) row col (pieceToValue t q)) n
      ((bset b (stackHeight n b row col) row col (pieceToValue t q) n 0 0 *
          (standardFlats n : ℚ) - 1) / (standardFlats n : ℚ))) :
    stonesLedger n res = stonesLedger n b ∧
      capsLedger n res = capsLedger n b := by
  have hF : (standardFlats n : ℚ) ≠ 0 := standardFlats_cast_ne n hn
  set H := stackHeight n b row col with hH
  set v := pieceToValue t q with hv
  set b1 := bset b H row col v with hb1
  have hzero : b H row col = 0 := stackHeight_zero_at n b row col hh
  have hcount : ∀ p : ℚ → Bool, p 0 = false →
      countCells n b1 p = countCells n b p + (if p v then 1 else 0) :=
    fun p hp0 => countCells_bset_zero n b H row col v p hp0 hzero hh hrow hcol
  have hb1read : ∀ h rr cc, n ≤ h → b1 h rr cc = b h rr cc := by
    intro h rr cc hge
    rw [hb1, bset_apply, if_neg (fun hcon => absurd hcon.1 (by omega))]
  obtain ⟨hsum1, hcap1, hcap2⟩ := pieceToValue_stone_counts t q ht
  have hcntres : ∀ p, countCells n res p = countCells n b1 p := fun p => by
    rw [hres]
    exact countCells_setLayer_ge n b1 n _ p (le_refl n)
  have hresF1 : remainingFlats n res 1 = remainingFlats n b 1 - 1 := by
    unfold remainingFlats
    rw [if_pos rfl, if_pos rfl, hres, setLayer_apply, if_pos rfl,
      hb1read n 0 0 (le_refl n), div_mul_cancel₀ _ hF]
  have hresF2 : remainingFlats n res (-1) = remainingFlats n b (-1) := by
    unfold remainingFlats
    rw [if_neg (by norm_num), if_neg (by norm_num), hres, setLayer_apply,
      if_neg (by omega), hb1read (n + 2) 0 0 (by omega)]
  have hresC1 : remainingCaps n res 1 = remainingCaps n b 1 := by
    unfold remainingCaps
    rw [if_pos rfl, if_pos rfl, hres, setLayer_apply, if_neg (by omega),
      hb1read (n + 1) 0 0 (by omega)]
  have hresC2 : remainingCaps n res (-1) = remainingCaps n b (-1) := by
    unfold remainingCaps
    rw [if_neg (by norm_num), if_neg (by norm_num), hres, setLayer_apply,
      if_neg (by omega), hb1read (n + 3) 0 0 (by omega)]
  constructor
  · unfold stonesLedger
    rw [hcntres, hcntres, hcount _ (isStoneOf_zero 1),
      hcount _ (isStoneOf_zero (-1)), hresF1, hresF2]
    set i1 := (if isStoneOf 1 v then 1 else 0 : ℕ) with hi1
    set i2 := (if isStoneOf (-1) v then 1 else 0 : ℕ) with hi2
    have hq : (i1 : ℚ) + (i2 : ℚ) = 1 := by exact_mod_cast hsum1
    push_cast
    linarith
  · unfold capsLedger
    have hc1 : countCells n b1 (isCapOf 1) = countCells n b (isCapOf 1) := by
      rw [hcount _ (isCapOf_zero 1), hcap1]
      simp
    have hc2 : countCells n b1 (isCapOf (-1)) =
        countCells n b (isCapOf (-1)) := by
      rw [hcount _ (isCapOf_zero (-1)), hcap2]
      simp
    rw [hcntres, hcntres, hc1, hc2, hresC1, hresC2]

lemma place_black_stone (n : Nat) (hn : 0 < n) (b res : Board)
    (row col : Nat) (hrow : row < n) (hcol : col < n)
    (hh : stackHeight n b row col < n)
    (t : PieceType) (ht : t ≠ PieceType.capstone) (q : ℤ)
    (hres : res = setLayer
      (bset b (stackHeight n b row col) row col (pieceToValue t q)) (n + 2)
      ((bset b (stackHeight n b row col) row col (pieceToValue t q) (n + 2)
          0 0 * (standardFlats n : ℚ) - 1) / (standardFlats n : ℚ))) :
    stonesLedger n res = stonesLedger n b ∧
      capsLedger n res = capsLedger n b := by
  have hF : (standardFlats n : ℚ) ≠ 0 := standardFlats_cast_ne n hn
  set H := stackHeight n b row col with hH
  set v := pieceToValue t q with hv
  set b1 := bset b H row col v with hb1
  have hzero : b H row col = 0 := stackHeight_zero_at n b row col hh
  have hcount : ∀ p : ℚ → Bool, p 0 = false →
      countCells n b1 p = countCells n b p + (if p v then 1 else 0) :=
    fun p hp0 => countCells_bset_zero n b H row col v p hp0 hzero hh hrow hcol
  have hb1read : ∀ h rr cc, n ≤ h → b1 h rr cc = b h rr cc := by
    intro h rr cc hge
    rw [hb1, bset_apply, if_neg (fun hcon => absurd hcon.1 (by omega))]
  obtain ⟨hsum1, hcap1, hcap2⟩ := pieceToValue_stone_counts t q ht
  have hcntres : ∀ p, countCells n res p = countCells n b1 p := fun p => by
    rw [hres]
    exact countCells_setLayer_ge n b1 (n + 2) _ p (by omega)
  have hresF1 : remainingFlats n res 1 = remainingFlats n b 1 := by
    unfold remainingFlats
    rw [if_pos rfl, if_pos rfl, hres, setLayer_apply, if_neg (by omega),
      hb1read n 0 0 (le_refl n)]
  have hresF2 : remainingFlats n res (-1) = remainingFlats n b (-1) - 1 := by
    unfold remainingFlats
    rw [if_neg (by norm_num), if_neg (by norm_num), hres, setLayer_apply,
      if_pos rfl, hb1read (n + 2) 0 0 (by omega), div_mul_cancel₀ _ hF]
  have hresC1 : remainingCaps n res 1 = remainingCaps n b 1 := by
    unfold remainingCaps
    rw [if_pos rfl, if_pos rfl, hres, setLayer_apply, if_neg (by omega),
      hb1read (n + 1) 0 0 (by omega)]
  have hresC2 : remainingCaps n res (-1) = remainingCaps n b (-1) := by
    unfold remainingCaps
    rw [if_neg (by norm_num), if_neg (by norm_num), hres, setLayer_apply,
      if_neg (by omega), hb1read (n + 3) 0 0 (by omega)]
  constructor
  · unfold stonesLedger
    rw [hcntres, hcntres, hcount _ (isStoneOf_zero 1),
      hcount _ (isStoneOf_zero (-1)), hresF1, hresF2]
    set i1 := (if isStoneOf 1 v then 1 else 0 : ℕ) with hi1
    set i2 := (if isStoneOf (-1) v then 1 else 0 : ℕ) with hi2
    have hq : (i1 : ℚ) + (i2 : ℚ) = 1 := by exact_mod_cast hsum1
    push_cast
    linarith
  · unfold capsLedger
    have hc1 : countCells n b1 (isCapOf 1) = countCells n b (isCapOf 1) := by
      rw [hcount _ (isCapOf_zero 1), hcap1]
      simp
    have hc2 : countCells n b1 (isCapOf (-1)) =
        countCells n b (isCapOf (-1)) := by
      rw [hcount _ (isCapOf_zero (-1)), hcap2]
      simp
    rw [hcntres, hcntres, hc1, hc2, hresC1, hresC2]

lemma place_white_cap (n : Nat) (_hn : 0 < n) (b res : Board)
    (row col : Nat) (hrow : row < n) (hcol : col < n)
    (hh : stackHeight n b row col < n) (q : ℤ)
    (hres : res = addLayer
      (bset b (stackHeight n b row col) row col
        (pieceToValue PieceType.capstone q)) (n + 1) (-1)) :
    stonesLedger n res = stonesLedger n b ∧
      capsLedger n res = capsLedger n b := by
  set H := stackHeight n b row col with hH
  set v := pieceToValue PieceType.capstone q with hv
  set b1 := bset b H row col v with hb1
  have hzero : b H row col = 0 := stackHeight_zero_at n b row col hh
  have hcount : ∀ p : ℚ → Bool, p 0 = false →
      countCells n b1 p = countCells n b p + (if p v then 1 else 0) :=
    fun p hp0 => countCells_bset_zero n b H row col v p hp0 hzero hh hrow hcol
  have hb1read : ∀ h rr cc, n ≤ h → b1 h rr cc = b h rr cc := by
    intro h rr cc hge
    rw [hb1, bset_apply, if_neg (fun hcon => absurd hcon.1 (by omega))]
  obtain ⟨hsum1, hst1, hst2⟩ := pieceToValue_cap_counts q
  have hcntres : ∀ p, countCells n res p = countCells n b1 p := fun p => by
    rw [hres]
    exact countCells_addLayer_ge n b1 (n + 1) _ p (by omega)
  have hresF1 : remainingFlats n res 1 = remainingFlats n b 1 := by
    unfold remainingFlats
    rw [if_pos rfl, if_pos rfl, hres, addLayer_apply, if_neg (by omega),
      hb1read n 0 0 (le_refl n)]
  have hresF2 : remainingFlats n res (-1) = remainingFlats n b (-1) := by
    unfold remainingFlats
    rw [if_neg (by norm_num), if_neg (by norm_num), hres, addLayer_apply,
      if_neg (by omega), hb1read (n + 2) 0 0 (by omega)]
  have hresC1 : remainingCaps n res 1 = remainingCaps n b 1 - 1 := by
    unfold remainingCaps
    rw [if_pos rfl, if_pos rfl, hres, addLayer_apply, if_pos rfl,
      hb1read (n + 1) 0 0 (by omega)]
    ring
  have hresC2 : remainingCaps n res (-1) = remainingCaps n b (-1) := by
    unfold remainingCaps
    rw [if_neg (by norm_num), if_neg (by norm_num), hres, addLayer_apply,
      if_neg (by omega), hb1read (n + 3) 0 0 (by omega)]
  constructor
  · unfold stonesLedger
    have hc1 : countCells n b1 (isStoneOf 1) =
        countCells n b (isStoneOf 1) := by
      rw [hcount _ (isStoneOf_zero 1), hst1]
      simp
    have hc2 : countCells n b1 (isStoneOf (-1)) =
        countCells n b (isStoneOf (-1)) := by
      rw [hcount _ (isStoneOf_zero (-1)), hst2]
      simp
    rw [hcntres, hcntres, hc1, hc2, hresF1, hresF2]
  · unfold capsLedger
    rw [hcntres, hcntres, hcount _ (isCapOf_zero 1),
      hcount _ (isCapOf_zero (-1)), hresC1, hresC2]
    set i1 := (if isCapOf 1 v then 1 else 0 : ℕ) with hi1
    set i2 := (if isCapOf (-1) v then 1 else 0 : ℕ) with hi2
    have hq : (i1 : ℚ) + (i2 : ℚ) = 1 := by exact_mod_cast hsum1
    push_cast
    linarith

lemma place_black_cap (n : Nat) (_hn : 0 < n) (b res : Board)
    (row col : Nat) (hrow : row < n) (hcol : col < n)
    (hh : stackHeight n b row col < n) (q : ℤ)
    (hres : res = addLayer
      (bset b (stackHeight n b row col) row col
        (pieceToValue PieceType.capstone q)) (n + 3) (-1)) :
    stonesLedger n res = stonesLedger n b ∧
      capsLedger n res = capsLedger n b := by
  set H := stackHeight n b row col with hH
  set v := pieceToValue PieceType.capstone q with hv
  set b1 := bset b H row col v with hb1
  have hzero : b H row col = 0 := stackHeight_zero_at n b row col hh
  have hcount : ∀ p : ℚ → Bool, p 0 = false →
      countCells n b1 p = countCells n b p + (if p v then 1 else 0) :=
    fun p hp0 => countCells_bset_zero n b H row col v p hp0 hzero hh hrow hcol
  have hb1read : ∀ h rr cc, n ≤ h → b1 h rr cc = b h rr cc := by
    intro h rr cc hge
    rw [hb1, bset_apply, if_neg (fun hcon => absurd hcon.1 (by omega))]
  obtain ⟨hsum1, hst1, hst2⟩ := pieceToValue_cap_counts q
  have hcntres : ∀ p, countCells n res p = countCells n b1 p := fun p => by
    rw [hres]
    exact countCells_addLayer_ge n b1 (n + 3) _ p (by omega)
  have hresF1 : remainingFlats n res 1 = remainingFlats n b 1 := by
    unfold remainingFlats
    rw [if_pos rfl, if_pos rfl, hres, addLayer_apply, if_neg (by omega),
      hb1read n 0 0 (le_refl n)]
  have hresF2 : remainingFlats n res (-1) = remainingFlats n b (-1) := by
    unfold remainingFlats
    rw [if_neg (by norm_num), if_neg (by norm_num), hres, addLayer_apply,
      if_neg (by omega), hb1read (n + 2) 0 0 (by omega)]
  have hresC1 : remainingCaps n res 1 = remainingCaps n b 1 := by
    unfold remainingCaps
    rw [if_pos rfl, if_pos rfl, hres, addLayer_apply, if_neg (by omega),
      hb1read (n + 1) 0 0 (by omega)]
  have hresC2 : remainingCaps n res (-1) = remainingCaps n b (-1) - 1 := by
    unfold remainingCaps
    rw [if_neg (by norm_num), if_neg (by norm_num), hres, addLayer_apply,
      if_pos rfl, hb1read (n + 3) 0 0 (by omega)]
    ring
  constructor
  · unfold stonesLedger
    have hc1 : countCells n b1 (isStoneOf 1) =
        countCells n b (isStoneOf 1) := by
      rw [hcount _ (isStoneOf_zero 1), hst1]
      simp
    have hc2 : countCells n b1 (isStoneOf (-1)) =
        countCells n b (isStoneOf (-1)) := by
      rw [hcount _ (isStoneOf_zero (-1)), hst2]
      simp
    rw [hcntres, hcntres, hc1, hc2, hresF1, hresF2]
  · unfold capsLedger
    rw [hcntres, hcntres, hcount _ (isCapOf_zero 1),
      hcount _ (isCapOf_zero (-1)), hresC1, hresC2]
    set i1 := (if isCapOf 1 v then 1 else 0 : ℕ) with hi1
    set i2 := (if isCapOf (-1) v then 1 else 0 : ℕ) with hi2
    have hq : (i1 : ℚ) + (i2 : ℚ) = 1 := by exact_mod_cast hsum1
    push_cast
    linarith

lemma applyPlacement_conserve (n : Nat) (hn : 0 < n) (b : Board)
    (player : ℤ) (ptIdx pos : Nat) (hpos : pos < n * n) :
    stonesLedger n (applyPlacement n b player ptIdx pos).1 =
        stonesLedger n b ∧
      capsLedger n (applyPlacement n b player ptIdx pos).1 =
        capsLedger n b := by
  have hrow : pos / n < n := by
    rw [Nat.div_lt_iff_lt_mul (by omega)]
    exact hpos
  have hcol : pos % n < n := Nat.mod_lt _ (by omega)
  unfold applyPlacement
  dsimp only
  by_cases hh : stackHeight n b (pos / n) (pos % n) < n
  swap
  · rw [if_neg hh]
    exact ⟨rfl, rfl⟩
  rw [if_pos hh]
  set t := (if countOccupied n b < 2 then PieceType.flat
    else if ptIdx = 0 then PieceType.flat
    else if ptIdx = 1 then PieceType.standing
    else PieceType.capstone) with hpt
  set q := (if countOccupied n b < 2 then -player else player) with hqe
  by_cases hpl : player = 1
  · rw [if_pos hpl]
    by_cases hcap : t = PieceType.capstone
    · rw [if_pos hcap, hcap]
      dsimp only
      exact place_white_cap n hn b _ (pos / n) (pos % n) hrow hcol hh q rfl
    · rw [if_neg hcap]
      dsimp only
      exact place_white_stone n hn b _ (pos / n) (pos % n) hrow hcol hh t hcap
        q rfl
  · rw [if_neg hpl]
    by_cases hcap : t = PieceType.capstone
    · rw [if_pos hcap, hcap]
      dsimp only
      exact place_black_cap n hn b _ (pos / n) (pos % n) hrow hcol hh q rfl
    · rw [if_neg hcap]
      dsimp only
      exact place_black_stone n hn b _ (pos / n) (pos % n) hrow hcol hh t hcap
        q rfl

/-! Exact accounting of the drop loop under the no-overfull side
condition. -/

lemma drop_take_succ (d : ℚ) :
    ∀ (l : List ℚ) (ci k : Nat), ci < l.length →
      (l.drop ci).take (k + 1) = l.getD ci d :: (l.drop (ci + 1)).take k := by
  intro l
  induction l with
  | nil =>
    intro ci k h
    simp at h
  | cons a tl ih =>
    intro ci k h
    cases ci with
    | zero =>
      simp [List.getD_cons_zero]
    | succ m =>
      have hm : m < tl.length := by
        simp only [List.length_cons] at h
        omega
      have hih := ih m k hm
      simpa using hih

lemma stackHeight_bset_succ (n : Nat) (b : Board) (r c : Nat) (v : ℚ)
    (hc : Contig n b) (hr : r < n) (hcc : c < n) (hv : v ≠ 0)
    (hh : stackHeight n b r c < n) :
    stackHeight n (bset b (stackHeight n b r c) r c v) r c =
      stackHeight n b r c + 1 := by
  set H := stackHeight n b r c with hH
  apply stackHeight_eq_of
  · omega
  · intro k hk
    rw [bset_apply]
    by_cases hkH : k = H
    · rw [if_pos ⟨hkH, rfl, rfl⟩]
      exact hv
    · rw [if_neg (fun hcon => hkH hcon.1)]
      exact stackHeight_lower n b r c k (by omega)
  · intro hlt
    rw [bset_apply, if_neg (fun hcon => absurd hcon.1 (by omega))]
    exact hc r c H (H + 1) hr hcc (by omega) hlt
      (stackHeight_zero_at n b r c hh)

lemma stackHeight_bset_keep (n : Nat) (b : Board) (h0 r c : Nat) (v : ℚ)
    (hv : v ≠ 0) (hold : b h0 r c ≠ 0) :
    stackHeight n (bset b h0 r c v) r c = stackHeight n b r c := by
  apply stackHeight_eq_of
  · exact stackHeight_le n b r c
  · intro k hk
    rw [bset_apply]
    by_cases hkH : k = h0
    · rw [if_pos ⟨hkH, rfl, rfl⟩]
      exact hv
    · rw [if_neg (fun hcon => hkH hcon.1)]
      exact stackHeight_lower n b r c k hk
  · intro hlt
    have hne : stackHeight n b r c ≠ h0 := by
      intro he
      exact hold (he ▸ stackHeight_zero_at n b r c hlt)
    rw [bset_apply, if_neg (fun hcon => hne hcon.1)]
    exact stackHeight_zero_at n b r c hlt

lemma dropPieces_account (n : Nat) (carried : List ℚ)
    (hvals : ∀ j, j < carried.length → carried.getD j 0 ≠ 0) :
    ∀ (k : Nat) (b : Board) (r c ci : Nat), r < n → c < n → Contig n b →
      stackHeight n b r c + k ≤ n → ci + k ≤ carried.length →
      (dropPieces n carried k b r c ci).2 = ci + k ∧
      Contig n (dropPieces n carried k b r c ci).1 ∧
      stackHeight n (dropPieces n carried k b r c ci).1 r c =
        stackHeight n b r c + k ∧
      (∀ h, n ≤ h → (dropPieces n carried k b r c ci).1 h r c = b h r c) ∧
      (∀ p : ℚ → Bool, p 0 = false →
        countCells n (dropPieces n carried k b r c ci).1 p =
          countCells n b p + ((carried.drop ci).take k).countP p) := by
  intro k
  induction k with
  | zero =>
    intro b r c ci hr hc hcont hsp hci
    simp only [dropPieces]
    exact ⟨rfl, hcont, by omega, fun h _ => by trivial, fun p hp0 => by simp⟩
  | succ k ih =>
    intro b r c ci hr hc hcont hsp hci
    have hcilt : ci < carried.length := by omega
    have hdh : stackHeight n b r c < n := by omega
    simp only [dropPieces]
    rw [if_pos hcilt, if_pos hdh]
    set v := carried.getD ci 0 with hv
    set H := stackHeight n b r c with hH
    set b2 := bset b H r c v with hb2
    have hvne : v ≠ 0 := hvals ci hcilt
    have hcont2 : Contig n b2 := contig_bset_at_height n b r c v hcont hvne hdh
    have hsh2 : stackHeight n b2 r c = H + 1 :=
      stackHeight_bset_succ n b r c v hcont hr hc hvne hdh
    obtain ⟨e1, e2, e3, e4, e5⟩ := ih b2 r c (ci + 1) hr hc hcont2
      (by rw [hsh2]; omega) (by omega)
    refine ⟨by rw [e1]; omega, e2, ?_, ?_, ?_⟩
    · rw [e3, hsh2]
      omega
    · intro h hnh
      rw [e4 h hnh, hb2, bset_apply,
        if_neg (fun hcon => absurd hcon.1 (by omega))]
    · intro p hp0
      rw [e5 p hp0]
      have hcb : countCells n b2 p =
          countCells n b p + (if p v then 1 else 0) :=
        countCells_bset_zero n b H r c v p hp0
          (stackHeight_zero_at n b r c hdh) hdh hr hc
      rw [hcb, drop_take_succ 0 carried ci k hcilt, List.countP_cons, ← hv]
      omega

lemma moveLoop_account (n : Nat) (orig : Board) (carried : List ℚ)
    (lastCnt : Nat) (d1 d2 : ℤ)
    (hdir : (d1 = 0 ∧ (d2 = 1 ∨ d2 = -1)) ∨ (d2 = 0 ∧ (d1 = 1 ∨ d1 = -1)))
    (hvals : ∀ j, j < carried.length → carried.getD j 0 ≠ 0) :
    ∀ (pattern : List Nat) (b : Board) (r c : ℤ) (ci : Nat),
      Contig n b →
      ci + pattern.sum ≤ carried.length →
      (∀ j, j < pattern.length → inGrid n (squareZ r c (d1, d2) j) →
        stackHeight n b (squareZ r c (d1, d2) j).1.toNat
            (squareZ r c (d1, d2) j).2.toNat + pattern.getD j 0 ≤ n) →
      moveLoop n orig carried lastCnt d1 d2 pattern b r c ci = orig ∨
      ((∀ p : ℚ → Bool, p 0 = false →
          (∀ tp v, valueToPiece v = some (tp, PieceType.standing) →
            p (pieceToValue PieceType.flat tp) = p v) →
          countCells n
              (moveLoop n orig carried lastCnt d1 d2 pattern b r c ci) p =
            countCells n b p +
              ((carried.drop ci).take pattern.sum).countP p) ∧
        (∀ h r' c', n ≤ h →
          moveLoop n orig carried lastCnt d1 d2 pattern b r c ci h r' c' =
            b h r' c')) := by
  intro pattern
  induction pattern with
  | nil =>
    intro b r c ci hcont hsum hspace
    right
    simp only [moveLoop]
    exact ⟨fun p hp0 _ => by simp, fun h r' c' _ => by trivial⟩
  | cons cnt rest ih =>
    intro b r c ci hcont hsum hspace
    simp only [moveLoop]
    by_cases hoob : r + d1 < 0 ∨ (n : ℤ) ≤ r + d1 ∨ c + d2 < 0 ∨
        (n : ℤ) ≤ c + d2
    · rw [if_pos hoob]
      left
      rfl
    rw [if_neg hoob]
    push_neg at hoob
    obtain ⟨g1, g2, g3, g4⟩ := hoob
    have hsq : squareZ r c (d1, d2) 0 = (r + d1, c + d2) := by
      unfold squareZ
      simp only [Prod.mk.injEq]
      constructor <;> push_cast <;> ring
    have hgrid0 : inGrid n (squareZ r c (d1, d2) 0) := by
      rw [hsq]
      exact ⟨g1, g2, g3, g4⟩
    set rn := (r + d1).toNat with hrn'
    set cn := (c + d2).toNat with hcn'
    have hrn : rn < n := by omega
    have hcn : cn < n := by omega
    have hsp0 : stackHeight n b rn cn + cnt ≤ n := by
      have hs := hspace 0 (by simp) hgrid0
      rw [hsq] at hs
      simpa using hs
    have hcnt0 : ci + cnt ≤ carried.length := by
      simp only [List.sum_cons] at hsum
      omega
    -- stability of the hypotheses for the recursive call, for any board
    -- agreeing with b away from the current drop square
    have hnextspace : ∀ (b' : Board),
        (∀ h r' c', (r' ≠ rn ∨ c' ≠ cn) → b' h r' c' = b h r' c') →
        ∀ j, j < rest.length →
          inGrid n (squareZ (r + d1) (c + d2) (d1, d2) j) →
          stackHeight n b' (squareZ (r + d1) (c + d2) (d1, d2) j).1.toNat
              (squareZ (r + d1) (c + d2) (d1, d2) j).2.toNat +
            rest.getD j 0 ≤ n := by
      intro b' hb' j hj hg
      rw [← squareZ_shift'] at hg ⊢
      have hne := squareZ_toNat_ne n r c d1 d2 hdir (j + 1) 0 (by omega)
        hg hgrid0
      rw [hsq] at hne
      simp only at hne
      have hsh : stackHeight n b' (squareZ r c (d1, d2) (j + 1)).1.toNat
          (squareZ r c (d1, d2) (j + 1)).2.toNat =
          stackHeight n b (squareZ r c (d1, d2) (j + 1)).1.toNat
            (squareZ r c (d1, d2) (j + 1)).2.toNat :=
        stackHeight_congr n b b' _ _ fun k _ => hb' k _ _ hne
      rw [hsh]
      have hs := hspace (j + 1) (by simp only [List.length_cons]; omega) hg
      simpa using hs
    rcases hti : (if 0 < stackHeight n b rn cn then
        valueToPiece (b (stackHeight n b rn cn - 1) rn cn)
      else none) with _ | ⟨tp, t⟩
    · -- empty target square: plain drop and recurse
      dsimp only
      obtain ⟨s1, s2, s3, s4, s5⟩ := dropPieces_account n carried hvals cnt
        b rn cn ci hrn hcn hcont hsp0 hcnt0
      have hres := ih (dropPieces n carried cnt b rn cn ci).1 (r + d1)
        (c + d2) (dropPieces n carried cnt b rn cn ci).2 s2
        (by rw [s1]; simp only [List.sum_cons] at hsum; omega)
        (hnextspace _ fun h r' c' hne =>
          dropPieces_fst_other n carried cnt b rn cn ci h r' c' hne)
      rcases hres with hl | ⟨hcnt', hhigh'⟩
      · left
        exact hl
      · right
        constructor
        · intro p hp0 hflat
          rw [hcnt' p hp0 hflat, s5 p hp0, s1]
          have hsplit : (carried.drop ci).take (cnt + rest.sum) =
              (carried.drop ci).take cnt ++
                (carried.drop (ci + cnt)).take rest.sum := by
            rw [List.take_add]
            have hdd : (carried.drop ci).drop cnt = carried.drop (ci + cnt) := by
              rw [List.drop_drop]
            rw [hdd]
          rw [List.sum_cons, hsplit, List.countP_append]
          omega
        · intro h r' c' hnh
          rw [hhigh' h r' c' hnh]
          by_cases hrc : r' = rn ∧ c' = cn
          · obtain ⟨rfl, rfl⟩ := hrc
            exact s4 h hnh
          · exact dropPieces_fst_other n carried cnt b rn cn ci h r' c'
              (by tauto)
    · cases t with
      | capstone =>
        left
        rfl
      | flat =>
        dsimp only
        obtain ⟨s1, s2, s3, s4, s5⟩ := dropPieces_account n carried hvals cnt
          b rn cn ci hrn hcn hcont hsp0 hcnt0
        have hres := ih (dropPieces n carried cnt b rn cn ci).1 (r + d1)
          (c + d2) (dropPieces n carried cnt b rn cn ci).2 s2
          (by rw [s1]; simp only [List.sum_cons] at hsum; omega)
          (hnextspace _ fun h r' c' hne =>
            dropPieces_fst_other n carried cnt b rn cn ci h r' c' hne)
        rcases hres with hl | ⟨hcnt', hhigh'⟩
        · left
          exact hl
        · right
          constructor
          · intro p hp0 hflat
            rw [hcnt' p hp0 hflat, s5 p hp0, s1]
            have hsplit : (carried.drop ci).take (cnt + rest.sum) =
                (carried.drop ci).take cnt ++
                  (carried.drop (ci + cnt)).take rest.sum := by
              rw [List.take_add]
              have hdd : (carried.drop ci).drop cnt =
                  carried.drop (ci + cnt) := by
                rw [List.drop_drop]
              rw [hdd]
            rw [List.sum_cons, hsplit, List.countP_append]
            omega
          · intro h r' c' hnh
            rw [hhigh' h r' c' hnh]
            by_cases hrc : r' = rn ∧ c' = cn
            · obtain ⟨rfl, rfl⟩ := hrc
              exact s4 h hnh
            · exact dropPieces_fst_other n carried cnt b rn cn ci h r' c'
                (by tauto)
      | standing =>
        dsimp only
        by_cases hcond : cnt = lastCnt ∧ ci + cnt = carried.length
        swap
        · rw [if_neg hcond]
          left
          rfl
        rw [if_pos hcond]
        rcases hcap : valueToPiece (carried.getD (ci + cnt - 1) 0)
          with _ | ⟨cp, ct⟩
        · left
          rfl
        cases ct with
        | flat =>
          left
          rfl
        | standing =>
          left
          rfl
        | capstone =>
          dsimp only
          have h0lt : 0 < stackHeight n b rn cn := by
            by_contra h0
            rw [if_neg h0] at hti
            exact absurd hti (by simp)
          have hvp : valueToPiece (b (stackHeight n b rn cn - 1) rn cn) =
              some (tp, PieceType.standing) := by
            rw [if_pos h0lt] at hti
            exact hti
          set th := stackHeight n b rn cn with hth
          have hthle : th ≤ n := stackHeight_le n b rn cn
          have hold : b (th - 1) rn cn ≠ 0 := by
            intro hz
            rw [hz, valueToPiece_zero] at hvp
            exact absurd hvp (by simp)
          set fv := pieceToValue PieceType.flat tp with hfv
          set b1 := bset b (th - 1) rn cn fv with hb1
          have hcont1 : Contig n b1 :=
            contig_bset_nonzero n b (th - 1) rn cn fv hcont
              (pieceToValue_ne_zero _ _) hold
          have hsh1 : stackHeight n b1 rn cn = th :=
            stackHeight_bset_keep n b (th - 1) rn cn fv
              (pieceToValue_ne_zero _ _) hold
          have hb1other : ∀ h r' c', (r' ≠ rn ∨ c' ≠ cn) →
              b1 h r' c' = b h r' c' := by
            intro h r' c' hne
            rw [hb1, bset_apply, if_neg (fun hcon => by tauto)]
          have hb1high : ∀ h r' c', n ≤ h → b1 h r' c' = b h r' c' := by
            intro h r' c' hnh
            rw [hb1, bset_apply,
              if_neg (fun hcon => absurd hcon.1 (by omega))]
          have hcount1 : ∀ p : ℚ → Bool, p 0 = false →
              (∀ tp' v', valueToPiece v' = some (tp', PieceType.standing) →
                p (pieceToValue PieceType.flat tp') = p v') →
              countCells n b1 p = countCells n b p := by
            intro p hp0 hflat
            have hcb := countCells_bset n b (th - 1) rn cn fv p
              (by omega) hrn hcn
            have hpfv : p fv = p (b (th - 1) rn cn) := by
              rw [hfv]
              exact hflat tp _ hvp
            rw [hpfv] at hcb
            rw [hb1]
            omega
          obtain ⟨s1, s2, s3, s4, s5⟩ := dropPieces_account n carried hvals
            cnt b1 rn cn ci hrn hcn hcont1 (by rw [hsh1]; omega) hcnt0
          have hres := ih (dropPieces n carried cnt b1 rn cn ci).1 (r + d1)
            (c + d2) (dropPieces n carried cnt b1 rn cn ci).2 s2
            (by rw [s1]; simp only [List.sum_cons] at hsum; omega)
            (hnextspace _ (fun h r' c' hne => by
              rw [dropPieces_fst_other n carried cnt b1 rn cn ci h r' c' hne,
                hb1other h r' c' hne]))
          rcases hres with hl | ⟨hcnt', hhigh'⟩
          · left
            exact hl
          · right
            constructor
            · intro p hp0 hflat
              rw [hcnt' p hp0 hflat, s5 p hp0, s1, hcount1 p hp0 hflat]
              have hsplit : (carried.drop ci).take (cnt + rest.sum) =
                  (carried.drop ci).take cnt ++
                    (carried.drop (ci + cnt)).take rest.sum := by
                rw [List.take_add]
                have hdd : (carried.drop ci).drop cnt =
                    carried.drop (ci + cnt) := by
                  rw [List.drop_drop]
                rw [hdd]
              rw [List.sum_cons, hsplit, List.countP_append]
              omega
            · intro h r' c' hnh
              rw [hhigh' h r' c' hnh]
              by_cases hrc : r' = rn ∧ c' = cn
              · obtain ⟨rfl, rfl⟩ := hrc
                rw [s4 h hnh]
                exact hb1high h rn cn hnh
              · rw [dropPieces_fst_other n carried cnt b1 rn cn ci h r' c'
                  (by tauto)]
                exact hb1other h r' c' (by tauto)

lemma countP_range_window (n : Nat) (g : Nat → Bool) (lo : Nat) :
    ∀ m : Nat, lo + m ≤ n →
      (List.range n).countP
          (fun h => if lo ≤ h ∧ h < lo + m then false else g h) +
        ((List.range m).map fun i => g (lo + i)).countP (fun x => x) =
      (List.range n).countP g := by
  intro m
  induction m with
  | zero =>
    intro _
    have hcg : (List.range n).countP
        (fun h => if lo ≤ h ∧ h < lo + 0 then false else g h) =
        (List.range n).countP g := by
      apply List.countP_congr
      intro a _
      rw [if_neg (by omega)]
    rw [hcg]
    simp
  | succ m ih =>
    intro hm
    have hih := ih (by omega)
    have hkey := sum_range_except n (lo + m)
      (fun j => if (if lo ≤ j ∧ j < lo + (m + 1) then false else g j) then
        (1 : Nat) else 0)
      (fun j => if (if lo ≤ j ∧ j < lo + m then false else g j) then
        (1 : Nat) else 0)
      (by omega)
      (by
        intro j hj hne
        dsimp only
        by_cases hw : lo ≤ j ∧ j < lo + m
        · rw [if_pos (by omega : lo ≤ j ∧ j < lo + (m + 1)), if_pos hw]
        · rw [if_neg (by omega : ¬ (lo ≤ j ∧ j < lo + (m + 1))),
            if_neg hw])
    simp only at hkey
    rw [if_pos (by omega : lo ≤ lo + m ∧ lo + m < lo + (m + 1))] at hkey
    rw [if_neg (by omega : ¬ (lo ≤ lo + m ∧ lo + m < lo + m))] at hkey
    have he1 := countP_range_eq_sum n
      (fun h => if lo ≤ h ∧ h < lo + (m + 1) then false else g h)
    have he2 := countP_range_eq_sum n
      (fun h => if lo ≤ h ∧ h < lo + m then false else g h)
    have hwin : ((List.range (m + 1)).map fun i => g (lo + i)).countP
        (fun x => x) =
        ((List.range m).map fun i => g (lo + i)).countP (fun x => x) +
          (if g (lo + m) then 1 else 0) := by
      rw [List.range_succ, List.map_append, List.countP_append]
      simp [List.countP_cons]
    rw [← he1, ← he2] at hkey
    have hd : (if false = true then (1 : Nat) else 0) = 0 := rfl
    rw [hd] at hkey
    rw [hwin]
    omega

lemma pickupClear_account (n : Nat) (b : Board) (sr sc pickup : Nat)
    (hsr : sr < n) (hsc : sc < n)
    (hpk : pickup ≤ stackHeight n b sr sc)
    (p : ℚ → Bool) (hp0 : p 0 = false) :
    countCells n (pickupClear n b sr sc (stackHeight n b sr sc) pickup) p +
      (pickupList n b sr sc (stackHeight n b sr sc) pickup).countP p =
    countCells n b p := by
  set H := stackHeight n b sr sc with hH
  have hle : H ≤ n := stackHeight_le n b sr sc
  set bc := pickupClear n b sr sc H pickup with hbc
  have hoth : ∀ h r c, (r ≠ sr ∨ c ≠ sc) → bc h r c = b h r c := by
    intro h r c hne
    rw [hbc, pickupClear_apply n b sr sc H pickup hpk hle,
      if_neg (by tauto)]
  have hcd := countCells_col_diff n b bc sr sc p hsr hsc hoth
  have hcongr : (List.range n).countP (fun h => p (bc h sr sc)) =
      (List.range n).countP
        (fun h => if H - pickup ≤ h ∧ h < H - pickup + pickup then false
          else p (b h sr sc)) := by
    apply List.countP_congr
    intro a _
    rw [hbc, pickupClear_apply n b sr sc H pickup hpk hle]
    by_cases hcase : H - pickup ≤ a ∧ a < H - pickup + pickup
    · rw [if_pos ⟨rfl, rfl, hcase.1, by omega⟩, if_pos hcase, hp0]
    · rw [if_neg (fun hcon => hcase ⟨hcon.2.2.1, by omega⟩), if_neg hcase]
  have hw := countP_range_window n (fun h => p (b h sr sc)) (H - pickup)
    pickup (by omega)
  have hpl : (pickupList n b sr sc H pickup).countP p =
      ((List.range pickup).map fun i => p (b (H - pickup + i) sr sc)).countP
        (fun x => x) := by
    rw [pickupList_eq_map n b sr sc H pickup hpk hle, List.countP_map,
      List.countP_map]
    rfl
  have hcol : colCount p n bc sr sc +
      (pickupList n b sr sc H pickup).countP p = colCount p n b sr sc := by
    unfold colCount
    rw [hcongr, hpl]
    have hmap : ((List.range pickup).map
        fun i => p (b (H - pickup + i) sr sc)) =
        ((List.range pickup).map
          fun i => (fun h => p (b h sr sc)) (H - pickup + i)) := rfl
    rw [hmap]
    exact hw
  omega

lemma applyMovement_conserve (n : Nat) (b : Board) (player : ℤ)
    (patIdx dir pos : Nat) (hposlt : pos < n * n) (hcont : Contig n b)
    (hnl : NoDropLossM n b patIdx dir pos) :
    (∀ p : ℚ → Bool, p 0 = false →
        (∀ tp v, valueToPiece v = some (tp, PieceType.standing) →
          p (pieceToValue PieceType.flat tp) = p v) →
        countCells n (applyMovement n b player patIdx dir pos).1 p =
          countCells n b p) ∧
    (∀ h r c, n ≤ h →
      (applyMovement n b player patIdx dir pos).1 h r c = b h r c) := by
  have hn0 : 0 < n := by
    by_contra hcon
    have h0 : n = 0 := by omega
    subst h0
    exact absurd hposlt (by simp)
  have hsr : pos / n < n := by
    rw [Nat.div_lt_iff_lt_mul hn0]
    exact hposlt
  have hsc : pos % n < n := Nat.mod_lt _ hn0
  unfold applyMovement
  dsimp only
  by_cases hpat : (movementPatterns n).length ≤ patIdx
  · rw [if_pos hpat]
    exact ⟨fun p _ _ => rfl, fun h r c _ => rfl⟩
  rw [if_neg hpat]
  obtain ⟨hpk1, hpkn, hpsum, hppos, hplen⟩ :=
    movementPatterns_mem n _
      (movementPatterns_getD_mem n patIdx (by omega))
  set pk := (movementPatterns n).getD patIdx (0, []) with hpk
  set sr := pos / n with hsr'
  set sc := pos % n with hsc'
  set h0 := stackHeight n b sr sc with hh0
  by_cases h2 : h0 < pk.1
  · rw [if_pos h2]
    exact ⟨fun p _ _ => rfl, fun h r c _ => rfl⟩
  rw [if_neg h2]
  by_cases h4 : 0 < h0 ∧ topOwned b h0 sr sc player = false
  · rw [if_pos h4]
    exact ⟨fun p _ _ => rfl, fun h r c _ => rfl⟩
  rw [if_neg h4]
  have hle : h0 ≤ n := stackHeight_le n b sr sc
  have hlen : (pickupList n b sr sc h0 pk.1).length = pk.1 :=
    pickupList_length n b sr sc h0 pk.1 (by omega) hle
  have hvals := pickupList_vals_ne_zero n b sr sc pk.1 (by omega)
  have hb1 : ∀ h r c, (r ≠ sr ∨ c ≠ sc) →
      pickupClear n b sr sc h0 pk.1 h r c = b h r c := by
    intro h r c hne
    rw [pickupClear_apply n b sr sc h0 pk.1 (by omega) hle,
      if_neg (by tauto)]
  have hb1high : ∀ h r c, n ≤ h →
      pickupClear n b sr sc h0 pk.1 h r c = b h r c := by
    intro h r c hnh
    rw [pickupClear_apply n b sr sc h0 pk.1 (by omega) hle,
      if_neg (fun hcon => by omega)]
  have hdirc := dirVec_cases dir
  have hdir' : ((dirVec dir).1 = 0 ∧ ((dirVec dir).2 = 1 ∨
      (dirVec dir).2 = -1)) ∨ ((dirVec dir).2 = 0 ∧ ((dirVec dir).1 = 1 ∨
      (dirVec dir).1 = -1)) := by
    rcases hdirc with ⟨e1, e2⟩ | ⟨e1, e2⟩
    · right
      exact ⟨e1, e2⟩
    · left
      exact ⟨e1, e2⟩
  have hdpair : dirVec dir = ((dirVec dir).1, (dirVec dir).2) := rfl
  have hspace : ∀ j, j < pk.2.length →
      inGrid n (squareZ (sr : ℤ) (sc : ℤ)
        ((dirVec dir).1, (dirVec dir).2) j) →
      stackHeight n (pickupClear n b sr sc h0 pk.1)
          (squareZ (sr : ℤ) (sc : ℤ)
            ((dirVec dir).1, (dirVec dir).2) j).1.toNat
          (squareZ (sr : ℤ) (sc : ℤ)
            ((dirVec dir).1, (dirVec dir).2) j).2.toNat +
        pk.2.getD j 0 ≤ n := by
    intro j hj hg
    rw [← hdpair] at hg ⊢
    have hne := squareZ_toNat_ne_start n sr sc (dirVec dir).1 (dirVec dir).2
      hdirc hsr hsc j (by rw [hdpair] at hg; exact hg)
    rw [hdpair] at hne
    have hsh : stackHeight n (pickupClear n b sr sc h0 pk.1)
        (squareZ (sr : ℤ) (sc : ℤ) (dirVec dir) j).1.toNat
        (squareZ (sr : ℤ) (sc : ℤ) (dirVec dir) j).2.toNat =
        stackHeight n b
          (squareZ (sr : ℤ) (sc : ℤ) (dirVec dir) j).1.toNat
          (squareZ (sr : ℤ) (sc : ℤ) (dirVec dir) j).2.toNat := by
      apply stackHeight_congr
      intro k _
      exact hb1 k _ _ (by rw [hdpair]; exact hne)
    rw [hsh]
    exact hnl j hj hg
  have hacc := moveLoop_account n b (pickupList n b sr sc h0 pk.1)
    (pk.2.getLastD 0) (dirVec dir).1 (dirVec dir).2 hdir' hvals pk.2
    (pickupClear n b sr sc h0 pk.1) (sr : ℤ) (sc : ℤ) 0
    (contig_pickupClear n b sr sc pk.1 hcont (by omega))
    (by rw [hlen]; omega)
    hspace
  rcases hacc with hl | ⟨hcnt, hhigh⟩
  · rw [hl]
    exact ⟨fun p _ _ => rfl, fun h r c _ => rfl⟩
  · constructor
    · intro p hp0 hflat
      dsimp only
      rw [hcnt p hp0 hflat]
      have htake : ((pickupList n b sr sc h0 pk.1).drop 0).take pk.2.sum =
          pickupList n b sr sc h0 pk.1 := by
        rw [List.drop_zero]
        exact List.take_of_length_le (by rw [hlen, hpsum])
      rw [htake]
      have hpca := pickupClear_account n b sr sc pk.1 hsr hsc (by omega)
        p hp0
      rw [← hh0] at hpca
      omega
    · intro h r c hnh
      dsimp only
      rw [hhigh h r c hnh]
      exact hb1high h r c hnh

lemma countCells_initBoard (n : Nat) (p : ℚ → Bool) (hp0 : p 0 = false) :
    countCells n (initBoard n) p = 0 := by
  unfold countCells
  apply List.sum_eq_zero
  intro x hx
  rcases List.mem_map.mp hx with ⟨r, hr, rfl⟩
  apply List.sum_eq_zero
  intro y hy
  rcases List.mem_map.mp hy with ⟨c, hc, rfl⟩
  unfold colCount
  rw [List.countP_eq_zero]
  intro a ha
  have han : a < n := List.mem_range.mp ha
  have hz : initBoard n a r c = 0 := by
    unfold initBoard
    rw [if_pos han]
  rw [hz, hp0]
  simp

lemma stonesLedger_init (n : Nat) (hn : 0 < n) :
    stonesLedger n (initBoard n) = 2 * (standardFlats n : ℚ) := by
  have hF : (standardFlats n : ℚ) ≠ 0 := standardFlats_cast_ne n hn
  unfold stonesLedger
  rw [countCells_initBoard n _ (isStoneOf_zero 1),
    countCells_initBoard n _ (isStoneOf_zero (-1))]
  unfold remainingFlats
  rw [if_pos rfl, if_neg (by norm_num)]
  have h1 : initBoard n n 0 0 =
      (standardFlats n : ℚ) / (standardFlats n : ℚ) := by
    unfold initBoard
    rw [if_neg (lt_irrefl n), if_pos rfl]
  have h2 : initBoard n (n + 2) 0 0 =
      (standardFlats n : ℚ) / (standardFlats n : ℚ) := by
    unfold initBoard
    rw [if_neg (by omega), if_neg (by omega), if_neg (by omega), if_pos rfl]
  rw [h1, h2, div_self hF]
  push_cast
  ring

lemma capsLedger_init (n : Nat) :
    capsLedger n (initBoard n) = 2 * (standardCaps n : ℚ) := by
  unfold capsLedger
  rw [countCells_initBoard n _ (isCapOf_zero 1),
    countCells_initBoard n _ (isCapOf_zero (-1))]
  unfold remainingCaps
  rw [if_pos rfl, if_neg (by norm_num)]
  have h1 : initBoard n (n + 1) 0 0 = (standardCaps n : ℚ) := by
    unfold initBoard
    rw [if_neg (by omega), if_neg (by omega), if_pos rfl]
  have h2 : initBoard n (n + 3) 0 0 = (standardCaps n : ℚ) := by
    unfold initBoard
    rw [if_neg (by omega), if_neg (by omega), if_neg (by omega),
      if_neg (by omega), if_pos rfl]
  rw [h1, h2]
  push_cast
  ring

lemma getNextState_conserve (n : Nat) (hn : 0 < n) (b : Board) (player : ℤ)
    (action : Nat) (hcont : Contig n b) (hnl : NoDropLoss n b action) :
    stonesLedger n (getNextState n b player action).1 = stonesLedger n b ∧
      capsLedger n (getNextState n b player action).1 = capsLedger n b := by
  have hnn : 0 < n * n := Nat.mul_pos hn hn
  unfold getNextState
  by_cases hp : action < numPlacement n
  · rw [if_pos hp]
    exact applyPlacement_conserve n hn b player _ _ (Nat.mod_lt _ hnn)
  · rw [if_neg hp]
    have hnlm := hnl (by omega)
    obtain ⟨hcnt, hhigh⟩ := applyMovement_conserve n b player _ _ _
      (Nat.mod_lt _ hnn) hcont hnlm
    constructor
    · unfold stonesLedger
      rw [hcnt _ (isStoneOf_zero 1)
          (fun tp v hv => isStoneOf_flatten 1 tp v hv),
        hcnt _ (isStoneOf_zero (-1))
          (fun tp v hv => isStoneOf_flatten (-1) tp v hv)]
      unfold remainingFlats
      rw [if_pos rfl, if_neg (by norm_num)]
      rw [hhigh n 0 0 (le_refl n), hhigh (n + 2) 0 0 (by omega)]
      norm_num
    · unfold capsLedger
      rw [hcnt _ (isCapOf_zero 1)
          (fun tp v hv => isCapOf_flatten 1 tp v hv),
        hcnt _ (isCapOf_zero (-1))
          (fun tp v hv => isCapOf_flatten (-1) tp v hv)]
      unfold remainingCaps
      rw [if_pos rfl, if_neg (by norm_num)]
      rw [hhigh (n + 1) 0 0 (by omega), hhigh (n + 3) 0 0 (by omega)]
      norm_num

lemma reachableL_invariant (n : Nat) (hn : 0 < n) :
    ∀ (b : Board) (player : ℤ), ReachableL n b player →
      Contig n b ∧ stonesLedger n b = 2 * (standardFlats n : ℚ) ∧
        capsLedger n b = 2 * (standardCaps n : ℚ) := by
  intro b player hreach
  induction hreach with
  | init =>
    exact ⟨contig_initBoard n, stonesLedger_init n hn, capsLedger_init n⟩
  | step b player action hr hv hnl ih =>
    obtain ⟨ic, is, icp⟩ := ih
    have hstep := getNextState_conserve n hn b player action ic hnl
    exact ⟨contig_getNextState n b player action ic, by rw [hstep.1, is],
      by rw [hstep.2, icp]⟩

/-- Counterexample to C2 as stated: the very first legal move of the
game breaks per-side conservation.  White's flat placement at square 0
is legal from the initial 3x3 position, yet afterwards black's stones
on the board plus black's remaining flat counter exceed black's
allotment of 10, because the engine placed a black-owned flat while
decrementing white's counter. -/
theorem claim2_counterexample :
    validMove 3 (initBoard 3) 1 0 = true ∧
    (countCells 3 (getNextState 3 (initBoard 3) 1 0).1
        (isStoneOf (-1)) : ℚ) +
        remainingFlats 3 (getNextState 3 (initBoard 3) 1 0).1 (-1) ≠
      (standardFlats 3 : ℚ) := by
  constructor
  · with_unfolding_all decide
  · with_unfolding_all decide

/-- Claim C2 (amended): pooled supply conservation.  Along any legal
play sequence from the initial board in which no movement drop lands on
a full stack, the total number of stones (flats and standing stones of
both sides) on the board plus the two remaining flat counters always
equals twice the flat allotment, and likewise for capstones.  (The
per-side version of the claim is false because opening placements put
the opponent's piece on the board while charging the mover's counter;
the full-stack proviso is needed because the drop loop silently skips
drops onto full stacks, losing those pieces.) -/
theorem claim2_amended_pooled_conservation (n : Nat) (hn : 0 < n)
    (b : Board) (player : ℤ) (hreach : ReachableL n b player) :
    stonesLedger n b = 2 * (standardFlats n : ℚ) ∧
      capsLedger n b = 2 * (standardCaps n : ℚ) :=
  ⟨(reachableL_invariant n hn b player hreach).2.1,
    (reachableL_invariant n hn b player hreach).2.2⟩

/-- Witness for C2 (amended) at the initial 3x3 position. -/
theorem claim2_witness :
    0 < 3 ∧ ReachableL 3 (initBoard 3) 1 ∧
      (stonesLedger 3 (initBoard 3) = 2 * (standardFlats 3 : ℚ) ∧
        capsLedger 3 (initBoard 3) = 2 * (standardCaps 3 : ℚ)) :=
  ⟨by decide, ReachableL.init,
    claim2_amended_pooled_conservation 3 (by decide) (initBoard 3) 1
      ReachableL.init⟩

/-! Road-detection analysis (C5). -/

lemma adjacent_symm {p q : ℤ × ℤ} (h : Adjacent p q) : Adjacent q p := by
  rcases h with ⟨h1, h2⟩ | ⟨h1, h2⟩
  · left
    omega
  · right
    omega

lemma gstep_symmetric (n : Nat) (b : Board) (tf tc : ℚ) :
    Symmetric (GStep n b tf tc) := by
  intro p q hs
  obtain ⟨ha, hp, hq⟩ := hs
  exact ⟨adjacent_symm ha, hq, hp⟩

lemma valueToPiece_flat_inv (v : ℚ) (tp : ℤ)
    (h : valueToPiece v = some (tp, PieceType.flat)) :
    (v = 1 ∧ tp = 1) ∨ (v = 2 ∧ tp = -1) := by
  unfold valueToPiece at h
  split_ifs at h <;> simp_all

lemma valueToPiece_cap_inv (v : ℚ) (tp : ℤ)
    (h : valueToPiece v = some (tp, PieceType.capstone)) :
    (v = 5 ∧ tp = 1) ∨ (v = 6 ∧ tp = -1) := by
  unfold valueToPiece at h
  split_ifs at h <;> simp_all

lemma valueToPiece_five : valueToPiece 5 = some (1, PieceType.capstone) := by
  unfold valueToPiece
  norm_num

lemma valueToPiece_six : valueToPiece 6 = some (-1, PieceType.capstone) := by
  unfold valueToPiece
  norm_num

lemma roadTop_iff_roadSquare (n : Nat) (b : Board) (player : ℤ)
    (hpl : player = 1 ∨ player = -1) (p : ℤ × ℤ) :
    RoadTop n b player p ↔
      roadSquare n b (if player = 1 then 1 else 2)
        (if player = 1 then 5 else 6) p = true := by
  unfold RoadTop roadSquare
  dsimp only
  rcases hpl with rfl | rfl
  · rw [if_pos rfl, if_pos rfl]
    simp only [Bool.and_eq_true, Bool.or_eq_true, decide_eq_true_eq]
    constructor
    · rintro ⟨hh, hv | hv⟩
      · refine ⟨hh, Or.inl ?_⟩
        rcases valueToPiece_flat_inv _ _ hv with ⟨h1, _⟩ | ⟨h1, h2⟩
        · exact h1
        · exact absurd h2 (by norm_num)
      · refine ⟨hh, Or.inr ?_⟩
        rcases valueToPiece_cap_inv _ _ hv with ⟨h1, _⟩ | ⟨h1, h2⟩
        · exact h1
        · exact absurd h2 (by norm_num)
    · rintro ⟨hh, hv | hv⟩
      · exact ⟨hh, Or.inl (by rw [hv]; exact valueToPiece_one)⟩
      · exact ⟨hh, Or.inr (by rw [hv]; exact valueToPiece_five)⟩
  · rw [if_neg (by norm_num), if_neg (by norm_num)]
    simp only [Bool.and_eq_true, Bool.or_eq_true, decide_eq_true_eq]
    constructor
    · rintro ⟨hh, hv | hv⟩
      · refine ⟨hh, Or.inl ?_⟩
        rcases valueToPiece_flat_inv _ _ hv with ⟨h1, h2⟩ | ⟨h1, _⟩
        · exact absurd h2 (by norm_num)
        · exact h1
      · refine ⟨hh, Or.inr ?_⟩
        rcases valueToPiece_cap_inv _ _ hv with ⟨h1, h2⟩ | ⟨h1, _⟩
        · exact absurd h2 (by norm_num)
        · exact h1
    · rintro ⟨hh, hv | hv⟩
      · exact ⟨hh, Or.inl (by rw [hv]; exact valueToPiece_two)⟩
      · exact ⟨hh, Or.inr (by rw [hv]; exact valueToPiece_six)⟩

lemma goodSq_iff (n : Nat) (b : Board) (player : ℤ)
    (hpl : player = 1 ∨ player = -1) (p : ℤ × ℤ) :
    GoodSq n b (if player = 1 then 1 else 2) (if player = 1 then 5 else 6)
        p ↔ inGrid n p ∧ RoadTop n b player p := by
  unfold GoodSq
  rw [roadTop_iff_roadSquare n b player hpl p]

lemma adjacent_of_offset (r c : ℤ) (o : ℤ × ℤ) (ho : o ∈ nbrOffsets) :
    Adjacent (r, c) (r + o.1, c + o.2) := by
  unfold nbrOffsets at ho
  unfold Adjacent
  simp only [List.mem_cons, List.not_mem_nil, or_false] at ho
  rcases ho with rfl | rfl | rfl | rfl
  · exact Or.inl ⟨by ring, Or.inl (by ring)⟩
  · exact Or.inl ⟨by ring, Or.inr (by ring)⟩
  · exact Or.inr ⟨by ring, Or.inl (by ring)⟩
  · exact Or.inr ⟨by ring, Or.inr (by ring)⟩

lemma adjacent_offset_mem (x y : ℤ × ℤ) (h : Adjacent x y) :
    ∃ o ∈ nbrOffsets, y = (x.1 + o.1, x.2 + o.2) := by
  rcases h with ⟨h1, h2 | h2⟩ | ⟨h1, h2 | h2⟩
  · exact ⟨(0, 1), by simp [nbrOffsets], by
      rw [Prod.ext_iff]
      exact ⟨by simp only; omega, by simp only; omega⟩⟩
  · exact ⟨(0, -1), by simp [nbrOffsets], by
      rw [Prod.ext_iff]
      exact ⟨by simp only; omega, by simp only; omega⟩⟩
  · exact ⟨(1, 0), by simp [nbrOffsets], by
      rw [Prod.ext_iff]
      exact ⟨by simp only; omega, by simp only; omega⟩⟩
  · exact ⟨(-1, 0), by simp [nbrOffsets], by
      rw [Prod.ext_iff]
      exact ⟨by simp only; omega, by simp only; omega⟩⟩

lemma enqNbrs_spec (n : Nat) (b : Board) (tf tc : ℚ) (r c : ℤ) :
    ∀ (os : List (ℤ × ℤ)) (v q : List (ℤ × ℤ)),
      ∃ news : List (ℤ × ℤ),
        (enqNbrs n b tf tc r c os v q).1 = v ++ news ∧
        (enqNbrs n b tf tc r c os v q).2 = q ++ news ∧
        (v.Nodup → (v ++ news).Nodup) ∧
        (∀ y ∈ news, inGrid n y ∧ roadSquare n b tf tc y = true ∧
          ∃ o ∈ os, y = (r + o.1, c + o.2)) ∧
        (∀ o ∈ os, inGrid n (r + o.1, c + o.2) →
          roadSquare n b tf tc (r + o.1, c + o.2) = true →
          (r + o.1, c + o.2) ∈ v ++ news) := by
  intro os
  induction os with
  | nil =>
    intro v q
    refine ⟨[], by simp [enqNbrs], by simp [enqNbrs], fun h => by simpa, ?_, ?_⟩
    · intro y hy
      exact absurd hy (List.not_mem_nil y)
    · intro o ho
      exact absurd ho (List.not_mem_nil o)
  | cons o os ih =>
    intro v q
    simp only [enqNbrs]
    by_cases h1 : (r + o.1, c + o.2) ∈ v
    · rw [if_pos h1]
      obtain ⟨news, e1, e2, e3, e4, e5⟩ := ih v q
      refine ⟨news, e1, e2, e3, ?_, ?_⟩
      · intro y hy
        obtain ⟨g1, g2, o', ho', hy'⟩ := e4 y hy
        exact ⟨g1, g2, o', List.mem_cons_of_mem o ho', hy'⟩
      · intro o' ho' hg hr
        rcases List.mem_cons.mp ho' with rfl | ho''
        · exact List.mem_append_left _ h1
        · exact e5 o' ho'' hg hr
    · rw [if_neg h1]
      by_cases h2 : inGrid n (r + o.1, c + o.2)
      · rw [if_neg (fun hcon => hcon h2)]
        by_cases h3 : roadSquare n b tf tc (r + o.1, c + o.2) = true
        · rw [if_pos h3]
          obtain ⟨news, e1, e2, e3, e4, e5⟩ :=
            ih (v ++ [(r + o.1, c + o.2)]) (q ++ [(r + o.1, c + o.2)])
          refine ⟨(r + o.1, c + o.2) :: news, ?_, ?_, ?_, ?_, ?_⟩
          · rw [e1, List.append_assoc]
            rfl
          · rw [e2, List.append_assoc]
            rfl
          · intro hv
            have hmid : (v ++ [(r + o.1, c + o.2)]).Nodup := by
              rw [List.nodup_append]
              refine ⟨hv, List.nodup_singleton _, ?_⟩
              intro a ha hb
              rcases List.mem_singleton.mp hb with rfl
              exact h1 ha
            have := e3 hmid
            rwa [List.append_assoc] at this
          · intro y hy
            rcases List.mem_cons.mp hy with rfl | hy'
            · exact ⟨h2, h3, o, List.mem_cons_self o os, rfl⟩
            · obtain ⟨g1, g2, o', ho', hy''⟩ := e4 y hy'
              exact ⟨g1, g2, o', List.mem_cons_of_mem o ho', hy''⟩
          · intro o' ho' hg hr
            rcases List.mem_cons.mp ho' with rfl | ho''
            · exact List.mem_append_right _ (List.mem_cons_self _ _)
            · have := e5 o' ho'' hg hr
              rwa [List.append_assoc] at this
        · rw [if_neg h3]
          obtain ⟨news, e1, e2, e3, e4, e5⟩ := ih v q
          refine ⟨news, e1, e2, e3, ?_, ?_⟩
          · intro y hy
            obtain ⟨g1, g2, o', ho', hy'⟩ := e4 y hy
            exact ⟨g1, g2, o', List.mem_cons_of_mem o ho', hy'⟩
          · intro o' ho' hg hr
            rcases List.mem_cons.mp ho' with rfl | ho''
            · exact absurd hr h3
            · exact e5 o' ho'' hg hr
      · rw [if_pos h2]
        obtain ⟨news, e1, e2, e3, e4, e5⟩ := ih v q
        refine ⟨news, e1, e2, e3, ?_, ?_⟩
        · intro y hy
          obtain ⟨g1, g2, o', ho', hy'⟩ := e4 y hy
          exact ⟨g1, g2, o', List.mem_cons_of_mem o ho', hy'⟩
        · intro o' ho' hg hr
          rcases List.mem_cons.mp ho' with rfl | ho''
          · exact absurd hg h2
          · exact e5 o' ho'' hg hr

lemma nodup_grid_length_le (n : Nat) (v : List (ℤ × ℤ)) (hnd : v.Nodup)
    (hg : ∀ p ∈ v, inGrid n p) : v.length ≤ n * n := by
  have hsub : v ⊆ (List.range n).flatMap
      fun (rr : Nat) => (List.range n).map
        fun (cc : Nat) => ((rr : ℤ), (cc : ℤ)) := by
    intro p hp
    obtain ⟨g1, g2, g3, g4⟩ := hg p hp
    rw [List.mem_flatMap]
    refine ⟨p.1.toNat, List.mem_range.mpr (by omega), ?_⟩
    rw [List.mem_map]
    refine ⟨p.2.toNat, List.mem_range.mpr (by omega), ?_⟩
    rw [Prod.ext_iff]
    constructor
    · simp only
      omega
    · simp only
      omega
  have hsp := List.Nodup.subperm hnd hsub
  have hle := hsp.length_le
  have hlen : ((List.range n).flatMap
      fun (rr : Nat) => (List.range n).map
        fun (cc : Nat) => ((rr : ℤ), (cc : ℤ))).length = n * n := by
    rw [List.length_flatMap]
    simp only [Function.comp_def]
    have hmap : ((List.range n).map fun (rr : Nat) =>
        ((List.range n).map fun (cc : Nat) => ((rr : ℤ), (cc : ℤ))).length) =
        (List.range n).map fun _ => n := by
      apply List.map_congr_left
      intro a _
      rw [List.length_map, List.length_range]
    rw [hmap]
    have hrep : ((List.range n).map fun _ => n) = List.replicate n n := by
      rw [List.eq_replicate_iff]
      constructor
      · rw [List.length_map, List.length_range]
      · intro x hx
        rcases List.mem_map.mp hx with ⟨a, _, rfl⟩
        rfl
    rw [hrep, List.sum_replicate, smul_eq_mul]
  omega

lemma bfsLoop_sound (n : Nat) (b : Board) (tf tc : ℚ) (isHoriz : Bool)
    (start : ℤ × ℤ) :
    ∀ (fuel : Nat) (v q : List (ℤ × ℤ)),
      (∀ p ∈ q, GoodSq n b tf tc p ∧
        Relation.ReflTransGen (GStep n b tf tc) start p) →
      bfsLoop n b tf tc isHoriz fuel v q = true →
      ∃ z, FarEdge n isHoriz z ∧ GoodSq n b tf tc z ∧
        Relation.ReflTransGen (GStep n b tf tc) start z := by
  intro fuel
  induction fuel with
  | zero =>
    intro v q hq hrun
    cases q with
    | nil => simp [bfsLoop] at hrun
    | cons p rest => simp [bfsLoop] at hrun
  | succ fuel ih =>
    intro v q hq hrun
    cases q with
    | nil => simp [bfsLoop] at hrun
    | cons p rest =>
      simp only [bfsLoop] at hrun
      by_cases hfar : (isHoriz = true ∧ p.2 = (n : ℤ) - 1) ∨
          (¬ (isHoriz = true) ∧ p.1 = (n : ℤ) - 1)
      · obtain ⟨hpg, hpr⟩ := hq p (List.mem_cons_self p rest)
        refine ⟨p, ?_, hpg, hpr⟩
        rcases hfar with ⟨hb, he⟩ | ⟨hb, he⟩
        · exact Or.inl ⟨hb, he⟩
        · refine Or.inr ⟨?_, he⟩
          revert hb
          cases isHoriz <;> simp
      · rw [if_neg hfar] at hrun
        obtain ⟨news, e1, e2, e3, e4, e5⟩ :=
          enqNbrs_spec n b tf tc p.1 p.2 nbrOffsets v rest
        rw [e1, e2] at hrun
        refine ih (v ++ news) (rest ++ news) ?_ hrun
        intro x hx
        rcases List.mem_append.mp hx with hx' | hx'
        · exact hq x (List.mem_cons_of_mem p hx')
        · obtain ⟨g1, g2, o, ho, hx''⟩ := e4 x hx'
          obtain ⟨hpg, hpr⟩ := hq p (List.mem_cons_self p rest)
          have hadj : Adjacent p x := by
            rw [hx'']
            have := adjacent_of_offset p.1 p.2 o ho
            rwa [Prod.mk.eta] at this
          have hxg : GoodSq n b tf tc x := ⟨g1, g2⟩
          exact ⟨hxg, hpr.tail ⟨hadj, hpg, hxg⟩⟩

lemma bfs_rescue (n : Nat) (b : Board) (tf tc : ℚ) (isHoriz : Bool)
    (P Q : List (ℤ × ℤ))
    (hclosed : ∀ x ∈ P, ∀ y, Adjacent x y → inGrid n y →
      roadSquare n b tf tc y = true → y ∈ P ++ Q)
    (hnofar : ∀ x ∈ P, ¬ FarEdge n isHoriz x) :
    ∀ x z, Relation.ReflTransGen (GStep n b tf tc) x z →
      FarEdge n isHoriz z → x ∈ P ++ Q →
      ∃ w ∈ Q, Relation.ReflTransGen (GStep n b tf tc) w z := by
  intro x z hxz
  induction hxz using Relation.ReflTransGen.head_induction_on with
  | refl =>
    intro hfz hxv
    rcases List.mem_append.mp hxv with hxp | hxq
    · exact absurd hfz (hnofar _ hxp)
    · exact ⟨z, hxq, Relation.ReflTransGen.refl⟩
  | head hstep htail ih =>
    intro hfz hxv
    rcases List.mem_append.mp hxv with hxp | hxq
    · obtain ⟨hadj, hxg, hyg⟩ := hstep
      have hyv := hclosed _ hxp _ hadj hyg.1 hyg.2
      exact ih hfz hyv
    · exact ⟨_, hxq, Relation.ReflTransGen.head hstep htail⟩

lemma bfsLoop_complete (n : Nat) (b : Board) (tf tc : ℚ) (isHoriz : Bool) :
    ∀ (fuel : Nat) (processed v q : List (ℤ × ℤ)),
      v = processed ++ q →
      v.Nodup →
      (∀ p ∈ v, inGrid n p) →
      (∀ x ∈ processed, ∀ y, Adjacent x y → inGrid n y →
        roadSquare n b tf tc y = true → y ∈ v) →
      (∀ x ∈ processed, ¬ FarEdge n isHoriz x) →
      (∃ w, w ∈ q ∧ ∃ z, FarEdge n isHoriz z ∧
        Relation.ReflTransGen (GStep n b tf tc) w z) →
      n * n - v.length + q.length < fuel →
      bfsLoop n b tf tc isHoriz fuel v q = true := by
  intro fuel
  induction fuel with
  | zero =>
    intro processed v q hv hnd hgrid hclosed hnofar hwit hm
    exact absurd hm (Nat.not_lt_zero _)
  | succ fuel ih =>
    intro processed v q hv hnd hgrid hclosed hnofar hwit hm
    obtain ⟨w, hwq, z, hzfar, hwz⟩ := hwit
    cases q with
    | nil => exact absurd hwq (List.not_mem_nil w)
    | cons p rest =>
      simp only [bfsLoop]
      by_cases hfar : (isHoriz = true ∧ p.2 = (n : ℤ) - 1) ∨
          (¬ (isHoriz = true) ∧ p.1 = (n : ℤ) - 1)
      · rw [if_pos hfar]
      · rw [if_neg hfar]
        have hpfar : ¬ FarEdge n isHoriz p := by
          intro hcon
          rcases hcon with ⟨h1, h2⟩ | ⟨h1, h2⟩
          · exact hfar (Or.inl ⟨h1, h2⟩)
          · exact hfar (Or.inr ⟨by rw [h1]; simp, h2⟩)
        obtain ⟨news, e1, e2, e3, e4, e5⟩ :=
          enqNbrs_spec n b tf tc p.1 p.2 nbrOffsets v rest
        rw [e1, e2]
        have hv' : v ++ news = (processed ++ [p]) ++ (rest ++ news) := by
          rw [hv]
          simp
        have hnd' := e3 hnd
        have hgrid' : ∀ x ∈ v ++ news, inGrid n x := by
          intro x hx
          rcases List.mem_append.mp hx with hx' | hx'
          · exact hgrid x hx'
          · exact (e4 x hx').1
        have hclosed' : ∀ x ∈ processed ++ [p], ∀ y, Adjacent x y →
            inGrid n y → roadSquare n b tf tc y = true → y ∈ v ++ news := by
          intro x hx y hadj hgy hry
          rcases List.mem_append.mp hx with hx' | hx'
          · exact List.mem_append_left _ (hclosed x hx' y hadj hgy hry)
          · rcases List.mem_singleton.mp hx' with rfl
            obtain ⟨o, ho, rfl⟩ := adjacent_offset_mem x y hadj
            exact e5 o ho hgy hry
        have hnofar' : ∀ x ∈ processed ++ [p], ¬ FarEdge n isHoriz x := by
          intro x hx
          rcases List.mem_append.mp hx with hx' | hx'
          · exact hnofar x hx'
          · rcases List.mem_singleton.mp hx' with rfl
            exact hpfar
        have hresc := bfs_rescue n b tf tc isHoriz (processed ++ [p])
          (rest ++ news)
          (by
            intro x hx y hadj hgy hry
            rw [← hv']
            exact hclosed' x hx y hadj hgy hry)
          hnofar'
        have hwin' : ∃ w', w' ∈ rest ++ news ∧ ∃ z', FarEdge n isHoriz z' ∧
            Relation.ReflTransGen (GStep n b tf tc) w' z' := by
          rcases List.mem_cons.mp hwq with rfl | hw'
          · have hwv : w ∈ (processed ++ [w]) ++ (rest ++ news) := by
              apply List.mem_append_left
              exact List.mem_append_right _ (List.mem_singleton.mpr rfl)
            obtain ⟨w', hw', hw'z⟩ := hresc w z hwz hzfar hwv
            exact ⟨w', hw', z, hzfar, hw'z⟩
          · exact ⟨w, List.mem_append_left _ hw', z, hzfar, hwz⟩
        have hlen' : (v ++ news).length ≤ n * n :=
          nodup_grid_length_le n _ hnd' hgrid'
        apply ih (processed ++ [p]) (v ++ news) (rest ++ news) hv' hnd'
          hgrid' hclosed' hnofar' hwin'
        rw [List.length_append, List.length_append] at *
        simp only [List.length_cons] at hm
        omega

lemma roadSquare_start (n : Nat) (b : Board) (tf tc : ℚ) (sr sc : Nat)
    (hh : stackHeight n b sr sc ≠ 0)
    (htop : b (stackHeight n b sr sc - 1) sr sc = tf ∨
      b (stackHeight n b sr sc - 1) sr sc = tc) :
    roadSquare n b tf tc ((sr : ℤ), (sc : ℤ)) = true := by
  unfold roadSquare
  dsimp only
  rw [Int.toNat_natCast, Int.toNat_natCast]
  rw [Bool.and_eq_true, Bool.or_eq_true]
  refine ⟨decide_eq_true (by omega), ?_⟩
  rcases htop with h | h
  · exact Or.inl (decide_eq_true h)
  · exact Or.inr (decide_eq_true h)

lemma roadSquare_start_inv (n : Nat) (b : Board) (tf tc : ℚ) (sr sc : Nat)
    (h : roadSquare n b tf tc ((sr : ℤ), (sc : ℤ)) = true) :
    stackHeight n b sr sc ≠ 0 ∧
      (b (stackHeight n b sr sc - 1) sr sc = tf ∨
        b (stackHeight n b sr sc - 1) sr sc = tc) := by
  unfold roadSquare at h
  dsimp only at h
  rw [Int.toNat_natCast, Int.toNat_natCast] at h
  rw [Bool.and_eq_true, Bool.or_eq_true] at h
  obtain ⟨h1, h2⟩ := h
  have h1' := of_decide_eq_true h1
  refine ⟨by omega, ?_⟩
  rcases h2 with h | h
  · exact Or.inl (of_decide_eq_true h)
  · exact Or.inr (of_decide_eq_true h)

lemma hasRoadFrom_sound (n : Nat) (b : Board) (tf tc : ℚ) (isHoriz : Bool)
    (sr sc : Nat) (hsr : sr < n) (hsc : sc < n)
    (hrun : hasRoadFrom n b sr sc tf tc isHoriz = true) :
    GoodSq n b tf tc ((sr : ℤ), (sc : ℤ)) ∧
    ∃ z, FarEdge n isHoriz z ∧ GoodSq n b tf tc z ∧
      Relation.ReflTransGen (GStep n b tf tc) ((sr : ℤ), (sc : ℤ)) z := by
  unfold hasRoadFrom at hrun
  dsimp only at hrun
  by_cases h1 : stackHeight n b sr sc = 0
  · rw [if_pos h1] at hrun
    exact absurd hrun (by simp)
  rw [if_neg h1] at hrun
  by_cases h2 : b (stackHeight n b sr sc - 1) sr sc ≠ tf ∧
      b (stackHeight n b sr sc - 1) sr sc ≠ tc
  · rw [if_pos h2] at hrun
    exact absurd hrun (by simp)
  rw [if_neg h2] at hrun
  have htop : b (stackHeight n b sr sc - 1) sr sc = tf ∨
      b (stackHeight n b sr sc - 1) sr sc = tc := by
    by_cases ha : b (stackHeight n b sr sc - 1) sr sc = tf
    · exact Or.inl ha
    · by_cases hb : b (stackHeight n b sr sc - 1) sr sc = tc
      · exact Or.inr hb
      · exact absurd ⟨ha, hb⟩ h2
  have hgood : GoodSq n b tf tc ((sr : ℤ), (sc : ℤ)) := by
    refine ⟨⟨?_, ?_, ?_, ?_⟩, roadSquare_start n b tf tc sr sc h1 htop⟩
    · simp only
      omega
    · simp only
      exact_mod_cast hsr
    · simp only
      omega
    · simp only
      exact_mod_cast hsc
  obtain ⟨z, hzf, hzg, hzr⟩ := bfsLoop_sound n b tf tc isHoriz
    ((sr : ℤ), (sc : ℤ)) (n * n + 1) [((sr : ℤ), (sc : ℤ))]
    [((sr : ℤ), (sc : ℤ))]
    (by
      intro p hp
      rcases List.mem_singleton.mp hp with rfl
      exact ⟨hgood, Relation.ReflTransGen.refl⟩) hrun
  exact ⟨hgood, z, hzf, hzg, hzr⟩

lemma hasRoadFrom_complete (n : Nat) (b : Board) (tf tc : ℚ)
    (isHoriz : Bool) (sr sc : Nat) (_hsr : sr < n) (hsc : sc < n)
    (hgood : GoodSq n b tf tc ((sr : ℤ), (sc : ℤ)))
    (hpath : ∃ z, FarEdge n isHoriz z ∧
      Relation.ReflTransGen (GStep n b tf tc) ((sr : ℤ), (sc : ℤ)) z) :
    hasRoadFrom n b sr sc tf tc isHoriz = true := by
  unfold hasRoadFrom
  dsimp only
  obtain ⟨hh, htop⟩ := roadSquare_start_inv n b tf tc sr sc hgood.2
  rw [if_neg hh]
  rw [if_neg (fun hcon => by
    rcases htop with h | h
    · exact hcon.1 h
    · exact hcon.2 h)]
  obtain ⟨z, hzf, hzr⟩ := hpath
  apply bfsLoop_complete n b tf tc isHoriz (n * n + 1) []
    [((sr : ℤ), (sc : ℤ))] [((sr : ℤ), (sc : ℤ))] rfl
    (List.nodup_singleton _)
    (by
      intro p hp
      rcases List.mem_singleton.mp hp with rfl
      exact hgood.1)
    (by
      intro x hx
      exact absurd hx (List.not_mem_nil x))
    (by
      intro x hx
      exact absurd hx (List.not_mem_nil x))
    ⟨((sr : ℤ), (sc : ℤ)), List.mem_singleton.mpr rfl, z, hzf, hzr⟩
  simp only [List.length_cons, List.length_nil]
  have hnn : 0 < n * n := Nat.mul_pos (by omega) (by omega)
  omega

lemma chain_mem_pred {α : Type _} {r : α → α → Prop} :
    ∀ (a : α) (l : List α), List.Chain r a l → ∀ x ∈ l, ∃ y, r y x := by
  intro a l
  induction l generalizing a with
  | nil =>
    intro _ x hx
    exact absurd hx (List.not_mem_nil x)
  | cons bhd tl ih =>
    intro hch x hx
    rcases List.chain_cons.mp hch with ⟨hr, hch'⟩
    rcases List.mem_cons.mp hx with rfl | hx'
    · exact ⟨a, hr⟩
    · exact ih bhd hch' x hx'

lemma chain_rtg (n : Nat) (b : Board) (tf tc : ℚ) :
    ∀ (a : ℤ × ℤ) (l : List (ℤ × ℤ)), List.Chain Adjacent a l →
      (∀ p ∈ a :: l, GoodSq n b tf tc p) →
      ∀ x ∈ a :: l, Relation.ReflTransGen (GStep n b tf tc) a x := by
  intro a l
  induction l generalizing a with
  | nil =>
    intro _ _ x hx
    rcases List.mem_singleton.mp hx with rfl
    exact Relation.ReflTransGen.refl
  | cons c tl ih =>
    intro hch hgood x hx
    rcases List.chain_cons.mp hch with ⟨hr, hch'⟩
    rcases List.mem_cons.mp hx with rfl | hx'
    · exact Relation.ReflTransGen.refl
    · have hstep : GStep n b tf tc a c :=
        ⟨hr, hgood a (List.mem_cons_self a _),
          hgood c (List.mem_cons_of_mem a (List.mem_cons_self c tl))⟩
      exact Relation.ReflTransGen.head hstep
        (ih c hch' (fun p hp => hgood p (List.mem_cons_of_mem a hp)) x hx')

/-- Claim C5: road detection is exactly edge-to-edge 4-connectivity.
For either real player, _check_road returns True precisely when there is
a 4-connected path of on-board squares, each topped by that player's
flat or capstone, joining column 0 to column n-1 or row 0 to row n-1;
the loops over all first-column and first-row squares make the search
succeed for roads through any edge square, not only through (0,0). -/
theorem claim5_road_detection_iff (n : Nat) (b : Board) (player : ℤ)
    (hpl : player = 1 ∨ player = -1) :
    checkRoad n b player = true ↔ RoadExists n b player := by
  set tf : ℚ := if player = 1 then 1 else 2 with htf
  set tc : ℚ := if player = 1 then 5 else 6 with htc
  have hcr : checkRoad n b player =
      (((List.range n).any fun row => hasRoadFrom n b row 0 tf tc true) ||
       ((List.range n).any fun col => hasRoadFrom n b 0 col tf tc false)) :=
    rfl
  have hsym : Symmetric (Relation.ReflTransGen (GStep n b tf tc)) :=
    Relation.ReflTransGen.symmetric (gstep_symmetric n b tf tc)
  have hgi : ∀ p, GoodSq n b tf tc p ↔ inGrid n p ∧ RoadTop n b player p := by
    intro p
    have h := goodSq_iff n b player hpl p
    rw [← htf, ← htc] at h
    exact h
  rw [hcr]
  constructor
  · intro hrun
    rw [Bool.or_eq_true] at hrun
    rcases hrun with hrun | hrun
    · rw [List.any_eq_true] at hrun
      obtain ⟨row, hrow, hro⟩ := hrun
      have hrown := List.mem_range.mp hrow
      obtain ⟨hgood, z, hzf, hzg, hzr⟩ :=
        hasRoadFrom_sound n b tf tc true row 0 hrown (by omega) hro
      obtain ⟨l, hch, hlast⟩ := List.exists_chain_of_relationReflTransGen hzr
      have hgoodall : ∀ p ∈ ((row : ℤ), ((0 : Nat) : ℤ)) :: l,
          GoodSq n b tf tc p := by
        intro p hp
        rcases List.mem_cons.mp hp with rfl | hp'
        · exact hgood
        · obtain ⟨y, hy⟩ := chain_mem_pred _ l hch p hp'
          exact hy.2.2
      have hzmem : z ∈ ((row : ℤ), ((0 : Nat) : ℤ)) :: l := by
        have := List.getLast_mem (List.cons_ne_nil ((row : ℤ), ((0 : Nat) : ℤ)) l)
        rwa [hlast] at this
      refine ⟨((row : ℤ), ((0 : Nat) : ℤ)), l,
        List.Chain.imp (fun a b hs => hs.1) hch, ?_, Or.inl ⟨?_, ?_⟩⟩
      · intro p hp
        exact (hgi p).mp (hgoodall p hp)
      · exact ⟨((row : ℤ), ((0 : Nat) : ℤ)), List.mem_cons_self _ _, by simp⟩
      · refine ⟨z, hzmem, ?_⟩
        rcases hzf with ⟨_, h⟩ | ⟨hb, _⟩
        · exact h
        · exact absurd hb (by simp)
    · rw [List.any_eq_true] at hrun
      obtain ⟨col, hcol, hro⟩ := hrun
      have hcoln := List.mem_range.mp hcol
      obtain ⟨hgood, z, hzf, hzg, hzr⟩ :=
        hasRoadFrom_sound n b tf tc false 0 col (by omega) hcoln hro
      obtain ⟨l, hch, hlast⟩ := List.exists_chain_of_relationReflTransGen hzr
      have hgoodall : ∀ p ∈ (((0 : Nat) : ℤ), (col : ℤ)) :: l,
          GoodSq n b tf tc p := by
        intro p hp
        rcases List.mem_cons.mp hp with rfl | hp'
        · exact hgood
        · obtain ⟨y, hy⟩ := chain_mem_pred _ l hch p hp'
          exact hy.2.2
      have hzmem : z ∈ (((0 : Nat) : ℤ), (col : ℤ)) :: l := by
        have := List.getLast_mem (List.cons_ne_nil (((0 : Nat) : ℤ), (col : ℤ)) l)
        rwa [hlast] at this
      refine ⟨(((0 : Nat) : ℤ), (col : ℤ)), l,
        List.Chain.imp (fun a b hs => hs.1) hch, ?_, Or.inr ⟨?_, ?_⟩⟩
      · intro p hp
        exact (hgi p).mp (hgoodall p hp)
      · exact ⟨(((0 : Nat) : ℤ), (col : ℤ)), List.mem_cons_self _ _, by simp⟩
      · refine ⟨z, hzmem, ?_⟩
        rcases hzf with ⟨hb, _⟩ | ⟨_, h⟩
        · exact absurd hb (by simp)
        · exact h
  · rintro ⟨a, l, hch, hmem, hedges⟩
    have hgoodall : ∀ p ∈ a :: l, GoodSq n b tf tc p := by
      intro p hp
      exact (hgi p).mpr (hmem p hp)
    have hrtg := chain_rtg n b tf tc a l hch hgoodall
    rw [Bool.or_eq_true]
    rcases hedges with ⟨⟨e0, he0m, he0c⟩, ⟨e1, he1m, he1c⟩⟩ |
      ⟨⟨e0, he0m, he0c⟩, ⟨e1, he1m, he1c⟩⟩
    · left
      rw [List.any_eq_true]
      obtain ⟨g1, g2, g3, g4⟩ := (hgoodall e0 he0m).1
      refine ⟨e0.1.toNat, List.mem_range.mpr (by omega), ?_⟩
      have hse : ((e0.1.toNat : ℤ), ((0 : Nat) : ℤ)) = e0 := by
        rw [Prod.ext_iff]
        constructor
        · simp only
          omega
        · simp only [Nat.cast_zero]
          omega
      apply hasRoadFrom_complete n b tf tc true e0.1.toNat 0 (by omega)
        (by omega)
      · rw [hse]
        exact hgoodall e0 he0m
      · refine ⟨e1, Or.inl ⟨rfl, he1c⟩, ?_⟩
        rw [hse]
        exact Relation.ReflTransGen.trans (hsym (hrtg e0 he0m))
          (hrtg e1 he1m)
    · right
      rw [List.any_eq_true]
      obtain ⟨g1, g2, g3, g4⟩ := (hgoodall e0 he0m).1
      refine ⟨e0.2.toNat, List.mem_range.mpr (by omega), ?_⟩
      have hse : (((0 : Nat) : ℤ), (e0.2.toNat : ℤ)) = e0 := by
        rw [Prod.ext_iff]
        constructor
        · simp only [Nat.cast_zero]
          omega
        · simp only
          omega
      apply hasRoadFrom_complete n b tf tc false 0 e0.2.toNat (by omega)
        (by omega)
      · rw [hse]
        exact hgoodall e0 he0m
      · refine ⟨e1, Or.inr ⟨rfl, he1c⟩, ?_⟩
        rw [hse]
        exact Relation.ReflTransGen.trans (hsym (hrtg e0 he0m))
          (hrtg e1 he1m)

/-- Witness for C5: on the 3x3 board with white flats across row 0,
_check_road finds white's horizontal road, and by the claim theorem the
claim-side 4-connected road also exists. -/
theorem claim5_witness :
    checkRoad 3 roadBoard 1 = true ∧ RoadExists 3 roadBoard 1 :=
  ⟨by decide,
    (claim5_road_detection_iff 3 roadBoard 1 (by decide)).mp (by decide)⟩

end Tak
